import Mathlib

/-!
Verification development for the SQL lexical scanner (package lexer,
the complete draft: Item/ItemType, the rune-buffered Lexer and the
state functions lexWhitespace, lexSingleLineComment, lexMultiLineComment,
lexOperator, lexNumber, lexString, lexIdentifierOrKeyword).

Embedding notes.

A rune is modelled as `Option Char`: `none` is the EOF sentinel (the Go
code uses the out-of-band rune value -1, named EOF, which is not a valid
Unicode scalar value, so `Option` is a faithful carrier).

The Go Lexer holds an io.RuneReader plus a rune buffer and an index
(`buffer`, `bufferPos`); reading from the reader is deterministic, so
moving a rune from the reader into the buffer is unobservable. The state
is therefore collapsed into a single list `stream` (the buffer followed by
the runes the reader has not yet produced) and the index `pos`
(= bufferPos). Reading past the end of the input appends the EOF sentinel
to the stream exactly as the Go code appends the EOF rune to its buffer.
`start` models `inputCurrentStart`; it is an `Int` because the Go field is
an int and the byte-length accounting in `ignore` adds utf8.RuneLen of
each rune, which is -1 for the EOF sentinel.

Strings: Go's string([]rune) conversion renders the invalid rune -1 as
the replacement character U+FFFD; `runesToString` mirrors that. The
two-rune lookahead `peekNext(2)` is compared against "--", "/*" and "*/"
in the source; the model compares rune lists against the corresponding
character lists, which agrees with Go's string comparison because none of
those patterns contains U+FFFD.

unicode.IsLetter and unicode.IsDigit are modelled by their ASCII
restrictions (Char.isAlpha, Char.isDigit); every concrete input considered
here is ASCII, and the structural theorems do not depend on the exact
character classification.

A Go panic (the backup contract violation in backupWith, and the spot
where acceptWhile would loop forever reading EOF) is modelled as the
`GoPanic` error of an `Except`: it is a distinct outcome, out of band of
the emitted token stream.
-/

/-- Rune models the Go rune values flowing through the lexer: a real
character, or none for the out-of-band EOF sentinel (Go's const EOF = -1). -/
abbrev Rune := Option Char

/-- ItemType identifies the type of lex Items (the iota enumeration of the
source, including the ItemStetementEnd typo). -/
inductive ItemType where
  | ItemError
  | ItemEOF
  | ItemWhitespace
  | ItemSingleLineComment
  | ItemMultiLineComment
  | ItemKeyword
  | ItemIdentifier
  | ItemOperator
  | ItemLeftParen
  | ItemRightParen
  | ItemComma
  | ItemDot
  | ItemStetementEnd
  | ItemNumber
  | ItemString
deriving Repr, DecidableEq

export ItemType (ItemError ItemEOF ItemWhitespace ItemSingleLineComment
  ItemMultiLineComment ItemKeyword ItemIdentifier ItemOperator ItemLeftParen
  ItemRightParen ItemComma ItemDot ItemStetementEnd ItemNumber ItemString)

/-- Item represents a token or text string returned from the scanner:
Type, Pos (starting byte position) and Val of the Go struct. -/
structure Item where
  type : ItemType
  pos : Int
  val : String
deriving Repr, DecidableEq

/-- GoPanic models a Go panic: a fault that aborts the scan out of band of
the token stream (it never appears as an Item). -/
structure GoPanic where
  message : String
deriving Repr, DecidableEq

/-- Lexer holds the state of the scanner: the merged rune stream (buffer
followed by the unread remainder of the input), the consumption index
bufferPos, and inputCurrentStart. -/
structure Lexer where
  stream : List Rune
  pos : Nat
  start : Int
deriving Repr, DecidableEq

/-- Replacement character U+FFFD, the image of the invalid rune -1 under
Go's string conversion. -/
def replacementChar : Char := '�'

/-- Go's string([]rune) conversion: each rune becomes its character, the
EOF sentinel (invalid rune) becomes U+FFFD. -/
def runesToString (rs : List Rune) : String :=
  ⟨rs.map (fun r => r.getD replacementChar)⟩

/-- Go's utf8.RuneLen: the number of bytes of the UTF-8 encoding for a
valid rune, and -1 for the invalid EOF sentinel. -/
def runeLen (r : Rune) : Int :=
  match r with
  | some c => (c.utf8Size : Int)
  | none => -1

/-- Byte length of a rune span, as ignore() sums it with utf8.RuneLen. -/
def byteLen (rs : List Rune) : Int :=
  (rs.map runeLen).sum

namespace Lexer

/-- Lexer.next returns the next rune in the input: the buffered rune at
bufferPos if any, else one read from the reader (the EOF sentinel once the
input is exhausted, appended to the buffer like the Go code appends it). -/
def next (l : Lexer) : Rune × Lexer :=
  if h : l.pos < l.stream.length then
    (l.stream.get ⟨l.pos, h⟩, { l with pos := l.pos + 1 })
  else
    (none, { l with stream := l.stream ++ [none], pos := l.pos + 1 })

/-- Lexer.peek returns but does not consume the next rune in the input. -/
def peek (l : Lexer) : Rune × Lexer :=
  if h : l.pos < l.stream.length then
    (l.stream.get ⟨l.pos, h⟩, l)
  else
    (none, { l with stream := l.stream ++ [none] })

/-- Lexer.peekNext returns but does not consume the next `n` runes,
reading ahead (and buffering EOF sentinels) as needed. The source returns
the span converted to a string; the model keeps the rune list. -/
def peekNext (n : Nat) (l : Lexer) : List Rune × Lexer :=
  let l' : Lexer := { l with stream := l.stream ++ List.replicate (l.pos + n - l.stream.length) none }
  ((l'.stream.drop l.pos).take n, l')

/-- Lexer.backupWith steps back `length` runes; rewinding past the start of
the buffered span is the Go panic of the source, a programming-contract
violation reported out of band. -/
def backupWith (n : Nat) (l : Lexer) : Except GoPanic Lexer :=
  if l.pos < n then
    .error ⟨"lexer: trying to backup with " ++ Nat.repr n ++
      " when the buffer position is " ++ Nat.repr l.pos⟩
  else
    .ok { l with pos := l.pos - n }

/-- Lexer.backup steps back one rune. -/
def backup (l : Lexer) : Except GoPanic Lexer :=
  backupWith 1 l

/-- Lexer.ignore skips over the pending input before this point: advances
inputCurrentStart by the summed utf8.RuneLen byte lengths and drops the
consumed span. -/
def ignore (l : Lexer) : Lexer :=
  { stream := l.stream.drop l.pos
    pos := 0
    start := l.start + byteLen (l.stream.take l.pos) }

/-- Lexer.emit passes an Item (type, inputCurrentStart, the consumed span
as a string) back to the client and ignores the span. -/
def emit (t : ItemType) (l : Lexer) : Item × Lexer :=
  (⟨t, l.start, runesToString (l.stream.take l.pos)⟩, l.ignore)

/-- Lexer.accept consumes the next rune if it is from the valid set
(strings.IndexRune never matches the EOF sentinel for the sets used). -/
def accept (valid : List Char) (l : Lexer) : Except GoPanic (Nat × Lexer) :=
  let (r, l₁) := l.next
  match r with
  | some c =>
      if valid.contains c then .ok (1, l₁)
      else (backupWith 1 l₁).map (fun l₂ => (0, l₂))
  | none => (backupWith 1 l₁).map (fun l₂ => (0, l₂))

/-- Lexer.realAvail counts the real (non-sentinel) runes at or after the
consumption index; every loop of the scanner consumes at least one real
rune per iteration, so this is the termination measure. -/
def realAvail (l : Lexer) : Nat :=
  (l.stream.drop l.pos).countP Option.isSome

/-- Lexer.peekVal is the value the k-th lookahead read would return: the
stream entry at pos + k, or the EOF sentinel past the end. -/
def peekVal (l : Lexer) (k : Nat) : Rune :=
  l.stream.getD (l.pos + k) none

end Lexer

/-- Lemma: reading a real rune decreases the count of available real runes. -/
theorem realAvail_next_lt {l : Lexer} {c : Char} (h : (Lexer.next l).1 = some c) :
    (Lexer.next l).2.realAvail < l.realAvail := by
  by_cases hlt : l.pos < l.stream.length
  · simp only [Lexer.next, dif_pos hlt] at h ⊢
    simp only [Lexer.realAvail]
    have hd : l.stream.drop l.pos = l.stream.get ⟨l.pos, hlt⟩ :: l.stream.drop (l.pos + 1) := by
      rw [List.get_eq_getElem, List.getElem_cons_drop]
    rw [hd, List.countP_cons]
    have hs : Option.isSome (l.stream.get ⟨l.pos, hlt⟩) = true := by rw [h]; rfl
    rw [hs]
    simp
  · simp [Lexer.next, hlt] at h

/-- Lemma: a read never increases the count of available real runes. -/
theorem realAvail_next_le (l : Lexer) :
    (Lexer.next l).2.realAvail ≤ l.realAvail := by
  by_cases hlt : l.pos < l.stream.length
  · simp only [Lexer.next, dif_pos hlt]
    simp only [Lexer.realAvail]
    have hd : l.stream.drop l.pos = l.stream.get ⟨l.pos, hlt⟩ :: l.stream.drop (l.pos + 1) := by
      rw [List.get_eq_getElem, List.getElem_cons_drop]
    conv_rhs => rw [hd]
    rw [List.countP_cons]
    omega
  · simp only [Lexer.next, dif_neg hlt]
    simp only [Lexer.realAvail]
    have h1 : (l.stream ++ [none]).length ≤ l.pos + 1 := by
      simp
      omega
    rw [List.drop_eq_nil_of_le h1]
    simp


/-- Lemma: the lookahead value at an in-range index is the stream entry. -/
theorem peekVal_in {l : Lexer} {k : Nat} (h : l.pos + k < l.stream.length) :
    l.peekVal k = l.stream.get ⟨l.pos + k, h⟩ := by
  rw [Lexer.peekVal, List.getD_eq_getElem?_getD, List.getElem?_eq_getElem h]
  rfl

/-- Lemma: the lookahead value past the stream end is the EOF sentinel. -/
theorem peekVal_out {l : Lexer} {k : Nat} (h : l.stream.length ≤ l.pos + k) :
    l.peekVal k = none := by
  rw [Lexer.peekVal, List.getD_eq_getElem?_getD, List.getElem?_eq_none h]
  rfl

/-- Helper: getD over an append of a none-padding tail is getD of the base. -/
theorem getD_append_replicate_none (s : List Rune) (j n : Nat) :
    (s ++ List.replicate j none).getD n none = s.getD n none := by
  rw [List.getD_eq_getElem?_getD, List.getD_eq_getElem?_getD, List.getElem?_append]
  by_cases hn : n < s.length
  · rw [if_pos hn]
  · rw [if_neg hn, List.getElem?_replicate, List.getElem?_eq_none (Nat.le_of_not_lt hn)]
    split <;> rfl

/-- Helper: the count of real runes in a suffix ignores none-padding. -/
theorem countP_drop_append_replicate_none (s : List Rune) (j p : Nat) :
    ((s ++ List.replicate j none).drop p).countP Option.isSome =
      (s.drop p).countP Option.isSome := by
  induction j with
  | zero => simp
  | succ m ih =>
      have e : (List.replicate (m + 1) (none : Rune)) = List.replicate m none ++ [none] := by
        rw [List.replicate_succ']
      rw [e, ← List.append_assoc]
      by_cases hp : p ≤ (s ++ List.replicate m none).length
      · rw [List.drop_append_of_le_length hp, List.countP_append, ih]
        simp
      · rw [List.drop_eq_nil_of_le (by simp at hp ⊢; omega),
          List.drop_eq_nil_of_le (by simp at hp ⊢; omega)]

/-- Helper: a some value at a peekVal position means the index is in range. -/
theorem peekVal_some_lt {l : Lexer} {k : Nat} {c : Char}
    (h : l.peekVal k = some c) : l.pos + k < l.stream.length := by
  by_contra hge
  rw [peekVal_out (Nat.le_of_not_lt hge)] at h
  exact Option.noConfusion h

/-- Lemma: a real rune in first lookahead position means a real rune is
available. -/
theorem realAvail_pos_of_peekVal {l : Lexer} {c : Char}
    (h : l.peekVal 0 = some c) : 0 < l.realAvail := by
  have hlt : l.pos < l.stream.length := by
    have := peekVal_some_lt h
    omega
  rw [Lexer.realAvail]
  have hd : l.stream.drop l.pos = l.stream.get ⟨l.pos, hlt⟩ :: l.stream.drop (l.pos + 1) := by
    rw [List.get_eq_getElem, List.getElem_cons_drop]
  rw [hd, List.countP_cons]
  have hs : Option.isSome (l.stream.get ⟨l.pos, hlt⟩) = true := by
    have h0 : l.peekVal 0 = l.stream.get ⟨l.pos + 0, by omega⟩ := peekVal_in (by omega)
    rw [h0] at h
    simp only [Nat.add_zero] at h
    rw [h]
    rfl
  rw [hs]
  simp

/-- Lemma: next returns the first lookahead value. -/
theorem next_fst (l : Lexer) : (l.next).1 = l.peekVal 0 := by
  rw [Lexer.next]
  split
  · next h =>
      rw [peekVal_in (k := 0) (by omega)]
      simp
  · next h =>
      rw [peekVal_out (k := 0) (by omega)]

/-- Lemma: next advances the consumption index by one. -/
theorem next_pos (l : Lexer) : (l.next).2.pos = l.pos + 1 := by
  rw [Lexer.next]
  split <;> rfl

/-- Lemma: next does not move the token-start offset. -/
theorem next_start (l : Lexer) : (l.next).2.start = l.start := by
  rw [Lexer.next]
  split <;> rfl

/-- Lemma: after next, lookahead values shift by one. -/
theorem next_peekVal (l : Lexer) (k : Nat) :
    (l.next).2.peekVal k = l.peekVal (k + 1) := by
  rw [Lexer.next]
  split
  · next h =>
      simp only [Lexer.peekVal]
      have e : l.pos + 1 + k = l.pos + (k + 1) := by omega
      rw [e]
  · next h =>
      simp only [Lexer.peekVal]
      have e1 : (l.stream ++ [none]).getD (l.pos + 1 + k) none =
          (l.stream ++ List.replicate 1 none).getD (l.pos + 1 + k) none := by rfl
      rw [e1, getD_append_replicate_none,
        List.getD_eq_getElem?_getD, List.getD_eq_getElem?_getD,
        List.getElem?_eq_none (l := l.stream) (by omega),
        List.getElem?_eq_none (l := l.stream) (by omega)]

/-- Lemma: after next, the consumed span has grown by the read rune. -/
theorem next_take (l : Lexer) :
    (l.next).2.stream.take (l.next).2.pos = l.stream.take l.pos ++ [l.peekVal 0] := by
  rw [Lexer.next]
  split
  · next h =>
      simp only
      rw [List.take_succ, List.getElem?_eq_getElem h, peekVal_in (k := 0) (by omega)]
      simp
  · next h =>
      simp only
      rw [List.take_append_eq_append_take,
        List.take_of_length_le (by omega),
        List.take_of_length_le (l := [(none : Rune)]) (by simp; omega),
        List.take_of_length_le (Nat.le_of_not_lt h),
        peekVal_out (k := 0) (by omega)]

/-- Lemma: next extends the stream by none-padding only. -/
theorem next_stream_ext (l : Lexer) :
    ∃ j, (l.next).2.stream = l.stream ++ List.replicate j none := by
  rw [Lexer.next]
  split
  · exact ⟨0, by simp⟩
  · exact ⟨1, by simp⟩

/-- Lemma: peek returns the first lookahead value. -/
theorem peek_fst (l : Lexer) : (l.peek).1 = l.peekVal 0 := by
  rw [Lexer.peek]
  split
  · next h =>
      rw [peekVal_in (k := 0) (by omega)]
      simp
  · next h =>
      rw [peekVal_out (k := 0) (by omega)]

/-- Lemma: peek does not move the consumption index. -/
theorem peek_pos (l : Lexer) : (l.peek).2.pos = l.pos := by
  rw [Lexer.peek]
  split <;> rfl

/-- Lemma: peek does not move the token-start offset. -/
theorem peek_start (l : Lexer) : (l.peek).2.start = l.start := by
  rw [Lexer.peek]
  split <;> rfl

/-- Lemma: peek preserves every lookahead value. -/
theorem peek_peekVal (l : Lexer) (k : Nat) :
    (l.peek).2.peekVal k = l.peekVal k := by
  rw [Lexer.peek]
  split
  · rfl
  · simp only [Lexer.peekVal]
    have e1 : (l.stream ++ [none]).getD (l.pos + k) none =
        (l.stream ++ List.replicate 1 none).getD (l.pos + k) none := by rfl
    rw [e1, getD_append_replicate_none]

/-- Lemma: peek preserves the count of available real runes. -/
theorem peek_realAvail (l : Lexer) : (l.peek).2.realAvail = l.realAvail := by
  rw [Lexer.peek]
  split
  · rfl
  · simp only [Lexer.realAvail]
    have e1 : (l.stream ++ [none]) = (l.stream ++ List.replicate 1 none) := by rfl
    rw [e1, countP_drop_append_replicate_none]

/-- Lemma: peek extends the stream by none-padding only. -/
theorem peek_stream_ext (l : Lexer) :
    ∃ j, (l.peek).2.stream = l.stream ++ List.replicate j none := by
  rw [Lexer.peek]
  split
  · exact ⟨0, by simp⟩
  · exact ⟨1, by simp⟩

/-- Lemma: the two-rune lookahead returns the first two lookahead values. -/
theorem peekNext_fst_two (l : Lexer) :
    (l.peekNext 2).1 = [l.peekVal 0, l.peekVal 1] := by
  rw [Lexer.peekNext]
  simp only
  set t := l.stream ++ List.replicate (l.pos + 2 - l.stream.length) none with ht
  have hlen : l.pos + 2 ≤ t.length := by
    rw [ht]
    simp
    omega
  have h0 : l.pos < t.length := by omega
  have h1 : l.pos + 1 < t.length := by omega
  have hd : t.drop l.pos = t.get ⟨l.pos, h0⟩ :: t.get ⟨l.pos + 1, h1⟩ :: t.drop (l.pos + 2) := by
    rw [List.get_eq_getElem, List.get_eq_getElem, List.getElem_cons_drop,
      List.getElem_cons_drop]
  rw [hd]
  simp only [List.take_succ_cons, List.take_zero]
  have g0 : t.get ⟨l.pos, h0⟩ = l.peekVal 0 := by
    rw [List.get_eq_getElem, ← List.getD_eq_getElem (d := (none : Rune)) t h0,
      Lexer.peekVal, ht, getD_append_replicate_none]
    rfl
  have g1 : t.get ⟨l.pos + 1, h1⟩ = l.peekVal 1 := by
    rw [List.get_eq_getElem, ← List.getD_eq_getElem (d := (none : Rune)) t h1,
      Lexer.peekVal, ht, getD_append_replicate_none]
  rw [g0, g1]

/-- Lemma: peekNext does not move the consumption index. -/
theorem peekNext_pos (l : Lexer) (n : Nat) : (l.peekNext n).2.pos = l.pos := rfl

/-- Lemma: peekNext does not move the token-start offset. -/
theorem peekNext_start (l : Lexer) (n : Nat) : (l.peekNext n).2.start = l.start := rfl

/-- Lemma: peekNext preserves every lookahead value. -/
theorem peekNext_peekVal (l : Lexer) (n k : Nat) :
    (l.peekNext n).2.peekVal k = l.peekVal k := by
  simp only [Lexer.peekNext, Lexer.peekVal]
  rw [getD_append_replicate_none]

/-- Lemma: peekNext preserves the count of available real runes. -/
theorem peekNext_realAvail (l : Lexer) (n : Nat) :
    (l.peekNext n).2.realAvail = l.realAvail := by
  simp only [Lexer.peekNext, Lexer.realAvail]
  rw [countP_drop_append_replicate_none]

/-- Lemma: peekNext extends the stream by none-padding only. -/
theorem peekNext_stream_ext (l : Lexer) (n : Nat) :
    ∃ j, (l.peekNext n).2.stream = l.stream ++ List.replicate j none :=
  ⟨l.pos + n - l.stream.length, rfl⟩

/-- Lemma: a backup within the buffered span succeeds and moves the index. -/
theorem backupWith_ok {l : Lexer} {n : Nat} (h : n ≤ l.pos) :
    l.backupWith n = .ok ⟨l.stream, l.pos - n, l.start⟩ := by
  rw [Lexer.backupWith, if_neg (by omega)]

/-- Lemma: a backup past the buffered span is the Go panic. -/
theorem backupWith_panic {l : Lexer} {n : Nat} (h : l.pos < n) :
    l.backupWith n = .error ⟨"lexer: trying to backup with " ++ Nat.repr n ++
      " when the buffer position is " ++ Nat.repr l.pos⟩ := by
  rw [Lexer.backupWith, if_pos h]

/-- Lemma: ignore resets the consumption index. -/
theorem ignore_pos (l : Lexer) : l.ignore.pos = 0 := rfl

/-- Lemma: ignore advances the start offset by the consumed byte length. -/
theorem ignore_start (l : Lexer) :
    l.ignore.start = l.start + byteLen (l.stream.take l.pos) := rfl

/-- Lemma: ignore preserves every lookahead value. -/
theorem ignore_peekVal (l : Lexer) (k : Nat) :
    l.ignore.peekVal k = l.peekVal k := by
  simp only [Lexer.ignore, Lexer.peekVal]
  rw [List.getD_eq_getElem?_getD, List.getD_eq_getElem?_getD, List.getElem?_drop]
  norm_num

/-- Lemma: ignore preserves the count of available real runes. -/
theorem ignore_realAvail (l : Lexer) : l.ignore.realAvail = l.realAvail := by
  simp only [Lexer.ignore, Lexer.realAvail]
  rfl

/-- Lemma: the emitted item of emit. -/
theorem emit_fst (l : Lexer) (t : ItemType) :
    (l.emit t).1 = ⟨t, l.start, runesToString (l.stream.take l.pos)⟩ := rfl

/-- Lemma: the state after emit is the ignored state. -/
theorem emit_snd (l : Lexer) (t : ItemType) : (l.emit t).2 = l.ignore := rfl

/-- Go's isWhitespace: space, tab, carriage return or newline. -/
def isWhitespace (r : Rune) : Bool :=
  r == some ' ' || r == some '\t' || r == some '\r' || r == some '\n'

/-- Go's isEndOfLine: carriage return, newline, or the EOF sentinel. -/
def isEndOfLine (r : Rune) : Bool :=
  r == some '\r' || r == some '\n' || r == none

/-- Go's isAlphaNumeric: underscore, letter or digit (unicode.IsLetter and
unicode.IsDigit modelled by their ASCII restrictions); false on EOF. -/
def isAlphaNumeric (r : Rune) : Bool :=
  match r with
  | some c => c == '_' || c.isAlpha || c.isDigit
  | none => false

/-- Go's isOperator: one of the twelve operator characters; false on EOF. -/
def isOperator (r : Rune) : Bool :=
  match r with
  | some c => c == '+' || c == '-' || c == '*' || c == '/' || c == '=' ||
      c == '>' || c == '<' || c == '~' || c == '|' || c == '^' || c == '&' || c == '%'
  | none => false

/-- Validator for unicode.IsDigit as lexNumber passes it (ASCII restriction);
false on EOF. -/
def isDigitRune (r : Rune) : Bool :=
  match r with
  | some c => c.isDigit
  | none => false

/-- Consumed l l' n: state l' is state l after consuming exactly the first n
lookahead runes (reads and failed-match backups included): the index moved
by n, the start offset is unchanged, the stream grew by none-padding only,
lookahead values shifted by n, and the pending span grew by those n runes. -/
def Consumed (l l' : Lexer) (n : Nat) : Prop :=
  l'.pos = l.pos + n ∧
  l'.start = l.start ∧
  (∃ j, l'.stream = l.stream ++ List.replicate j none) ∧
  (∀ k, l'.peekVal k = l.peekVal (k + n)) ∧
  l'.stream.take l'.pos = l.stream.take l.pos ++ (List.range n).map l.peekVal

/-- Lemma: consuming nothing relates a state to itself. -/
theorem consumed_refl (l : Lexer) : Consumed l l 0 := by
  refine ⟨by omega, rfl, ⟨0, by simp⟩, fun k => by rw [Nat.add_zero], by simp⟩

/-- Lemma: consumption composes. -/
theorem consumed_trans {l l₁ l₂ : Lexer} {n m : Nat}
    (h1 : Consumed l l₁ n) (h2 : Consumed l₁ l₂ m) : Consumed l l₂ (n + m) := by
  obtain ⟨p1, s1, ⟨j1, e1⟩, v1, t1⟩ := h1
  obtain ⟨p2, s2, ⟨j2, e2⟩, v2, t2⟩ := h2
  refine ⟨by omega, by rw [s2, s1], ⟨j1 + j2, ?_⟩, fun k => ?_, ?_⟩
  · rw [e2, e1, List.append_assoc, List.replicate_add]
  · rw [v2, v1]
    congr 1
    omega
  · rw [t2, t1, List.append_assoc]
    congr 1
    rw [List.range_add, List.map_append, List.map_map]
    congr 1
    apply List.map_congr_left
    intro i _
    rw [Function.comp_apply, v1]
    congr 1
    omega

/-- Lemma: next consumes exactly one lookahead rune. -/
theorem consumed_next (l : Lexer) : Consumed l (l.next).2 1 := by
  refine ⟨next_pos l, next_start l, next_stream_ext l, fun k => next_peekVal l k, ?_⟩
  rw [next_take]
  rfl


/-- Well-formedness of a lexer state: the consumption index never runs past
the buffered stream (the Go code increments bufferPos only as it appends). -/
def Lexer.WFL (l : Lexer) : Prop := l.pos ≤ l.stream.length

/-- Lemma: peek consumes nothing (on a well-formed state). -/
theorem consumed_peek {l : Lexer} (hwf : l.WFL) : Consumed l (l.peek).2 0 := by
  refine ⟨by rw [peek_pos, Nat.add_zero], peek_start l, peek_stream_ext l,
    fun k => by rw [peek_peekVal, Nat.add_zero], ?_⟩
  obtain ⟨j, e⟩ := peek_stream_ext l
  rw [e, peek_pos, List.take_append_of_le_length hwf]
  simp

/-- Lemma: peekNext consumes nothing (on a well-formed state). -/
theorem consumed_peekNext (l : Lexer) (n : Nat) (hwf : l.WFL) :
    Consumed l (l.peekNext n).2 0 := by
  refine ⟨by rw [peekNext_pos, Nat.add_zero], peekNext_start l n, peekNext_stream_ext l n,
    fun k => by rw [peekNext_peekVal, Nat.add_zero], ?_⟩
  obtain ⟨j, e⟩ := peekNext_stream_ext l n
  rw [e, peekNext_pos, List.take_append_of_le_length hwf]
  simp

/-- Lemma: a consumption step out of a well-formed state lands in one. -/
theorem consumed_wfl {l l' : Lexer} {n : Nat}
    (h : Consumed l l' n) (hwf : l.WFL) : l'.WFL := by
  obtain ⟨p1, _, ⟨j, e1⟩, v1, t1⟩ := h
  rw [Lexer.WFL] at hwf ⊢
  by_contra hlt
  have hlen : l'.stream.length < l'.pos := Nat.lt_of_not_le hlt
  have h1 : l'.stream.take l'.pos = l'.stream := List.take_of_length_le (by omega)
  have h2 : (l'.stream.take l'.pos).length = l'.stream.length := by rw [h1]
  rw [t1] at h2
  rw [List.length_append, List.length_take, List.length_map, List.length_range] at h2
  rw [e1] at hlen h2
  rw [List.length_append, List.length_replicate] at hlen h2
  omega

/-- Lemma: the initial lookahead of a well-formed state is in the stream or
at its very end. -/
theorem wfl_next {l : Lexer} (hwf : l.WFL) : (l.next).2.WFL := by
  have := consumed_wfl (consumed_next l) hwf
  exact this

/-- Lemma: when the head lookahead is in the valid set, accept consumes it. -/
theorem accept_yes {l : Lexer} {c : Char} {valid : List Char}
    (h : l.peekVal 0 = some c) (hc : valid.contains c = true) :
    l.accept valid = .ok (1, (l.next).2) := by
  rw [Lexer.accept]
  have hf : (l.next).1 = some c := by rw [next_fst, h]
  rcases hn : l.next with ⟨r, l₁⟩
  rw [hn] at hf
  simp only at hf
  subst hf
  have hmem : c ∈ valid := by simpa using hc
  simp [hmem]

/-- Lemma: when the head lookahead is not in the valid set (or is EOF),
accept consumes nothing. -/
theorem accept_no {l : Lexer} {valid : List Char} (hwf : l.WFL)
    (h : ∀ c, l.peekVal 0 = some c → valid.contains c = false) :
    ∃ l', l.accept valid = .ok (0, l') ∧ Consumed l l' 0 ∧
      l'.realAvail = l.realAvail ∧ l'.WFL := by
  rw [Lexer.accept]
  rcases hn : l.next with ⟨r, l₁⟩
  have hn2 : (l.next).2 = l₁ := by rw [hn]
  have hps : l₁.pos = l.pos + 1 := by rw [← hn2, next_pos]
  have hstt : l₁.start = l.start := by rw [← hn2, next_start]
  obtain ⟨j, e⟩ := next_stream_ext l
  rw [hn2] at e
  have hbk : Lexer.backupWith 1 l₁ = .ok { l₁ with pos := l₁.pos - 1 } := by
    rw [Lexer.backupWith, if_neg (by omega)]
  have hp1 : l₁.pos - 1 = l.pos := by omega
  have hcons : Consumed l { l₁ with pos := l₁.pos - 1 } 0 := by
    refine ⟨?_, ?_, ⟨j, ?_⟩, fun k => ?_, ?_⟩
    · simp only [hp1]
      omega
    · simpa using hstt
    · simpa using e
    · simp only [Lexer.peekVal, hp1, e, Nat.add_zero]
      rw [getD_append_replicate_none]
    · simp only [hp1, e]
      rw [List.take_append_of_le_length hwf]
      simp
  have hra : ({ l₁ with pos := l₁.pos - 1 } : Lexer).realAvail = l.realAvail := by
    simp only [Lexer.realAvail, hp1, e]
    rw [countP_drop_append_replicate_none]
  have hwf' : ({ l₁ with pos := l₁.pos - 1 } : Lexer).WFL := consumed_wfl hcons hwf
  cases r with
  | none =>
      refine ⟨{ l₁ with pos := l₁.pos - 1 }, ?_, hcons, hra, hwf'⟩
      simp [hbk]
      rfl
  | some c =>
      have hfst : l.peekVal 0 = some c := by
        rw [← next_fst, hn]
      have hcf : c ∉ valid := by simpa using h c hfst
      refine ⟨{ l₁ with pos := l₁.pos - 1 }, ?_, hcons, hra, hwf'⟩
      simp [hcf, hbk]
      rfl

/-- Lemma: reading a real rune decreases the available real count by one. -/
theorem realAvail_next_succ {l : Lexer} {c : Char} (h : (Lexer.next l).1 = some c) :
    (Lexer.next l).2.realAvail + 1 = l.realAvail := by
  have hlt : l.pos < l.stream.length := by
    rw [next_fst] at h
    have := peekVal_some_lt h
    omega
  simp only [Lexer.next, dif_pos hlt] at h ⊢
  simp only [Lexer.realAvail]
  have hd : l.stream.drop l.pos = l.stream.get ⟨l.pos, hlt⟩ :: l.stream.drop (l.pos + 1) := by
    rw [List.get_eq_getElem, List.getElem_cons_drop]
  conv_rhs => rw [hd]
  rw [List.countP_cons]
  have hs : Option.isSome (l.stream.get ⟨l.pos, hlt⟩) = true := by
    rw [h]
    rfl
  rw [hs]
  simp

/-- Lemma: a backup of one right after a read restores the original
observable state (the read rune returns to the lookahead). -/
theorem backup_after_next {l : Lexer} (hwf : l.WFL) :
    ∃ l', ((l.next).2).backupWith 1 = .ok l' ∧ Consumed l l' 0 ∧
      l'.realAvail = l.realAvail ∧ l'.WFL := by
  rcases hn : l.next with ⟨r, l₁⟩
  have hn2 : (l.next).2 = l₁ := by rw [hn]
  have hps : l₁.pos = l.pos + 1 := by rw [← hn2, next_pos]
  have hstt : l₁.start = l.start := by rw [← hn2, next_start]
  obtain ⟨j, e⟩ := next_stream_ext l
  rw [hn2] at e
  have hbk : Lexer.backupWith 1 l₁ = .ok { l₁ with pos := l₁.pos - 1 } := by
    rw [Lexer.backupWith, if_neg (by omega)]
  have hp1 : l₁.pos - 1 = l.pos := by omega
  have hcons : Consumed l { l₁ with pos := l₁.pos - 1 } 0 := by
    refine ⟨?_, ?_, ⟨j, ?_⟩, fun k => ?_, ?_⟩
    · simp only [hp1]
      omega
    · simpa using hstt
    · simpa using e
    · simp only [Lexer.peekVal, hp1, e, Nat.add_zero]
      rw [getD_append_replicate_none]
    · simp only [hp1, e]
      rw [List.take_append_of_le_length hwf]
      simp
  have hra : ({ l₁ with pos := l₁.pos - 1 } : Lexer).realAvail = l.realAvail := by
    simp only [Lexer.realAvail, hp1, e]
    rw [countP_drop_append_replicate_none]
  simp only
  exact ⟨_, hbk, hcons, hra, consumed_wfl hcons hwf⟩

/-- Fuel-indexed body of Lexer.acceptWhile. Every iteration of the Go loop
that continues consumes a real rune, so realAvail + 1 fuel always suffices
(acceptWhileF_irrel below); the fuel keeps the definition structural and
hence computable by the kernel. When the validator would accept the EOF
sentinel the Go loop reads EOF forever; no validator passed to acceptWhile
in the source accepts EOF, so that dead branch is marked with a
distinguished fault. -/
def acceptWhileF : Nat → (Rune → Bool) → Lexer → Except GoPanic (Nat × Lexer)
  | 0, _, _ => .error ⟨"lexer: acceptWhile out of fuel"⟩
  | f + 1, fn, l =>
      match l.next with
      | (some c, l₁) =>
          if fn (some c) then
            match acceptWhileF f fn l₁ with
            | .ok (n, l₂) => .ok (n + 1, l₂)
            | .error p => .error p
          else (l₁.backupWith 1).map (fun l₂ => (0, l₂))
      | (none, l₁) =>
          if fn none then .error ⟨"lexer: acceptWhile reads EOF forever"⟩
          else (l₁.backupWith 1).map (fun l₂ => (0, l₂))

/-- Lexer.acceptWhile consumes runes while the validator holds, then backs
up over the failing rune and returns the count consumed. -/
def acceptWhile (fn : Rune → Bool) (l : Lexer) : Except GoPanic (Nat × Lexer) :=
  acceptWhileF (l.realAvail + 1) fn l

/-- Lemma: any fuel beyond the available real runes gives the same result,
so acceptWhile is the limit of its fuel-indexed body. -/
theorem acceptWhileF_irrel (fn : Rune → Bool) :
    ∀ f₁ f₂ l, l.realAvail < f₁ → l.realAvail < f₂ →
      acceptWhileF f₁ fn l = acceptWhileF f₂ fn l := by
  intro f₁
  induction f₁ with
  | zero => intro f₂ l h1 h2; omega
  | succ g ih =>
      intro f₂ l h1 h2
      match f₂, h2 with
      | h + 1, h2 =>
        rw [acceptWhileF, acceptWhileF]
        rcases hn : l.next with ⟨r, l₁⟩
        cases r with
        | none => rfl
        | some c =>
            simp only
            by_cases hft : fn (some c) = true
            · rw [if_pos hft, if_pos hft]
              have hlt : l₁.realAvail < l.realAvail := by
                have := realAvail_next_lt (l := l) (c := c) (by rw [hn])
                rwa [hn] at this
              rw [ih h l₁ (by omega) (by omega)]
            · rw [if_neg hft, if_neg hft]

/-- Unfold equation for acceptWhile. -/
theorem acceptWhile_eq (fn : Rune → Bool) (l : Lexer) :
    acceptWhile fn l =
      match l.next with
      | (some c, l₁) =>
          if fn (some c) then
            match acceptWhile fn l₁ with
            | .ok (n, l₂) => .ok (n + 1, l₂)
            | .error p => .error p
          else (l₁.backupWith 1).map (fun l₂ => (0, l₂))
      | (none, l₁) =>
          if fn none then .error ⟨"lexer: acceptWhile reads EOF forever"⟩
          else (l₁.backupWith 1).map (fun l₂ => (0, l₂)) := by
  rw [acceptWhile, acceptWhileF]
  rcases hn : l.next with ⟨r, l₁⟩
  cases r with
  | none => rfl
  | some c =>
      simp only
      by_cases hft : fn (some c) = true
      · rw [if_pos hft, if_pos hft]
        have hlt : l₁.realAvail < l.realAvail := by
          have := realAvail_next_lt (l := l) (c := c) (by rw [hn])
          rwa [hn] at this
        rw [acceptWhileF_irrel fn l.realAvail (l₁.realAvail + 1) l₁ (by omega) (by omega)]
        rfl
      · rw [if_neg hft, if_neg hft]

/-- Fuel-indexed body of Lexer.acceptUntil (same fuel discipline). -/
def acceptUntilF : Nat → (Rune → Bool) → Lexer → Except GoPanic (Nat × Lexer)
  | 0, _, _ => .error ⟨"lexer: acceptUntil out of fuel"⟩
  | f + 1, fn, l =>
      match l.next with
      | (some c, l₁) =>
          if fn (some c) then (l₁.backupWith 1).map (fun l₂ => (0, l₂))
          else
            match acceptUntilF f fn l₁ with
            | .ok (n, l₂) => .ok (n + 1, l₂)
            | .error p => .error p
      | (none, l₁) => (l₁.backupWith 1).map (fun l₂ => (0, l₂))

/-- Lexer.acceptUntil consumes runes until the condition holds or EOF is
reached, then backs up over the stopping rune and returns the count. -/
def acceptUntil (fn : Rune → Bool) (l : Lexer) : Except GoPanic (Nat × Lexer) :=
  acceptUntilF (l.realAvail + 1) fn l

/-- Lemma: fuel beyond the available real runes is irrelevant for
acceptUntil as well. -/
theorem acceptUntilF_irrel (fn : Rune → Bool) :
    ∀ f₁ f₂ l, l.realAvail < f₁ → l.realAvail < f₂ →
      acceptUntilF f₁ fn l = acceptUntilF f₂ fn l := by
  intro f₁
  induction f₁ with
  | zero => intro f₂ l h1 h2; omega
  | succ g ih =>
      intro f₂ l h1 h2
      match f₂, h2 with
      | h + 1, h2 =>
        rw [acceptUntilF, acceptUntilF]
        rcases hn : l.next with ⟨r, l₁⟩
        cases r with
        | none => rfl
        | some c =>
            simp only
            by_cases hft : fn (some c) = true
            · rw [if_pos hft, if_pos hft]
            · rw [if_neg hft, if_neg hft]
              have hlt : l₁.realAvail < l.realAvail := by
                have := realAvail_next_lt (l := l) (c := c) (by rw [hn])
                rwa [hn] at this
              rw [ih h l₁ (by omega) (by omega)]

/-- Unfold equation for acceptUntil. -/
theorem acceptUntil_eq (fn : Rune → Bool) (l : Lexer) :
    acceptUntil fn l =
      match l.next with
      | (some c, l₁) =>
          if fn (some c) then (l₁.backupWith 1).map (fun l₂ => (0, l₂))
          else
            match acceptUntil fn l₁ with
            | .ok (n, l₂) => .ok (n + 1, l₂)
            | .error p => .error p
      | (none, l₁) => (l₁.backupWith 1).map (fun l₂ => (0, l₂)) := by
  rw [acceptUntil, acceptUntilF]
  rcases hn : l.next with ⟨r, l₁⟩
  cases r with
  | none => rfl
  | some c =>
      simp only
      by_cases hft : fn (some c) = true
      · rw [if_pos hft, if_pos hft]
      · rw [if_neg hft, if_neg hft]
        have hlt : l₁.realAvail < l.realAvail := by
          have := realAvail_next_lt (l := l) (c := c) (by rw [hn])
          rwa [hn] at this
        rw [acceptUntilF_irrel fn l.realAvail (l₁.realAvail + 1) l₁ (by omega) (by omega)]
        rfl

/-- Lemma: backing up over the rune just read restores the available-real
count of the state before the read. -/
theorem realAvail_after_backup {l : Lexer} {r : Rune} {l₁ : Lexer}
    (hn : l.next = (r, l₁)) :
    ({ l₁ with pos := l₁.pos - 1 } : Lexer).realAvail = l.realAvail := by
  rw [Lexer.next] at hn
  by_cases hlt : l.pos < l.stream.length
  · rw [dif_pos hlt] at hn
    have h2 : l₁ = { l with pos := l.pos + 1 } := by
      have := congrArg Prod.snd hn
      simpa using this.symm
    subst h2
    simp [Lexer.realAvail]
  · rw [dif_neg hlt] at hn
    have h2 : l₁ = { l with stream := l.stream ++ [none], pos := l.pos + 1 } := by
      have := congrArg Prod.snd hn
      simpa using this.symm
    subst h2
    simp only [Lexer.realAvail, Nat.add_sub_cancel]
    have e1 : (l.stream ++ [none]) = (l.stream ++ List.replicate 1 none) := rfl
    rw [e1, countP_drop_append_replicate_none]

/-- Lemma: the position right after a read is positive, so the backup in
the accept family never panics. -/
theorem next_pos_pos {l : Lexer} {r : Rune} {l₁ : Lexer} (hn : l.next = (r, l₁)) :
    1 ≤ l₁.pos := by
  have h2 : (l.next).2.pos = l.pos + 1 := next_pos l
  rw [hn] at h2
  simp at h2
  omega

/-- Specification of acceptWhile for a validator that rejects EOF (all
validators of the source do): it consumes exactly the maximal satisfying
lookahead prefix, all of it real runes. -/
theorem acceptWhile_ok (fn : Rune → Bool) (hfn : fn none = false) :
    ∀ l : Lexer, l.WFL →
    ∃ n l', acceptWhile fn l = .ok (n, l') ∧ Consumed l l' n ∧
      l'.realAvail + n = l.realAvail ∧ l'.WFL ∧
      (∀ i, i < n → fn (l.peekVal i) = true) ∧ fn (l.peekVal n) = false := by
  suffices hyp : ∀ R : Nat, ∀ l : Lexer, l.realAvail = R → l.WFL →
      ∃ n l', acceptWhile fn l = .ok (n, l') ∧ Consumed l l' n ∧
        l'.realAvail + n = l.realAvail ∧ l'.WFL ∧
        (∀ i, i < n → fn (l.peekVal i) = true) ∧ fn (l.peekVal n) = false by
    intro l hwf
    exact hyp l.realAvail l rfl hwf
  intro R
  induction R using Nat.strong_induction_on with
  | _ R ih =>
      intro x hR hwf
      rcases hn : x.next with ⟨r, l₁⟩
      have hn2 : (x.next).2 = l₁ := by rw [hn]
      cases r with
      | some c =>
          have hv0 : x.peekVal 0 = some c := by rw [← next_fst, hn]
          by_cases hft : fn (some c) = true
          · -- the loop body runs once and recurses
            have hc1 : Consumed x l₁ 1 := by
              rw [← hn2]
              exact consumed_next x
            have hwf1 : l₁.WFL := consumed_wfl hc1 hwf
            have hrs : l₁.realAvail + 1 = x.realAvail := by
              have := realAvail_next_succ (l := x) (c := c) (by rw [hn])
              rwa [hn2] at this
            obtain ⟨n, l₂, heq', hcons, hra, hwf2, hall, hstop⟩ :=
              ih l₁.realAvail (by omega) l₁ rfl hwf1
            have hsh : ∀ k, l₁.peekVal k = x.peekVal (k + 1) := hc1.2.2.2.1
            refine ⟨n + 1, l₂, ?_, ?_, by omega, hwf2, ?_, ?_⟩
            · rw [acceptWhile_eq, hn]
              simp [hft, heq']
            · have := consumed_trans hc1 hcons
              rwa [Nat.add_comm] at this
            · intro i hi
              cases i with
              | zero => rwa [hv0]
              | succ i' =>
                  have := hall i' (by omega)
                  rwa [hsh i'] at this
            · have := hstop
              rwa [hsh n] at this
          · -- the first rune fails: back up over it
            obtain ⟨l', hbk, hcons, hra, hwf'⟩ := backup_after_next hwf
            rw [hn] at hbk
            simp only at hbk
            refine ⟨0, l', ?_, hcons, by omega, hwf', by omega, ?_⟩
            · rw [acceptWhile_eq, hn]
              simp only [Bool.not_eq_true] at hft
              simp [hft, hbk]
              rfl
            · rw [hv0]
              simpa using hft
      | none =>
          have hv0 : x.peekVal 0 = none := by rw [← next_fst, hn]
          obtain ⟨l', hbk, hcons, hra, hwf'⟩ := backup_after_next hwf
          rw [hn] at hbk
          simp only at hbk
          refine ⟨0, l', ?_, hcons, by omega, hwf', by omega, ?_⟩
          · rw [acceptWhile_eq, hn]
            simp [hfn, hbk]
            rfl
          · rw [hv0]
            exact hfn

/-- Specification of acceptUntil: it consumes exactly the maximal real-rune
lookahead prefix on which the condition fails, stopping at the first
satisfying rune or at EOF. -/
theorem acceptUntil_ok (fn : Rune → Bool) :
    ∀ l : Lexer, l.WFL →
    ∃ n l', acceptUntil fn l = .ok (n, l') ∧ Consumed l l' n ∧
      l'.realAvail + n = l.realAvail ∧ l'.WFL ∧
      (∀ i, i < n → fn (l.peekVal i) = false ∧ l.peekVal i ≠ none) ∧
      (fn (l.peekVal n) = true ∨ l.peekVal n = none) := by
  suffices hyp : ∀ R : Nat, ∀ l : Lexer, l.realAvail = R → l.WFL →
      ∃ n l', acceptUntil fn l = .ok (n, l') ∧ Consumed l l' n ∧
        l'.realAvail + n = l.realAvail ∧ l'.WFL ∧
        (∀ i, i < n → fn (l.peekVal i) = false ∧ l.peekVal i ≠ none) ∧
        (fn (l.peekVal n) = true ∨ l.peekVal n = none) by
    intro l hwf
    exact hyp l.realAvail l rfl hwf
  intro R
  induction R using Nat.strong_induction_on with
  | _ R ih =>
      intro x hR hwf
      rcases hn : x.next with ⟨r, l₁⟩
      have hn2 : (x.next).2 = l₁ := by rw [hn]
      cases r with
      | some c =>
          have hv0 : x.peekVal 0 = some c := by rw [← next_fst, hn]
          by_cases hft : fn (some c) = true
          · obtain ⟨l', hbk, hcons, hra, hwf'⟩ := backup_after_next hwf
            rw [hn] at hbk
            simp only at hbk
            refine ⟨0, l', ?_, hcons, by omega, hwf', by omega, ?_⟩
            · rw [acceptUntil_eq, hn]
              simp [hft, hbk]
              rfl
            · rw [hv0]
              exact Or.inl hft
          · have hc1 : Consumed x l₁ 1 := by
              rw [← hn2]
              exact consumed_next x
            have hwf1 : l₁.WFL := consumed_wfl hc1 hwf
            have hrs : l₁.realAvail + 1 = x.realAvail := by
              have := realAvail_next_succ (l := x) (c := c) (by rw [hn])
              rwa [hn2] at this
            obtain ⟨n, l₂, heq', hcons, hra, hwf2, hall, hstop⟩ :=
              ih l₁.realAvail (by omega) l₁ rfl hwf1
            have hsh : ∀ k, l₁.peekVal k = x.peekVal (k + 1) := hc1.2.2.2.1
            simp only [Bool.not_eq_true] at hft
            refine ⟨n + 1, l₂, ?_, ?_, by omega, hwf2, ?_, ?_⟩
            · rw [acceptUntil_eq, hn]
              simp [hft, heq']
            · have := consumed_trans hc1 hcons
              rwa [Nat.add_comm] at this
            · intro i hi
              cases i with
              | zero =>
                  rw [hv0]
                  exact ⟨hft, by simp⟩
              | succ i' =>
                  have := hall i' (by omega)
                  rwa [hsh i'] at this
            · rcases hstop with hs | hs
              · exact Or.inl (by rwa [hsh n] at hs)
              · exact Or.inr (by rwa [hsh n] at hs)
      | none =>
          have hv0 : x.peekVal 0 = none := by rw [← next_fst, hn]
          obtain ⟨l', hbk, hcons, hra, hwf'⟩ := backup_after_next hwf
          rw [hn] at hbk
          simp only at hbk
          refine ⟨0, l', ?_, hcons, by omega, hwf', by omega, Or.inr hv0⟩
          rw [acceptUntil_eq, hn]
          simp [hbk]
          rfl

/-- Lemma: a successful acceptWhile never increases the available-real count. -/
theorem acceptWhile_realAvail_le (fn : Rune → Bool) :
    ∀ l : Lexer, ∀ n : Nat, ∀ l' : Lexer,
      acceptWhile fn l = .ok (n, l') → l'.realAvail ≤ l.realAvail := by
  suffices hyp : ∀ R : Nat, ∀ l : Lexer, l.realAvail = R → ∀ n l',
      acceptWhile fn l = .ok (n, l') → l'.realAvail ≤ l.realAvail by
    intro l n l' h
    exact hyp l.realAvail l rfl n l' h
  intro R
  induction R using Nat.strong_induction_on with
  | _ R ih =>
      intro x hR n l' h
      rw [acceptWhile_eq] at h
      rcases hn : x.next with ⟨r, l₁⟩
      rw [hn] at h
      have hle1 : l₁.realAvail ≤ x.realAvail := by
        have := realAvail_next_le x
        rwa [hn] at this
      have hbk : Lexer.backupWith 1 l₁ = .ok { l₁ with pos := l₁.pos - 1 } := by
        rw [Lexer.backupWith, if_neg (by have := next_pos_pos hn; omega)]
      cases r with
      | some c =>
          by_cases hft : fn (some c) = true
          · have hlt : l₁.realAvail < x.realAvail := by
              have := realAvail_next_lt (l := x) (c := c) (by rw [hn])
              rwa [hn] at this
            simp only [hft, if_true] at h
            rcases ha : acceptWhile fn l₁ with p | nl₂
            · rw [ha] at h
              simp at h
            · rcases nl₂ with ⟨n₂, l₂⟩
              rw [ha] at h
              simp at h
              obtain ⟨h1, h2⟩ := h
              subst h2
              have h3 := ih l₁.realAvail (by omega) l₁ rfl _ _ ha
              omega
          · simp only [Bool.not_eq_true] at hft
            simp [hft, hbk, Except.map] at h
            obtain ⟨_, h2⟩ := h
            subst h2
            rw [realAvail_after_backup hn]
      | none =>
          by_cases hfn : fn none = true
          · simp [hfn] at h
          · simp only [Bool.not_eq_true] at hfn
            simp [hfn, hbk, Except.map] at h
            obtain ⟨_, h2⟩ := h
            subst h2
            rw [realAvail_after_backup hn]

/-- Lemma: a successful acceptUntil never increases the available-real count. -/
theorem acceptUntil_realAvail_le (fn : Rune → Bool) :
    ∀ l : Lexer, ∀ n : Nat, ∀ l' : Lexer,
      acceptUntil fn l = .ok (n, l') → l'.realAvail ≤ l.realAvail := by
  suffices hyp : ∀ R : Nat, ∀ l : Lexer, l.realAvail = R → ∀ n l',
      acceptUntil fn l = .ok (n, l') → l'.realAvail ≤ l.realAvail by
    intro l n l' h
    exact hyp l.realAvail l rfl n l' h
  intro R
  induction R using Nat.strong_induction_on with
  | _ R ih =>
      intro x hR n l' h
      rw [acceptUntil_eq] at h
      rcases hn : x.next with ⟨r, l₁⟩
      rw [hn] at h
      have hle1 : l₁.realAvail ≤ x.realAvail := by
        have := realAvail_next_le x
        rwa [hn] at this
      have hbk : Lexer.backupWith 1 l₁ = .ok { l₁ with pos := l₁.pos - 1 } := by
        rw [Lexer.backupWith, if_neg (by have := next_pos_pos hn; omega)]
      cases r with
      | some c =>
          by_cases hft : fn (some c) = true
          · simp [hft, hbk, Except.map] at h
            obtain ⟨_, h2⟩ := h
            subst h2
            rw [realAvail_after_backup hn]
          · have hlt : l₁.realAvail < x.realAvail := by
              have := realAvail_next_lt (l := x) (c := c) (by rw [hn])
              rwa [hn] at this
            simp only [Bool.not_eq_true] at hft
            simp only [hft, Bool.false_eq_true, if_false] at h
            rcases ha : acceptUntil fn l₁ with p | nl₂
            · rw [ha] at h
              simp at h
            · rcases nl₂ with ⟨n₂, l₂⟩
              rw [ha] at h
              simp at h
              obtain ⟨h1, h2⟩ := h
              subst h2
              have h3 := ih l₁.realAvail (by omega) l₁ rfl _ _ ha
              omega
      | none =>
          simp [hbk, Except.map] at h
          obtain ⟨_, h2⟩ := h
          subst h2
          rw [realAvail_after_backup hn]

/-- StateTag names the state functions of the scanner's state machine (the
StateFn function pointers of the source). -/
inductive StateTag where
  | lexWhitespace
  | lexSingleLineComment
  | lexMultiLineComment
  | lexOperator
  | lexNumber
  | lexString
  | lexIdentifierOrKeyword
deriving Repr, DecidableEq

/-- StepOut is how a state function ends: transition to the next state
function, return nil (the run loop stops and closes the channel), or a Go
panic aborting the scan out of band. -/
inductive StepOut where
  | cont (tag : StateTag) (l : Lexer)
  | halt
  | fault (p : GoPanic)
deriving Repr, DecidableEq

/-- Lemma: emit preserves the count of available real runes. -/
theorem realAvail_emit (l : Lexer) (t : ItemType) :
    (l.emit t).2.realAvail = l.realAvail := by
  rw [emit_snd]
  exact ignore_realAvail l

/-- One iteration of the lexString loop: inl ends the state function
(error, or the String token and the transition back to dispatch), inr
continues the loop. -/
def stringStep (quote : Rune) (l : Lexer) : (List Item × StepOut) ⊕ Lexer :=
  match l.next with
  | (none, l₁) => .inl ([⟨ItemError, l₁.start, "unterminated quoted string"⟩], .halt)
  | (some c, l₁) =>
      let esc : (List Item × StepOut) ⊕ Lexer :=
        if c == '\\' then
          match l₁.peek with
          | (none, l₂) => .inl ([⟨ItemError, l₂.start, "unterminated quoted string"⟩], .halt)
          | (some _, l₂) => .inr (l₂.next).2
        else .inr l₁
      match esc with
      | .inl r => .inl r
      | .inr k =>
          if (some c : Rune) == quote then
            match k.peek with
            | (q2, k₂) =>
                if q2 == quote then .inr (k₂.next).2
                else
                  let (it, k₃) := k₂.emit ItemString
                  .inl ([it], .cont .lexWhitespace k₃)
          else .inr k

/-- Lemma: a continuing lexString iteration consumed at least one real rune. -/
theorem stringStep_inr_lt {quote : Rune} {l l' : Lexer}
    (h : stringStep quote l = .inr l') : l'.realAvail < l.realAvail := by
  rw [stringStep] at h
  rcases hn : l.next with ⟨r, l₁⟩
  rw [hn] at h
  cases r with
  | none => simp at h
  | some c =>
      have hlt1 : l₁.realAvail < l.realAvail := by
        have := realAvail_next_lt (l := l) (c := c) (by rw [hn])
        rwa [hn] at this
      simp only at h
      by_cases hbs : (c == '\\') = true
      · rw [if_pos hbs] at h
        rcases hp : l₁.peek with ⟨pr, l₂⟩
        rw [hp] at h
        have hra2 : l₂.realAvail = l₁.realAvail := by
          have := peek_realAvail l₁
          rwa [hp] at this
        cases pr with
        | none => simp at h
        | some d =>
            simp only at h
            have hra3 : ((l₂.next).2).realAvail ≤ l₁.realAvail := by
              have := realAvail_next_le l₂
              omega
            by_cases hq : ((some c : Rune) == quote) = true
            · rw [if_pos hq] at h
              rcases hp2 : (l₂.next).2.peek with ⟨q2, k₂⟩
              rw [hp2] at h
              have hra4 : k₂.realAvail = ((l₂.next).2).realAvail := by
                have := peek_realAvail ((l₂.next).2)
                rwa [hp2] at this
              by_cases hq2 : (q2 == quote) = true
              · rw [if_pos hq2] at h
                simp only [Sum.inr.injEq] at h
                subst h
                have := realAvail_next_le k₂
                omega
              · rw [if_neg hq2] at h
                simp at h
            · rw [if_neg hq] at h
              simp only [Sum.inr.injEq] at h
              subst h
              omega
      · rw [if_neg hbs] at h
        simp only at h
        by_cases hq : ((some c : Rune) == quote) = true
        · rw [if_pos hq] at h
          rcases hp2 : l₁.peek with ⟨q2, k₂⟩
          rw [hp2] at h
          have hra4 : k₂.realAvail = l₁.realAvail := by
            have := peek_realAvail l₁
            rwa [hp2] at this
          by_cases hq2 : (q2 == quote) = true
          · rw [if_pos hq2] at h
            simp only [Sum.inr.injEq] at h
            subst h
            have := realAvail_next_le k₂
            omega
          · rw [if_neg hq2] at h
            simp at h
        · rw [if_neg hq] at h
          simp only [Sum.inr.injEq] at h
          subst h
          exact hlt1

/-- Fuel-indexed body of the lexString scan loop; every continuing
iteration consumes a real rune, so realAvail + 1 fuel suffices. -/
def stringLoopF : Nat → Rune → Lexer → List Item × StepOut
  | 0, _, _ => ([], .fault ⟨"lexer: lexString out of fuel"⟩)
  | f + 1, quote, l =>
      match stringStep quote l with
      | .inl r => r
      | .inr l' => stringLoopF f quote l'

/-- The lexString scan loop after the opening quote was read. -/
def stringLoop (quote : Rune) (l : Lexer) : List Item × StepOut :=
  stringLoopF (l.realAvail + 1) quote l

/-- Lemma: fuel beyond the available real runes is irrelevant for the
lexString loop. -/
theorem stringLoopF_irrel (quote : Rune) :
    ∀ f₁ f₂ l, l.realAvail < f₁ → l.realAvail < f₂ →
      stringLoopF f₁ quote l = stringLoopF f₂ quote l := by
  intro f₁
  induction f₁ with
  | zero => intro f₂ l h1 h2; omega
  | succ g ih =>
      intro f₂ l h1 h2
      match f₂, h2 with
      | h + 1, h2 =>
        rw [stringLoopF, stringLoopF]
        rcases hs : stringStep quote l with r | l'
        · rfl
        · have := stringStep_inr_lt hs
          exact ih h l' (by omega) (by omega)

/-- Go's lexString: record the opening quote, then scan to the true close,
treating backslash escapes and doubled quotes. -/
def lexStringF (l : Lexer) : List Item × StepOut :=
  let (quote, l₁) := l.next
  stringLoop quote l₁

/-- One iteration of the lexMultiLineComment loop. -/
def mlcStep (l : Lexer) : (List Item × StepOut) ⊕ Lexer :=
  match acceptUntil (fun r => r == some '*') l with
  | .error p => .inl ([], .fault p)
  | .ok (_, l₁) =>
      match l₁.peekNext 2 with
      | (two, l₂) =>
          if two == [some '*', some '/'] then
            let l₃ := (l₂.next).2
            let l₄ := (l₃.next).2
            let (it, l₅) := l₄.emit ItemMultiLineComment
            .inl ([it], .cont .lexWhitespace l₅)
          else
            match l₂.peek with
            | (none, l₃) =>
                .inl ([⟨ItemError, l₃.start, "reached EOF when looking for comment end"⟩], .halt)
            | (some _, l₃) => .inr (l₃.next).2

/-- Lemma: a continuing lexMultiLineComment iteration consumed at least one
real rune. -/
theorem mlcStep_inr_lt {l l' : Lexer} (h : mlcStep l = .inr l') :
    l'.realAvail < l.realAvail := by
  rw [mlcStep] at h
  rcases ha : acceptUntil (fun r => r == some '*') l with p | nl₁
  · rw [ha] at h
    simp at h
  · rcases nl₁ with ⟨n, l₁⟩
    rw [ha] at h
    simp only at h
    have hle1 : l₁.realAvail ≤ l.realAvail := acceptUntil_realAvail_le _ l n l₁ ha
    rcases hp2 : l₁.peekNext 2 with ⟨two, l₂⟩
    rw [hp2] at h
    have hra2 : l₂.realAvail = l₁.realAvail := by
      have := peekNext_realAvail l₁ 2
      rwa [hp2] at this
    by_cases htwo : (two == [some '*', some '/']) = true
    · rw [if_pos htwo] at h
      simp at h
    · rw [if_neg htwo] at h
      rcases hpk : l₂.peek with ⟨pr, l₃⟩
      rw [hpk] at h
      cases pr with
      | none => simp at h
      | some d =>
          simp only [Sum.inr.injEq] at h
          subst h
          have hra3 : l₃.realAvail = l₂.realAvail := by
            have := peek_realAvail l₂
            rwa [hpk] at this
          have hv : l₃.peekVal 0 = some d := by
            have h1 := peek_fst l₂
            rw [hpk] at h1
            have h2 := peek_peekVal l₂ 0
            rw [hpk] at h2
            simp only at h1 h2
            rw [h2, ← h1]
          have := realAvail_next_lt (l := l₃) (c := d) (by rw [next_fst, hv])
          omega

/-- Fuel-indexed body of the lexMultiLineComment scan loop. -/
def mlcLoopF : Nat → Lexer → List Item × StepOut
  | 0, _ => ([], .fault ⟨"lexer: lexMultiLineComment out of fuel"⟩)
  | f + 1, l =>
      match mlcStep l with
      | .inl r => r
      | .inr l' => mlcLoopF f l'

/-- The lexMultiLineComment scan loop after the opening slash-star was read. -/
def mlcLoop (l : Lexer) : List Item × StepOut :=
  mlcLoopF (l.realAvail + 1) l

/-- Lemma: fuel beyond the available real runes is irrelevant for the
lexMultiLineComment loop. -/
theorem mlcLoopF_irrel :
    ∀ f₁ f₂ l, l.realAvail < f₁ → l.realAvail < f₂ →
      mlcLoopF f₁ l = mlcLoopF f₂ l := by
  intro f₁
  induction f₁ with
  | zero => intro f₂ l h1 h2; omega
  | succ g ih =>
      intro f₂ l h1 h2
      match f₂, h2 with
      | h + 1, h2 =>
        rw [mlcLoopF, mlcLoopF]
        rcases hs : mlcStep l with r | l'
        · rfl
        · have := mlcStep_inr_lt hs
          exact ih h l' (by omega) (by omega)

/-- Go's lexMultiLineComment: consume the opening slash-star, then scan for
the closing star-slash, with a fatal error at EOF. -/
def lexMultiLineCommentF (l : Lexer) : List Item × StepOut :=
  let l₁ := (l.next).2
  let l₂ := (l₁.next).2
  mlcLoop l₂

/-- One iteration of the backtick-quoted span loop inside
lexIdentifierOrKeyword: inl ends the whole state function (EOF error),
inr (true, l) continues the inner loop, inr (false, l) closes the span. -/
def backtickStep (l : Lexer) : (List Item × StepOut) ⊕ (Bool × Lexer) :=
  match l.next with
  | (none, l₁) => .inl ([⟨ItemError, l₁.start, "unterminated quoted string"⟩], .halt)
  | (some c, l₁) =>
      if c == '`' then
        match l₁.peek with
        | (pk, l₂) =>
            if pk == some '`' then .inr (true, (l₂.next).2)
            else .inr (false, l₂)
      else .inr (true, l₁)

/-- Lemma: a continuing backtick iteration consumed at least one real rune. -/
theorem backtickStep_true_lt {l l' : Lexer}
    (h : backtickStep l = .inr (true, l')) : l'.realAvail < l.realAvail := by
  rw [backtickStep] at h
  rcases hn : l.next with ⟨r, l₁⟩
  rw [hn] at h
  cases r with
  | none => simp at h
  | some c =>
      have hlt1 : l₁.realAvail < l.realAvail := by
        have := realAvail_next_lt (l := l) (c := c) (by rw [hn])
        rwa [hn] at this
      simp only at h
      by_cases hbt : (c == '`') = true
      · rw [if_pos hbt] at h
        rcases hp : l₁.peek with ⟨pk, l₂⟩
        rw [hp] at h
        have hra2 : l₂.realAvail = l₁.realAvail := by
          have := peek_realAvail l₁
          rwa [hp] at this
        by_cases hq : (pk == some '`') = true
        · rw [if_pos hq] at h
          simp only [Sum.inr.injEq, Prod.mk.injEq] at h
          have h2 := h.2
          subst h2
          have := realAvail_next_le l₂
          omega
        · rw [if_neg hq] at h
          simp at h
      · rw [if_neg hbt] at h
        simp only [Sum.inr.injEq, Prod.mk.injEq] at h
        have h2 := h.2
        subst h2
        exact hlt1

/-- Lemma: closing the backtick span never increases the available count. -/
theorem backtickStep_false_le {l l' : Lexer}
    (h : backtickStep l = .inr (false, l')) : l'.realAvail ≤ l.realAvail := by
  rw [backtickStep] at h
  rcases hn : l.next with ⟨r, l₁⟩
  rw [hn] at h
  cases r with
  | none => simp at h
  | some c =>
      have hlt1 : l₁.realAvail < l.realAvail := by
        have := realAvail_next_lt (l := l) (c := c) (by rw [hn])
        rwa [hn] at this
      simp only at h
      by_cases hbt : (c == '`') = true
      · rw [if_pos hbt] at h
        rcases hp : l₁.peek with ⟨pk, l₂⟩
        rw [hp] at h
        have hra2 : l₂.realAvail = l₁.realAvail := by
          have := peek_realAvail l₁
          rwa [hp] at this
        by_cases hq : (pk == some '`') = true
        · rw [if_pos hq] at h
          simp at h
        · rw [if_neg hq] at h
          simp only [Sum.inr.injEq, Prod.mk.injEq] at h
          have h2 := h.2
          subst h2
          omega
      · rw [if_neg hbt] at h
        simp at h

/-- Fuel-indexed body of the backtick-quoted span loop. -/
def backtickLoopF : Nat → Lexer → (List Item × StepOut) ⊕ Lexer
  | 0, _ => .inl ([], .fault ⟨"lexer: backtick loop out of fuel"⟩)
  | f + 1, l =>
      match backtickStep l with
      | .inl r => .inl r
      | .inr (false, l') => .inr l'
      | .inr (true, l') => backtickLoopF f l'

/-- The backtick-quoted span loop of lexIdentifierOrKeyword. -/
def backtickLoop (l : Lexer) : (List Item × StepOut) ⊕ Lexer :=
  backtickLoopF (l.realAvail + 1) l

/-- Lemma: fuel beyond the available real runes is irrelevant for the
backtick span loop. -/
theorem backtickLoopF_irrel :
    ∀ f₁ f₂ l, l.realAvail < f₁ → l.realAvail < f₂ →
      backtickLoopF f₁ l = backtickLoopF f₂ l := by
  intro f₁
  induction f₁ with
  | zero => intro f₂ l h1 h2; omega
  | succ g ih =>
      intro f₂ l h1 h2
      match f₂, h2 with
      | h + 1, h2 =>
        rw [backtickLoopF, backtickLoopF]
        rcases hs : backtickStep l with r | bl
        · rfl
        · rcases bl with ⟨b, l'⟩
          cases b with
          | false => rfl
          | true =>
              have := backtickStep_true_lt hs
              exact ih h l' (by omega) (by omega)

/-- Lemma: the backtick span loop never increases the available count. -/
theorem backtickLoop_le :
    ∀ l l' : Lexer, backtickLoop l = .inr l' → l'.realAvail ≤ l.realAvail := by
  suffices hyp : ∀ R : Nat, ∀ l : Lexer, l.realAvail = R → ∀ l',
      backtickLoop l = .inr l' → l'.realAvail ≤ l.realAvail by
    intro l l' h
    exact hyp l.realAvail l rfl l' h
  intro R
  induction R using Nat.strong_induction_on with
  | _ R ih =>
      intro x hR l' h
      rw [backtickLoop, backtickLoopF] at h
      rcases hs : backtickStep x with r | bl
      · rw [hs] at h
        simp at h
      · rcases bl with ⟨b, l₀⟩
        rw [hs] at h
        cases b with
        | false =>
            simp only [Sum.inr.injEq] at h
            subst h
            exact backtickStep_false_le hs
        | true =>
            have hlt := backtickStep_true_lt hs
            simp only at h
            rw [backtickLoopF_irrel x.realAvail (l₀.realAvail + 1) l₀ (by omega) (by omega)] at h
            have h1 := ih l₀.realAvail (by omega) l₀ rfl l' h
            omega

/-- The common tail of a lexIdentifierOrKeyword iteration: skip and emit
trailing whitespace, then either break back to dispatch (inl) or consume a
dot, emit the Dot token and loop again (inr). -/
def identTail (acc : List Item) (l : Lexer) : (List Item × StepOut) ⊕ (List Item × Lexer) :=
  match acceptWhile isWhitespace l with
  | .error p => .inl (acc, .fault p)
  | .ok (_, l₁) =>
      let (wsIts, l₂) :=
        if l₁.pos > 0 then
          let (it, l') := l₁.emit ItemWhitespace
          ([it], l')
        else ([], l₁)
      match l₂.peek with
      | (pk, l₃) =>
          if pk == some '.' then
            let l₄ := (l₃.next).2
            let (dotIt, l₅) := l₄.emit ItemDot
            .inr (acc ++ wsIts ++ [dotIt], l₅)
          else .inl (acc ++ wsIts, .cont .lexWhitespace l₃)

/-- Lemma: a looping identifier tail consumed the dot, a real rune. -/
theorem identTail_inr_lt {acc its : List Item} {l l' : Lexer}
    (h : identTail acc l = .inr (its, l')) : l'.realAvail < l.realAvail := by
  rw [identTail] at h
  rcases ha : acceptWhile isWhitespace l with p | nl₁
  · rw [ha] at h
    simp at h
  · rcases nl₁ with ⟨n, l₁⟩
    rw [ha] at h
    simp only at h
    have hle1 : l₁.realAvail ≤ l.realAvail := acceptWhile_realAvail_le _ l n l₁ ha
    by_cases hp0 : l₁.pos > 0
    · rw [if_pos hp0] at h
      simp only at h
      have hra2 : ((l₁.emit ItemWhitespace).2).realAvail = l₁.realAvail :=
        realAvail_emit l₁ ItemWhitespace
      rcases hpk : ((l₁.emit ItemWhitespace).2).peek with ⟨pk, l₃⟩
      rw [hpk] at h
      have hra3 : l₃.realAvail = ((l₁.emit ItemWhitespace).2).realAvail := by
        have := peek_realAvail ((l₁.emit ItemWhitespace).2)
        rwa [hpk] at this
      by_cases hdot : (pk == some '.') = true
      · rw [if_pos hdot] at h
        simp only [Sum.inr.injEq, Prod.mk.injEq] at h
        have h2 := h.2
        subst h2
        have hv : l₃.peekVal 0 = some '.' := by
          have h1 := peek_fst ((l₁.emit ItemWhitespace).2)
          rw [hpk] at h1
          have h2 := peek_peekVal ((l₁.emit ItemWhitespace).2) 0
          rw [hpk] at h2
          simp only at h1 h2
          rw [h2, ← h1]
          simpa using hdot
        have hlt := realAvail_next_lt (l := l₃) (c := '.') (by rw [next_fst, hv])
        have hre : ((l₃.next).2.emit ItemDot).2.realAvail = (l₃.next).2.realAvail :=
          realAvail_emit _ ItemDot
        omega
      · rw [if_neg hdot] at h
        simp at h
    · rw [if_neg hp0] at h
      simp only at h
      rcases hpk : l₁.peek with ⟨pk, l₃⟩
      rw [hpk] at h
      have hra3 : l₃.realAvail = l₁.realAvail := by
        have := peek_realAvail l₁
        rwa [hpk] at this
      by_cases hdot : (pk == some '.') = true
      · rw [if_pos hdot] at h
        simp only [Sum.inr.injEq, Prod.mk.injEq] at h
        have h2 := h.2
        subst h2
        have hv : l₃.peekVal 0 = some '.' := by
          have h1 := peek_fst l₁
          rw [hpk] at h1
          have h2 := peek_peekVal l₁ 0
          rw [hpk] at h2
          simp only at h1 h2
          rw [h2, ← h1]
          simpa using hdot
        have hlt := realAvail_next_lt (l := l₃) (c := '.') (by rw [next_fst, hv])
        have hre : ((l₃.next).2.emit ItemDot).2.realAvail = (l₃.next).2.realAvail :=
          realAvail_emit _ ItemDot
        omega
      · rw [if_neg hdot] at h
        simp at h

/-- One iteration of the lexIdentifierOrKeyword outer loop. -/
def identStep (l : Lexer) : (List Item × StepOut) ⊕ (List Item × Lexer) :=
  match l.next with
  | (s, l₁) =>
      if s == (some '`' : Rune) then
        match backtickLoop l₁ with
        | .inl r => .inl r
        | .inr l₂ =>
            let (it, l₃) := l₂.emit ItemIdentifier
            identTail [it] l₃
      else if isAlphaNumeric s then
        match acceptWhile isAlphaNumeric l₁ with
        | .error p => .inl ([], .fault p)
        | .ok (_, l₂) =>
            let (it, l₃) := l₂.emit ItemIdentifier
            identTail [it] l₃
      else identTail [] l₁

/-- Lemma: a looping lexIdentifierOrKeyword iteration consumed at least one
real rune (its closing dot). -/
theorem identStep_inr_lt {its : List Item} {l l' : Lexer}
    (h : identStep l = .inr (its, l')) : l'.realAvail < l.realAvail := by
  rw [identStep] at h
  rcases hn : l.next with ⟨s, l₁⟩
  rw [hn] at h
  have hle1 : l₁.realAvail ≤ l.realAvail := by
    have := realAvail_next_le l
    rwa [hn] at this
  simp only at h
  by_cases hbt : (s == (some '`' : Rune)) = true
  · rw [if_pos hbt] at h
    rcases hbl : backtickLoop l₁ with r | l₂
    · rw [hbl] at h
      simp at h
    · rw [hbl] at h
      simp only at h
      have hle2 : l₂.realAvail ≤ l₁.realAvail := backtickLoop_le l₁ l₂ hbl
      have hle3 : ((l₂.emit ItemIdentifier).2).realAvail = l₂.realAvail :=
        realAvail_emit l₂ ItemIdentifier
      have := identTail_inr_lt h
      omega
  · rw [if_neg hbt] at h
    by_cases han : isAlphaNumeric s = true
    · rw [if_pos han] at h
      rcases ha : acceptWhile isAlphaNumeric l₁ with p | nl₂
      · rw [ha] at h
        simp at h
      · rcases nl₂ with ⟨n, l₂⟩
        rw [ha] at h
        simp only at h
        have hle2 : l₂.realAvail ≤ l₁.realAvail := acceptWhile_realAvail_le _ l₁ n l₂ ha
        have hle3 : ((l₂.emit ItemIdentifier).2).realAvail = l₂.realAvail :=
          realAvail_emit l₂ ItemIdentifier
        have := identTail_inr_lt h
        omega
    · rw [if_neg han] at h
      have := identTail_inr_lt h
      omega

/-- Fuel-indexed body of the lexIdentifierOrKeyword outer loop. -/
def identLoopF : Nat → Lexer → List Item × StepOut
  | 0, _ => ([], .fault ⟨"lexer: lexIdentifierOrKeyword out of fuel"⟩)
  | f + 1, l =>
      match identStep l with
      | .inl r => r
      | .inr (its, l') =>
          let (more, out) := identLoopF f l'
          (its ++ more, out)

/-- The lexIdentifierOrKeyword outer loop: identifier spans, interleaved
whitespace and the dots of qualified names. -/
def identLoop (l : Lexer) : List Item × StepOut :=
  identLoopF (l.realAvail + 1) l

/-- Lemma: fuel beyond the available real runes is irrelevant for the
lexIdentifierOrKeyword loop. -/
theorem identLoopF_irrel :
    ∀ f₁ f₂ l, l.realAvail < f₁ → l.realAvail < f₂ →
      identLoopF f₁ l = identLoopF f₂ l := by
  intro f₁
  induction f₁ with
  | zero => intro f₂ l h1 h2; omega
  | succ g ih =>
      intro f₂ l h1 h2
      match f₂, h2 with
      | h + 1, h2 =>
        rw [identLoopF, identLoopF]
        rcases hs : identStep l with r | il
        · rfl
        · rcases il with ⟨its, l'⟩
          have := identStep_inr_lt hs
          simp only
          rw [ih h l' (by omega) (by omega)]

/-- The ASCII digit test of the dispatch switch (the source compares the
rune against '0' and '9' directly); false on EOF. -/
def isAsciiDigit (r : Rune) : Bool :=
  match r with
  | some c => decide ('0' ≤ c) && decide (c ≤ '9')
  | none => false

/-- The switch of Go's lexWhitespace after the whitespace run was emitted:
branch on one or two runes of lookahead, in the priority order of the
source, carrying the already-emitted whitespace token. -/
def dispatchSwitch (wsIts : List Item) (l₂ : Lexer) : List Item × StepOut :=
  match l₂.peek with
      | (nxt, l₃) =>
          match l₃.peekNext 2 with
          | (nextTwo, l₄) =>
              if nxt == (none : Rune) then
                let (it, _) := l₄.emit ItemEOF
                (wsIts ++ [it], .halt)
              else if nextTwo == [some '-', some '-'] then
                (wsIts, .cont .lexSingleLineComment l₄)
              else if nextTwo == [some '/', some '*'] then
                (wsIts, .cont .lexMultiLineComment l₄)
              else if nxt == (some '(' : Rune) then
                let (it, l₆) := ((l₄.next).2).emit ItemLeftParen
                (wsIts ++ [it], .cont .lexWhitespace l₆)
              else if nxt == (some ')' : Rune) then
                let (it, l₆) := ((l₄.next).2).emit ItemRightParen
                (wsIts ++ [it], .cont .lexWhitespace l₆)
              else if nxt == (some ',' : Rune) then
                let (it, l₆) := ((l₄.next).2).emit ItemComma
                (wsIts ++ [it], .cont .lexWhitespace l₆)
              else if nxt == (some ';' : Rune) then
                let (it, l₆) := ((l₄.next).2).emit ItemStetementEnd
                (wsIts ++ [it], .cont .lexWhitespace l₆)
              else if isOperator nxt then
                (wsIts, .cont .lexOperator l₄)
              else if nxt == (some '"' : Rune) || nxt == (some '\'' : Rune) then
                (wsIts, .cont .lexString l₄)
              else if isAsciiDigit nxt then
                (wsIts, .cont .lexNumber l₄)
              else if isAlphaNumeric nxt || nxt == (some '`' : Rune) then
                (wsIts, .cont .lexIdentifierOrKeyword l₄)
              else
                (wsIts ++ [⟨ItemError, l₄.start,
                  "don't know what to do with '" ++ runesToString nextTwo ++ "'"⟩], .halt)

/-- Go's lexWhitespace, the dispatch state: consume a maximal whitespace
run, emit it when non-empty, then run the dispatch switch. -/
def lexWhitespaceF (l : Lexer) : List Item × StepOut :=
  match acceptWhile isWhitespace l with
  | .error p => ([], .fault p)
  | .ok (_, l₁) =>
      if l₁.pos > 0 then
        dispatchSwitch [(l₁.emit ItemWhitespace).1] (l₁.emit ItemWhitespace).2
      else
        dispatchSwitch [] l₁

/-- Go's lexSingleLineComment: consume to end of line (or EOF), emit. -/
def lexSingleLineCommentF (l : Lexer) : List Item × StepOut :=
  match acceptUntil isEndOfLine l with
  | .error p => ([], .fault p)
  | .ok (_, l₁) =>
      let (it, l₂) := l₁.emit ItemSingleLineComment
      ([it], .cont .lexWhitespace l₂)

/-- Go's lexOperator: consume a maximal operator run, emit. -/
def lexOperatorF (l : Lexer) : List Item × StepOut :=
  match acceptWhile isOperator l with
  | .error p => ([], .fault p)
  | .ok (_, l₁) =>
      let (it, l₂) := l₁.emit ItemOperator
      ([it], .cont .lexWhitespace l₂)

/-- Go's lexNumber: digits, an optional fraction, an optional exponent; if
an identifier character follows, rewind everything and hand over to
lexIdentifierOrKeyword, else emit the Number token. -/
def lexNumberF (l : Lexer) : List Item × StepOut :=
  match acceptWhile isDigitRune l with
  | .error p => ([], .fault p)
  | .ok (n₁, l₁) =>
      match l₁.accept ['.'] with
      | .error p => ([], .fault p)
      | .ok (a, l₂) =>
          match (if a > 0 then
                   match acceptWhile isDigitRune l₂ with
                   | .error p => .error p
                   | .ok (n₂, l₃) => .ok (n₁ + 1 + n₂, l₃)
                 else .ok (n₁, l₂) : Except GoPanic (Nat × Lexer)) with
          | .error p => ([], .fault p)
          | .ok (count₂, l₃) =>
              match l₃.accept ['e', 'E'] with
              | .error p => ([], .fault p)
              | .ok (b, l₄) =>
                  match (if b > 0 then
                           match l₄.accept ['+', '-'] with
                           | .error p => .error p
                           | .ok (sn, l₅) =>
                               match acceptWhile isDigitRune l₅ with
                               | .error p => .error p
                               | .ok (n₃, l₆) => .ok (count₂ + 1 + sn + n₃, l₆)
                         else .ok (count₂, l₄) : Except GoPanic (Nat × Lexer)) with
                  | .error p => ([], .fault p)
                  | .ok (count, l₆) =>
                      match l₆.peek with
                      | (pk, l₇) =>
                          if isAlphaNumeric pk then
                            match l₇.backupWith count with
                            | .error p => ([], .fault p)
                            | .ok l₈ => ([], .cont .lexIdentifierOrKeyword l₈)
                          else
                            let (it, l₈) := l₇.emit ItemNumber
                            ([it], .cont .lexWhitespace l₈)

/-- Go's lexIdentifierOrKeyword as a state function. -/
def lexIdentifierOrKeywordF (l : Lexer) : List Item × StepOut :=
  identLoop l

/-- One application of the current state function. -/
def step (tag : StateTag) (l : Lexer) : List Item × StepOut :=
  match tag with
  | .lexWhitespace => lexWhitespaceF l
  | .lexSingleLineComment => lexSingleLineCommentF l
  | .lexMultiLineComment => lexMultiLineCommentF l
  | .lexOperator => lexOperatorF l
  | .lexNumber => lexNumberF l
  | .lexString => lexStringF l
  | .lexIdentifierOrKeyword => lexIdentifierOrKeywordF l

/-- How a whole run ends: the state machine reached nil and the channel was
closed (completed), the driver fuel ran out (the run function is total;
enough fuel always exists), or a Go panic aborted the scan. -/
inductive RunOut where
  | completed
  | outOfFuel
  | faulted (p : GoPanic)
deriving Repr, DecidableEq

/-- The run loop of the source (for state := lexWhitespace; state != nil;
state = state(l)), with fuel counting state-function applications. -/
def runFuel : Nat → StateTag → Lexer → List Item × RunOut
  | 0, _, _ => ([], .outOfFuel)
  | fuel + 1, tag, l =>
      match step tag l with
      | (items, .halt) => (items, .completed)
      | (items, .fault p) => (items, .faulted p)
      | (items, .cont tag' l') =>
          let (more, r) := runFuel fuel tag' l'
          (items ++ more, r)

/-- A fresh scanner over an input (the whole input is the unread stream). -/
def initLexer (input : List Char) : Lexer :=
  ⟨input.map some, 0, 0⟩

/-- Fuel that always suffices: three state-function applications per input
rune plus the terminal steps (proved below). -/
def scanFuel (input : List Char) : Nat :=
  3 * input.length + 3

/-- The full scan of an input: every Item sent to the Items channel, in
emission order. -/
def scanRun (input : List Char) : List Item × RunOut :=
  runFuel (scanFuel input) .lexWhitespace (initLexer input)

/-- The emitted token sequence of the full scan. -/
def scanTokens (input : List Char) : List Item :=
  (scanRun input).1

/-- Rewrite equation: a stringLoop iteration that exits. -/
theorem stringLoop_inl {quote : Rune} {l : Lexer} {r : List Item × StepOut}
    (h : stringStep quote l = .inl r) : stringLoop quote l = r := by
  rw [stringLoop, stringLoopF, h]

/-- Rewrite equation: a stringLoop iteration that continues. -/
theorem stringLoop_inr {quote : Rune} {l l' : Lexer}
    (h : stringStep quote l = .inr l') : stringLoop quote l = stringLoop quote l' := by
  rw [stringLoop, stringLoopF, h]
  show stringLoopF l.realAvail quote l' = stringLoop quote l'
  rw [stringLoop]
  exact stringLoopF_irrel quote _ _ l'
    (by have := stringStep_inr_lt h; omega) (by omega)

/-- Rewrite equation: an mlcLoop iteration that exits. -/
theorem mlcLoop_inl {l : Lexer} {r : List Item × StepOut}
    (h : mlcStep l = .inl r) : mlcLoop l = r := by
  rw [mlcLoop, mlcLoopF, h]

/-- Rewrite equation: an mlcLoop iteration that continues. -/
theorem mlcLoop_inr {l l' : Lexer}
    (h : mlcStep l = .inr l') : mlcLoop l = mlcLoop l' := by
  rw [mlcLoop, mlcLoopF, h]
  show mlcLoopF l.realAvail l' = mlcLoop l'
  rw [mlcLoop]
  exact mlcLoopF_irrel _ _ l' (by have := mlcStep_inr_lt h; omega) (by omega)

/-- Rewrite equation: a backtickLoop iteration that exits the state function. -/
theorem backtickLoop_inl {l : Lexer} {r : List Item × StepOut}
    (h : backtickStep l = .inl r) : backtickLoop l = .inl r := by
  rw [backtickLoop, backtickLoopF, h]

/-- Rewrite equation: a backtickLoop iteration that closes the span. -/
theorem backtickLoop_done {l l' : Lexer}
    (h : backtickStep l = .inr (false, l')) : backtickLoop l = .inr l' := by
  rw [backtickLoop, backtickLoopF, h]

/-- Rewrite equation: a backtickLoop iteration that continues. -/
theorem backtickLoop_cont {l l' : Lexer}
    (h : backtickStep l = .inr (true, l')) : backtickLoop l = backtickLoop l' := by
  rw [backtickLoop, backtickLoopF, h]
  show backtickLoopF l.realAvail l' = backtickLoop l'
  rw [backtickLoop]
  exact backtickLoopF_irrel _ _ l'
    (by have := backtickStep_true_lt h; omega) (by omega)

/-- Rewrite equation: an identLoop iteration that exits. -/
theorem identLoop_inl {l : Lexer} {r : List Item × StepOut}
    (h : identStep l = .inl r) : identLoop l = r := by
  rw [identLoop, identLoopF, h]

/-- Rewrite equation: an identLoop iteration that loops on a dot. -/
theorem identLoop_inr {l l' : Lexer} {its : List Item}
    (h : identStep l = .inr (its, l')) :
    identLoop l = (its ++ (identLoop l').1, (identLoop l').2) := by
  rw [identLoop, identLoopF, h]
  have he : identLoopF l.realAvail l' = identLoop l' := by
    rw [identLoop]
    exact identLoopF_irrel _ _ l'
      (by have := identStep_inr_lt h; omega) (by omega)
  show (its ++ (identLoopF l.realAvail l').1, (identLoopF l.realAvail l').2) =
    (its ++ (identLoop l').1, (identLoop l').2)
  rw [he]

/-- A terminal token: End-of-Input or Error, after which the run loop stops. -/
def isTerminal (it : Item) : Bool :=
  it.type == ItemEOF || it.type == ItemError

/-- The per-state-function protocol: every End-of-Input item carries empty
text; a transitioning application emits no terminal item; a halting
application emits a non-terminal prefix and then exactly one terminal item. -/
def StepSpec (items : List Item) (out : StepOut) : Prop :=
  (∀ it ∈ items, it.type = ItemEOF → it.val = "") ∧
  (∀ tag l', out = .cont tag l' → ∀ it ∈ items, isTerminal it = false) ∧
  (out = .halt → ∃ pre t, items = pre ++ [t] ∧
    (∀ it ∈ pre, isTerminal it = false) ∧ isTerminal t = true)

/-- Lemma: a faulting application satisfies the protocol vacuously when its
items list is empty. -/
theorem stepSpec_fault (items : List Item) (p : GoPanic)
    (h : ∀ it ∈ items, it.type = ItemEOF → it.val = "") :
    StepSpec items (.fault p) := by
  refine ⟨h, ?_, ?_⟩
  · intro tag l' hco
    exact absurd hco (by simp)
  · intro hh
    exact absurd hh (by simp)

/-- Lemma: the protocol for a single non-terminal emitted item. -/
theorem stepSpec_cont_single {it : Item} {tag : StateTag} {l' : Lexer}
    (h1 : isTerminal it = false) (h2 : it.type ≠ ItemEOF) :
    StepSpec [it] (.cont tag l') := by
  refine ⟨?_, ?_, ?_⟩
  · intro x hx he
    simp at hx
    subst hx
    exact absurd he h2
  · intro tag' l'' _ x hx
    simp at hx
    subst hx
    exact h1
  · intro hh
    exact absurd hh (by simp)

/-- Lemma: the type of the item emitted by emit. -/
theorem emit_type (l : Lexer) (t : ItemType) : ((l.emit t).1).type = t := rfl

/-- Lemma: an End-of-Input emitted at a reset consumption index has empty
text. -/
theorem emit_val_pos_zero {l : Lexer} (t : ItemType) (h : l.pos = 0) :
    ((l.emit t).1).val = "" := by
  rw [emit_fst]
  simp only [h, List.take_zero]
  rfl


/-- NonTermWs packages what is known of the whitespace token list carried
into the dispatch switch: no terminal item, no End-of-Input item. -/
def NonTermWs (wsIts : List Item) : Prop :=
  ∀ it ∈ wsIts, isTerminal it = false ∧ it.type ≠ ItemEOF

/-- Lemma: protocol of a switch branch that transitions with only the
whitespace token. -/
theorem stepSpec_cont_ws {wsIts : List Item} (hws : NonTermWs wsIts)
    (tag : StateTag) (l' : Lexer) : StepSpec wsIts (.cont tag l') := by
  refine ⟨?_, ?_, ?_⟩
  · intro it hit he
    exact absurd he (hws it hit).2
  · intro _ _ _ it hit
    exact (hws it hit).1
  · intro hh
    exact absurd hh (by simp)

/-- Lemma: protocol of a switch branch that emits one more non-terminal
item and transitions. -/
theorem stepSpec_cont_ws_item {wsIts : List Item} (hws : NonTermWs wsIts)
    {it : Item} (h1 : isTerminal it = false) (h2 : it.type ≠ ItemEOF)
    (tag : StateTag) (l' : Lexer) : StepSpec (wsIts ++ [it]) (.cont tag l') := by
  refine ⟨?_, ?_, ?_⟩
  · intro x hx he
    simp at hx
    rcases hx with hx | hx
    · exact absurd he (hws x hx).2
    · subst hx
      exact absurd he h2
  · intro _ _ _ x hx
    simp at hx
    rcases hx with hx | hx
    · exact (hws x hx).1
    · subst hx
      exact h1
  · intro hh
    exact absurd hh (by simp)

/-- Lemma: protocol of a switch branch that emits a terminal item and halts. -/
theorem stepSpec_halt_ws {wsIts : List Item} (hws : NonTermWs wsIts)
    {t : Item} (ht : isTerminal t = true) (hv : t.type = ItemEOF → t.val = "") :
    StepSpec (wsIts ++ [t]) .halt := by
  refine ⟨?_, ?_, ?_⟩
  · intro x hx he
    simp at hx
    rcases hx with hx | hx
    · exact absurd he (hws x hx).2
    · subst hx
      exact hv he
  · intro tag l' hco
    exact absurd hco (by simp)
  · intro _
    exact ⟨wsIts, t, rfl, fun x hx => (hws x hx).1, ht⟩

/-- Protocol of the dispatch switch. -/
theorem dispatchSwitch_spec (wsIts : List Item) (l₂ : Lexer)
    (hws : NonTermWs wsIts) (hl2 : l₂.pos = 0) :
    StepSpec (dispatchSwitch wsIts l₂).1 (dispatchSwitch wsIts l₂).2 := by
  rw [dispatchSwitch]
  rcases hpk : l₂.peek with ⟨nxt, l₃⟩
  have hl3 : l₃.pos = 0 := by
    have := peek_pos l₂
    rw [hpk] at this
    simp at this
    omega
  simp only
  rcases hp2 : l₃.peekNext 2 with ⟨nextTwo, l₄⟩
  have hl4 : l₄.pos = 0 := by
    have := peekNext_pos l₃ 2
    rw [hp2] at this
    simp at this
    omega
  simp only
  by_cases h1 : (nxt == (none : Rune)) = true
  · rw [if_pos h1]
    refine stepSpec_halt_ws hws ?_ ?_
    · simp [isTerminal, emit_type]
    · intro _
      exact emit_val_pos_zero ItemEOF hl4
  · rw [if_neg h1]
    by_cases h2 : (nextTwo == [some '-', some '-']) = true
    · rw [if_pos h2]
      exact stepSpec_cont_ws hws _ _
    · rw [if_neg h2]
      by_cases h3 : (nextTwo == [some '/', some '*']) = true
      · rw [if_pos h3]
        exact stepSpec_cont_ws hws _ _
      · rw [if_neg h3]
        by_cases h4 : (nxt == (some '(' : Rune)) = true
        · rw [if_pos h4]
          exact stepSpec_cont_ws_item hws (by simp [isTerminal, emit_type])
            (by rw [emit_type]; exact fun hco => ItemType.noConfusion hco) _ _
        · rw [if_neg h4]
          by_cases h5 : (nxt == (some ')' : Rune)) = true
          · rw [if_pos h5]
            exact stepSpec_cont_ws_item hws (by simp [isTerminal, emit_type])
              (by rw [emit_type]; exact fun hco => ItemType.noConfusion hco) _ _
          · rw [if_neg h5]
            by_cases h6 : (nxt == (some ',' : Rune)) = true
            · rw [if_pos h6]
              exact stepSpec_cont_ws_item hws (by simp [isTerminal, emit_type])
                (by rw [emit_type]; exact fun hco => ItemType.noConfusion hco) _ _
            · rw [if_neg h6]
              by_cases h7 : (nxt == (some ';' : Rune)) = true
              · rw [if_pos h7]
                exact stepSpec_cont_ws_item hws (by simp [isTerminal, emit_type])
                  (by rw [emit_type]; exact fun hco => ItemType.noConfusion hco) _ _
              · rw [if_neg h7]
                by_cases h8 : isOperator nxt = true
                · rw [if_pos h8]
                  exact stepSpec_cont_ws hws _ _
                · rw [if_neg h8]
                  by_cases h9 : (nxt == (some '"' : Rune) || nxt == (some '\'' : Rune)) = true
                  · rw [if_pos h9]
                    exact stepSpec_cont_ws hws _ _
                  · rw [if_neg h9]
                    by_cases h10 : isAsciiDigit nxt = true
                    · rw [if_pos h10]
                      exact stepSpec_cont_ws hws _ _
                    · rw [if_neg h10]
                      by_cases h11 : (isAlphaNumeric nxt || nxt == (some '`' : Rune)) = true
                      · rw [if_pos h11]
                        exact stepSpec_cont_ws hws _ _
                      · rw [if_neg h11]
                        refine stepSpec_halt_ws hws (by simp [isTerminal]) ?_
                        intro hco
                        exact absurd hco (by simp)

/-- Protocol of the dispatch state function. -/
theorem lexWhitespaceF_spec (l : Lexer) :
    StepSpec (lexWhitespaceF l).1 (lexWhitespaceF l).2 := by
  rw [lexWhitespaceF]
  rcases ha : acceptWhile isWhitespace l with p | nl₁
  · exact stepSpec_fault [] p (by simp)
  · rcases nl₁ with ⟨n, l₁⟩
    simp only
    by_cases hp : l₁.pos > 0
    · rw [if_pos hp]
      refine dispatchSwitch_spec _ _ ?_ ?_
      · intro it hit
        simp at hit
        subst hit
        refine ⟨by simp [isTerminal, emit_type], ?_⟩
        rw [emit_type]
        exact fun hco => ItemType.noConfusion hco
      · rw [emit_snd]
        rfl
    · rw [if_neg hp]
      refine dispatchSwitch_spec _ _ (by simp [NonTermWs]) (by omega)

/-- Protocol of the single-line comment state function. -/
theorem lexSingleLineCommentF_spec (l : Lexer) :
    StepSpec (lexSingleLineCommentF l).1 (lexSingleLineCommentF l).2 := by
  rw [lexSingleLineCommentF]
  rcases ha : acceptUntil isEndOfLine l with p | nl₁
  · exact stepSpec_fault [] p (by simp)
  · rcases nl₁ with ⟨n, l₁⟩
    simp only
    exact stepSpec_cont_single (by simp [isTerminal, emit_type])
      (by rw [emit_type]; exact fun hco => ItemType.noConfusion hco)

/-- Protocol of the operator state function. -/
theorem lexOperatorF_spec (l : Lexer) :
    StepSpec (lexOperatorF l).1 (lexOperatorF l).2 := by
  rw [lexOperatorF]
  rcases ha : acceptWhile isOperator l with p | nl₁
  · exact stepSpec_fault [] p (by simp)
  · rcases nl₁ with ⟨n, l₁⟩
    simp only
    exact stepSpec_cont_single (by simp [isTerminal, emit_type])
      (by rw [emit_type]; exact fun hco => ItemType.noConfusion hco)

/-- Protocol of the number state function. -/
theorem lexNumberF_spec (l : Lexer) :
    StepSpec (lexNumberF l).1 (lexNumberF l).2 := by
  rw [lexNumberF]
  rcases h1 : acceptWhile isDigitRune l with p | nl₁
  · exact stepSpec_fault [] p (by simp)
  rcases nl₁ with ⟨n₁, l₁⟩
  simp only
  rcases h2 : l₁.accept ['.'] with p | nl₂
  · exact stepSpec_fault [] p (by simp)
  rcases nl₂ with ⟨a, l₂⟩
  simp only
  rcases h3 : (if a > 0 then
      match acceptWhile isDigitRune l₂ with
      | .error p => .error p
      | .ok (n₂, l₃) => .ok (n₁ + 1 + n₂, l₃)
    else .ok (n₁, l₂) : Except GoPanic (Nat × Lexer)) with p | nl₃
  · exact stepSpec_fault [] p (by simp)
  rcases nl₃ with ⟨count₂, l₃⟩
  simp only
  rcases h4 : l₃.accept ['e', 'E'] with p | nl₄
  · exact stepSpec_fault [] p (by simp)
  rcases nl₄ with ⟨b, l₄⟩
  simp only
  rcases h5 : (if b > 0 then
      match l₄.accept ['+', '-'] with
      | .error p => .error p
      | .ok (sn, l₅) =>
          match acceptWhile isDigitRune l₅ with
          | .error p => .error p
          | .ok (n₃, l₆) => .ok (count₂ + 1 + sn + n₃, l₆)
    else .ok (count₂, l₄) : Except GoPanic (Nat × Lexer)) with p | nl₅
  · exact stepSpec_fault [] p (by simp)
  rcases nl₅ with ⟨count, l₆⟩
  simp only
  rcases h6 : l₆.peek with ⟨pk, l₇⟩
  simp only
  by_cases h7 : isAlphaNumeric pk = true
  · rw [if_pos h7]
    rcases h8 : l₇.backupWith count with p | l₈
    · exact stepSpec_fault [] p (by simp)
    · exact stepSpec_cont_ws (by simp [NonTermWs]) _ _
  · rw [if_neg h7]
    exact stepSpec_cont_single (by simp [isTerminal, emit_type])
      (by rw [emit_type]; exact fun hco => ItemType.noConfusion hco)

/-- Protocol of one lexString iteration that exits the state function. -/
theorem stringStep_inl_spec {quote : Rune} {l : Lexer} {r : List Item × StepOut}
    (h : stringStep quote l = .inl r) : StepSpec r.1 r.2 := by
  rw [stringStep] at h
  rcases hn : l.next with ⟨rn, l₁⟩
  rw [hn] at h
  cases rn with
  | none =>
      simp only [Sum.inl.injEq] at h
      subst h
      refine @stepSpec_halt_ws [] (by simp [NonTermWs]) _ (by simp [isTerminal]) ?_
      intro hco
      exact absurd hco (by simp)
  | some c =>
      simp only at h
      by_cases hbs : (c == '\\') = true
      · rw [if_pos hbs] at h
        rcases hp : l₁.peek with ⟨pr, l₂⟩
        rw [hp] at h
        cases pr with
        | none =>
            simp only [Sum.inl.injEq] at h
            subst h
            refine @stepSpec_halt_ws [] (by simp [NonTermWs]) _ (by simp [isTerminal]) ?_
            intro hco
            exact absurd hco (by simp)
        | some d =>
            simp only at h
            by_cases hq : ((some c : Rune) == quote) = true
            · rw [if_pos hq] at h
              rcases hp2 : (l₂.next).2.peek with ⟨q2, k₂⟩
              rw [hp2] at h
              by_cases hq2 : (q2 == quote) = true
              · rw [if_pos hq2] at h
                simp at h
              · rw [if_neg hq2] at h
                simp only [Sum.inl.injEq] at h
                subst h
                exact stepSpec_cont_single (by simp [isTerminal, emit_type])
                  (by rw [emit_type]; exact fun hco => ItemType.noConfusion hco)
            · rw [if_neg hq] at h
              simp at h
      · rw [if_neg hbs] at h
        simp only at h
        by_cases hq : ((some c : Rune) == quote) = true
        · rw [if_pos hq] at h
          rcases hp2 : l₁.peek with ⟨q2, k₂⟩
          rw [hp2] at h
          by_cases hq2 : (q2 == quote) = true
          · rw [if_pos hq2] at h
            simp at h
          · rw [if_neg hq2] at h
            simp only [Sum.inl.injEq] at h
            subst h
            exact stepSpec_cont_single (by simp [isTerminal, emit_type])
              (by rw [emit_type]; exact fun hco => ItemType.noConfusion hco)
        · rw [if_neg hq] at h
          simp at h

/-- Protocol of the whole lexString loop. -/
theorem stringLoop_spec (quote : Rune) :
    ∀ l : Lexer, StepSpec (stringLoop quote l).1 (stringLoop quote l).2 := by
  suffices hyp : ∀ R : Nat, ∀ l : Lexer, l.realAvail = R →
      StepSpec (stringLoop quote l).1 (stringLoop quote l).2 by
    intro l
    exact hyp l.realAvail l rfl
  intro R
  induction R using Nat.strong_induction_on with
  | _ R ih =>
      intro x hR
      rcases hs : stringStep quote x with r | l'
      · rw [stringLoop_inl hs]
        exact stringStep_inl_spec hs
      · rw [stringLoop_inr hs]
        exact ih l'.realAvail (by have := stringStep_inr_lt hs; omega) l' rfl

/-- Protocol of the lexString state function. -/
theorem lexStringF_spec (l : Lexer) :
    StepSpec (lexStringF l).1 (lexStringF l).2 := by
  rw [lexStringF]
  rcases hn : l.next with ⟨quote, l₁⟩
  simp only
  exact stringLoop_spec quote l₁

/-- Protocol of one lexMultiLineComment iteration that exits. -/
theorem mlcStep_inl_spec {l : Lexer} {r : List Item × StepOut}
    (h : mlcStep l = .inl r) : StepSpec r.1 r.2 := by
  rw [mlcStep] at h
  rcases ha : acceptUntil (fun r => r == some '*') l with p | nl₁
  · rw [ha] at h
    simp only [Sum.inl.injEq] at h
    subst h
    exact stepSpec_fault [] p (by simp)
  · rcases nl₁ with ⟨n, l₁⟩
    rw [ha] at h
    simp only at h
    rcases hp2 : l₁.peekNext 2 with ⟨two, l₂⟩
    rw [hp2] at h
    by_cases htwo : (two == [some '*', some '/']) = true
    · rw [if_pos htwo] at h
      simp only [Sum.inl.injEq] at h
      subst h
      exact stepSpec_cont_single (by simp [isTerminal, emit_type])
        (by rw [emit_type]; exact fun hco => ItemType.noConfusion hco)
    · rw [if_neg htwo] at h
      rcases hpk : l₂.peek with ⟨pr, l₃⟩
      rw [hpk] at h
      cases pr with
      | none =>
          simp only [Sum.inl.injEq] at h
          subst h
          refine @stepSpec_halt_ws [] (by simp [NonTermWs]) _ (by simp [isTerminal]) ?_
          intro hco
          exact absurd hco (by simp)
      | some d => simp at h

/-- Protocol of the whole lexMultiLineComment loop. -/
theorem mlcLoop_spec :
    ∀ l : Lexer, StepSpec (mlcLoop l).1 (mlcLoop l).2 := by
  suffices hyp : ∀ R : Nat, ∀ l : Lexer, l.realAvail = R →
      StepSpec (mlcLoop l).1 (mlcLoop l).2 by
    intro l
    exact hyp l.realAvail l rfl
  intro R
  induction R using Nat.strong_induction_on with
  | _ R ih =>
      intro x hR
      rcases hs : mlcStep x with r | l'
      · rw [mlcLoop_inl hs]
        exact mlcStep_inl_spec hs
      · rw [mlcLoop_inr hs]
        exact ih l'.realAvail (by have := mlcStep_inr_lt hs; omega) l' rfl

/-- Protocol of the lexMultiLineComment state function. -/
theorem lexMultiLineCommentF_spec (l : Lexer) :
    StepSpec (lexMultiLineCommentF l).1 (lexMultiLineCommentF l).2 := by
  rw [lexMultiLineCommentF]
  exact mlcLoop_spec _

/-- Lemma: prepending non-terminal items preserves the protocol. -/
theorem stepSpec_prepend {its items : List Item} {out : StepOut}
    (hits : NonTermWs its) (h : StepSpec items out) :
    StepSpec (its ++ items) out := by
  obtain ⟨h1, h2, h3⟩ := h
  refine ⟨?_, ?_, ?_⟩
  · intro x hx he
    simp at hx
    rcases hx with hx | hx
    · exact absurd he (hits x hx).2
    · exact h1 x hx he
  · intro tag l' hco x hx
    simp at hx
    rcases hx with hx | hx
    · exact (hits x hx).1
    · exact h2 tag l' hco x hx
  · intro hh
    obtain ⟨pre, t, he, hpre, ht⟩ := h3 hh
    refine ⟨its ++ pre, t, by rw [he, List.append_assoc], ?_, ht⟩
    intro x hx
    simp at hx
    rcases hx with hx | hx
    · exact (hits x hx).1
    · exact hpre x hx

/-- Protocol of a backtick iteration that exits the state function. -/
theorem backtickStep_inl_spec {l : Lexer} {r : List Item × StepOut}
    (h : backtickStep l = .inl r) : StepSpec r.1 r.2 := by
  rw [backtickStep] at h
  rcases hn : l.next with ⟨rn, l₁⟩
  rw [hn] at h
  cases rn with
  | none =>
      simp only [Sum.inl.injEq] at h
      subst h
      refine @stepSpec_halt_ws [] (by simp [NonTermWs]) _ (by simp [isTerminal]) ?_
      intro hco
      exact absurd hco (by simp)
  | some c =>
      simp only at h
      by_cases hbt : (c == '`') = true
      · rw [if_pos hbt] at h
        rcases hp : l₁.peek with ⟨pk, l₂⟩
        rw [hp] at h
        by_cases hq : (pk == some '`') = true
        · rw [if_pos hq] at h
          simp at h
        · rw [if_neg hq] at h
          simp at h
      · rw [if_neg hbt] at h
        simp at h

/-- Protocol of a backtick span that exits the state function. -/
theorem backtickLoop_inl_spec :
    ∀ l : Lexer, ∀ r : List Item × StepOut,
      backtickLoop l = .inl r → StepSpec r.1 r.2 := by
  suffices hyp : ∀ R : Nat, ∀ l : Lexer, l.realAvail = R → ∀ r,
      backtickLoop l = .inl r → StepSpec r.1 r.2 by
    intro l r h
    exact hyp l.realAvail l rfl r h
  intro R
  induction R using Nat.strong_induction_on with
  | _ R ih =>
      intro x hR r h
      rcases hs : backtickStep x with r' | bl
      · rw [backtickLoop_inl hs] at h
        simp only [Sum.inl.injEq] at h
        subst h
        exact backtickStep_inl_spec hs
      · rcases bl with ⟨b, l'⟩
        cases b with
        | false =>
            rw [backtickLoop_done hs] at h
            simp at h
        | true =>
            rw [backtickLoop_cont hs] at h
            exact ih l'.realAvail (by have := backtickStep_true_lt hs; omega) l' rfl r h

/-- Lemma: an identifier tail that exits keeps the protocol, given the
carried items are non-terminal. -/
theorem identTail_inl_spec {acc : List Item} {l : Lexer} {r : List Item × StepOut}
    (hacc : NonTermWs acc) (h : identTail acc l = .inl r) : StepSpec r.1 r.2 := by
  rw [identTail] at h
  rcases ha : acceptWhile isWhitespace l with p | nl₁
  · rw [ha] at h
    simp only [Sum.inl.injEq] at h
    subst h
    refine stepSpec_fault acc p ?_
    intro it hit he
    exact absurd he (hacc it hit).2
  · rcases nl₁ with ⟨n, l₁⟩
    rw [ha] at h
    simp only at h
    have hws2 : ∀ wsIts : List Item, ∀ l₂ : Lexer,
        (if l₁.pos > 0 then
          ([((l₁.emit ItemWhitespace).1)], (l₁.emit ItemWhitespace).2)
        else (([] : List Item), l₁)) = (wsIts, l₂) → NonTermWs wsIts := by
      intro wsIts l₂ hw
      by_cases hp : l₁.pos > 0
      · rw [if_pos hp] at hw
        simp only [Prod.mk.injEq] at hw
        rw [← hw.1]
        intro it hit
        simp at hit
        subst hit
        refine ⟨by simp [isTerminal, emit_type], ?_⟩
        rw [emit_type]
        exact fun hco => ItemType.noConfusion hco
      · rw [if_neg hp] at hw
        simp only [Prod.mk.injEq] at hw
        rw [← hw.1]
        simp [NonTermWs]
    by_cases hp : l₁.pos > 0
    · rw [if_pos hp] at h
      simp only at h
      rcases hpk : ((l₁.emit ItemWhitespace).2).peek with ⟨pk, l₃⟩
      rw [hpk] at h
      by_cases hdot : (pk == some '.') = true
      · rw [if_pos hdot] at h
        simp at h
      · rw [if_neg hdot] at h
        simp only [Sum.inl.injEq] at h
        subst h
        refine stepSpec_prepend hacc ?_
        exact stepSpec_cont_ws (hws2 _ _ (by rw [if_pos hp])) _ _
    · rw [if_neg hp] at h
      simp only at h
      rcases hpk : l₁.peek with ⟨pk, l₃⟩
      rw [hpk] at h
      by_cases hdot : (pk == some '.') = true
      · rw [if_pos hdot] at h
        simp at h
      · rw [if_neg hdot] at h
        simp only [Sum.inl.injEq] at h
        subst h
        refine stepSpec_prepend hacc ?_
        exact stepSpec_cont_ws (by simp [NonTermWs]) _ _

/-- Lemma: an identifier tail that loops passes on only non-terminal items. -/
theorem identTail_inr_ws {acc its : List Item} {l l' : Lexer}
    (hacc : NonTermWs acc) (h : identTail acc l = .inr (its, l')) : NonTermWs its := by
  rw [identTail] at h
  rcases ha : acceptWhile isWhitespace l with p | nl₁
  · rw [ha] at h
    simp at h
  · rcases nl₁ with ⟨n, l₁⟩
    rw [ha] at h
    simp only at h
    have hdotItem : ∀ l₄ : Lexer, NonTermWs [((l₄.emit ItemDot).1)] := by
      intro l₄ it hit
      simp at hit
      subst hit
      refine ⟨by simp [isTerminal, emit_type], ?_⟩
      rw [emit_type]
      exact fun hco => ItemType.noConfusion hco
    by_cases hp : l₁.pos > 0
    · rw [if_pos hp] at h
      simp only at h
      rcases hpk : ((l₁.emit ItemWhitespace).2).peek with ⟨pk, l₃⟩
      rw [hpk] at h
      by_cases hdot : (pk == some '.') = true
      · rw [if_pos hdot] at h
        simp only [Sum.inr.injEq, Prod.mk.injEq] at h
        rw [← h.1]
        intro it hit
        simp at hit
        rcases hit with hit | hit | hit
        · exact hacc it hit
        · subst hit
          refine ⟨by simp [isTerminal, emit_type], ?_⟩
          rw [emit_type]
          exact fun hco => ItemType.noConfusion hco
        · subst hit
          refine ⟨by simp [isTerminal, emit_type], ?_⟩
          rw [emit_type]
          exact fun hco => ItemType.noConfusion hco
      · rw [if_neg hdot] at h
        simp at h
    · rw [if_neg hp] at h
      simp only at h
      rcases hpk : l₁.peek with ⟨pk, l₃⟩
      rw [hpk] at h
      by_cases hdot : (pk == some '.') = true
      · rw [if_pos hdot] at h
        simp only [Sum.inr.injEq, Prod.mk.injEq] at h
        rw [← h.1]
        intro it hit
        simp at hit
        rcases hit with hit | hit
        · exact hacc it hit
        · subst hit
          refine ⟨by simp [isTerminal, emit_type], ?_⟩
          rw [emit_type]
          exact fun hco => ItemType.noConfusion hco
      · rw [if_neg hdot] at h
        simp at h

/-- NonTermWs of a single emitted Identifier token. -/
theorem nonTermWs_ident (l : Lexer) : NonTermWs [((l.emit ItemIdentifier).1)] := by
  intro it hit
  simp at hit
  subst hit
  refine ⟨by simp [isTerminal, emit_type], ?_⟩
  rw [emit_type]
  exact fun hco => ItemType.noConfusion hco

/-- Protocol of an identifier iteration that exits the state function. -/
theorem identStep_inl_spec {l : Lexer} {r : List Item × StepOut}
    (h : identStep l = .inl r) : StepSpec r.1 r.2 := by
  rw [identStep] at h
  rcases hn : l.next with ⟨s, l₁⟩
  rw [hn] at h
  simp only at h
  by_cases hbt : (s == (some '`' : Rune)) = true
  · rw [if_pos hbt] at h
    rcases hbl : backtickLoop l₁ with r' | l₂
    · rw [hbl] at h
      simp only [Sum.inl.injEq] at h
      subst h
      exact backtickLoop_inl_spec l₁ _ hbl
    · rw [hbl] at h
      simp only at h
      exact identTail_inl_spec (nonTermWs_ident l₂) h
  · rw [if_neg hbt] at h
    by_cases han : isAlphaNumeric s = true
    · rw [if_pos han] at h
      rcases ha : acceptWhile isAlphaNumeric l₁ with p | nl₂
      · rw [ha] at h
        simp only [Sum.inl.injEq] at h
        subst h
        exact stepSpec_fault [] p (by simp)
      · rcases nl₂ with ⟨n, l₂⟩
        rw [ha] at h
        simp only at h
        exact identTail_inl_spec (nonTermWs_ident l₂) h
    · rw [if_neg han] at h
      exact identTail_inl_spec (by simp [NonTermWs]) h

/-- Lemma: an identifier iteration that loops passes on only non-terminal
items. -/
theorem identStep_inr_ws {its : List Item} {l l' : Lexer}
    (h : identStep l = .inr (its, l')) : NonTermWs its := by
  rw [identStep] at h
  rcases hn : l.next with ⟨s, l₁⟩
  rw [hn] at h
  simp only at h
  by_cases hbt : (s == (some '`' : Rune)) = true
  · rw [if_pos hbt] at h
    rcases hbl : backtickLoop l₁ with r' | l₂
    · rw [hbl] at h
      simp at h
    · rw [hbl] at h
      simp only at h
      exact identTail_inr_ws (nonTermWs_ident l₂) h
  · rw [if_neg hbt] at h
    by_cases han : isAlphaNumeric s = true
    · rw [if_pos han] at h
      rcases ha : acceptWhile isAlphaNumeric l₁ with p | nl₂
      · rw [ha] at h
        simp at h
      · rcases nl₂ with ⟨n, l₂⟩
        rw [ha] at h
        simp only at h
        exact identTail_inr_ws (nonTermWs_ident l₂) h
    · rw [if_neg han] at h
      exact identTail_inr_ws (by simp [NonTermWs]) h

/-- Protocol of the whole lexIdentifierOrKeyword loop. -/
theorem identLoop_spec :
    ∀ l : Lexer, StepSpec (identLoop l).1 (identLoop l).2 := by
  suffices hyp : ∀ R : Nat, ∀ l : Lexer, l.realAvail = R →
      StepSpec (identLoop l).1 (identLoop l).2 by
    intro l
    exact hyp l.realAvail l rfl
  intro R
  induction R using Nat.strong_induction_on with
  | _ R ih =>
      intro x hR
      rcases hs : identStep x with r | il
      · rw [identLoop_inl hs]
        exact identStep_inl_spec hs
      · rcases il with ⟨its, l'⟩
        rw [identLoop_inr hs]
        exact stepSpec_prepend (identStep_inr_ws hs)
          (ih l'.realAvail (by have := identStep_inr_lt hs; omega) l' rfl)

/-- Protocol of the lexIdentifierOrKeyword state function. -/
theorem lexIdentifierOrKeywordF_spec (l : Lexer) :
    StepSpec (lexIdentifierOrKeywordF l).1 (lexIdentifierOrKeywordF l).2 := by
  rw [lexIdentifierOrKeywordF]
  exact identLoop_spec l

/-- Protocol of every state function. -/
theorem step_spec (tag : StateTag) (l : Lexer) :
    StepSpec (step tag l).1 (step tag l).2 := by
  cases tag with
  | lexWhitespace => exact lexWhitespaceF_spec l
  | lexSingleLineComment => exact lexSingleLineCommentF_spec l
  | lexMultiLineComment => exact lexMultiLineCommentF_spec l
  | lexOperator => exact lexOperatorF_spec l
  | lexNumber => exact lexNumberF_spec l
  | lexString => exact lexStringF_spec l
  | lexIdentifierOrKeyword => exact lexIdentifierOrKeywordF_spec l

/-- Lemma: every End-of-Input item the run ever emits has empty text. -/
theorem runFuel_eof_val :
    ∀ fuel : Nat, ∀ tag : StateTag, ∀ l : Lexer,
      ∀ it ∈ (runFuel fuel tag l).1, it.type = ItemEOF → it.val = "" := by
  intro fuel
  induction fuel with
  | zero => intro tag l it hit; simp [runFuel] at hit
  | succ f ih =>
      intro tag l it hit he
      rw [runFuel] at hit
      rcases hs : step tag l with ⟨items, out⟩
      have hspec := step_spec tag l
      rw [hs] at hit hspec
      cases out with
      | halt =>
          simp only at hit
          exact hspec.1 it hit he
      | fault p =>
          simp only at hit
          exact hspec.1 it hit he
      | cont tag' l' =>
          simp only at hit
          rcases hrun : runFuel f tag' l' with ⟨more, rr⟩
          rw [hrun] at hit
          simp at hit
          rcases hit with hit | hit
          · exact hspec.1 it hit he
          · have := ih tag' l' it (by rw [hrun]; exact hit) he
            exact this

/-- Lemma: a completed run is a non-terminal item sequence followed by
exactly one terminal item. -/
theorem runFuel_protocol :
    ∀ fuel : Nat, ∀ tag : StateTag, ∀ l : Lexer,
      (runFuel fuel tag l).2 = .completed →
      ∃ pre t, (runFuel fuel tag l).1 = pre ++ [t] ∧
        (∀ it ∈ pre, isTerminal it = false) ∧ isTerminal t = true := by
  intro fuel
  induction fuel with
  | zero => intro tag l h; simp [runFuel] at h
  | succ f ih =>
      intro tag l h
      rw [runFuel] at h ⊢
      rcases hs : step tag l with ⟨items, out⟩
      have hspec := step_spec tag l
      rw [hs] at hspec
      simp only [hs] at h ⊢
      cases out with
      | halt =>
          simp only at h ⊢
          exact hspec.2.2 rfl
      | fault p =>
          simp at h
      | cont tag' l' =>
          simp only at h ⊢
          rcases hrun : runFuel f tag' l' with ⟨more, rr⟩
          simp only [hrun] at h ⊢
          obtain ⟨pre, t, he, hpre, ht⟩ := ih tag' l' (by rw [hrun]; exact h)
          rw [hrun] at he
          simp only at he
          refine ⟨items ++ pre, t, ?_, ?_, ht⟩
          · rw [he, List.append_assoc]
          · intro x hx
            simp at hx
            rcases hx with hx | hx
            · exact hspec.2.1 tag' l' rfl x hx
            · exact hpre x hx

/-- Lemma: peek preserves well-formedness. -/
theorem wfl_peek {l : Lexer} (hwf : l.WFL) : (l.peek).2.WFL :=
  consumed_wfl (consumed_peek hwf) hwf

/-- Lemma: peekNext preserves well-formedness. -/
theorem wfl_peekNext {l : Lexer} (n : Nat) (hwf : l.WFL) : (l.peekNext n).2.WFL :=
  consumed_wfl (consumed_peekNext l n hwf) hwf

/-- Lemma: ignore yields a well-formed state. -/
theorem wfl_ignore (l : Lexer) : l.ignore.WFL := by
  rw [Lexer.WFL, ignore_pos]
  omega

/-- Lemma: emit yields a well-formed state. -/
theorem wfl_emit (l : Lexer) (t : ItemType) : (l.emit t).2.WFL := by
  rw [emit_snd]
  exact wfl_ignore l

/-- TagInv is what the dispatch (or the number backtrack) guarantees about
the state a state function is entered with; it is what makes every state
function consume at least one real rune before returning to dispatch. -/
def TagInv : StateTag → Lexer → Prop
  | .lexWhitespace, _ => True
  | .lexSingleLineComment, l => isEndOfLine (l.peekVal 0) = false
  | .lexMultiLineComment, l => ∃ c, l.peekVal 0 = some c
  | .lexOperator, l => isOperator (l.peekVal 0) = true
  | .lexNumber, l => isAsciiDigit (l.peekVal 0) = true
  | .lexString, l => ∃ c, l.peekVal 0 = some c
  | .lexIdentifierOrKeyword, l => ∃ c, l.peekVal 0 = some c

/-- The rank of a state in the termination measure: dispatch may enter the
number state without consuming, and the number state may enter the
identifier state without consuming; every other transition consumes. -/
def tagRank : StateTag → Nat
  | .lexWhitespace => 2
  | .lexNumber => 1
  | _ => 0

/-- The driver measure: three units per available real rune plus the rank. -/
def stepMeasure (tag : StateTag) (l : Lexer) : Nat :=
  3 * l.realAvail + tagRank tag

/-- Lemma: the dispatch digit test implies the validator lexNumber uses. -/
theorem isAsciiDigit_isDigitRune {r : Rune} (h : isAsciiDigit r = true) :
    isDigitRune r = true := by
  cases r with
  | none => exact absurd h (by decide)
  | some d =>
      simp only [isAsciiDigit, Bool.and_eq_true, decide_eq_true_eq] at h
      simp only [isDigitRune, Char.isDigit]
      simp only [Bool.and_eq_true, decide_eq_true_eq]
      exact h

/-- Lemma: the facts of acceptWhile_ok transported to any given successful
result by determinism. -/
theorem acceptWhile_wfl_le (fn : Rune → Bool) (hfn : fn none = false)
    {l : Lexer} {n : Nat} {l' : Lexer} (hwf : l.WFL)
    (h : acceptWhile fn l = .ok (n, l')) :
    l'.WFL ∧ l'.realAvail + n = l.realAvail ∧ Consumed l l' n ∧
      fn (l.peekVal n) = false := by
  obtain ⟨n₀, l₀, heq, hcons, hra, hwf0, hall, hstop⟩ := acceptWhile_ok fn hfn l hwf
  have he := h.symm.trans heq
  simp only [Except.ok.injEq, Prod.mk.injEq] at he
  obtain ⟨h1, h2⟩ := he
  subst h1
  subst h2
  exact ⟨hwf0, hra, hcons, hstop⟩

/-- Lemma: accept always succeeds on a well-formed state, consuming at most
one real rune and accounting for it exactly. -/
theorem accept_ok (valid : List Char) {l : Lexer} (hwf : l.WFL) :
    ∃ a l', l.accept valid = .ok (a, l') ∧ Consumed l l' a ∧ l'.WFL ∧
      l'.realAvail + a = l.realAvail ∧ a ≤ 1 := by
  by_cases hc : ∃ c, l.peekVal 0 = some c ∧ valid.contains c = true
  · obtain ⟨c, hv, hvc⟩ := hc
    refine ⟨1, (l.next).2, accept_yes hv hvc, consumed_next l, wfl_next hwf, ?_, by omega⟩
    exact realAvail_next_succ (by rw [next_fst, hv])
  · push_neg at hc
    have h' : ∀ c, l.peekVal 0 = some c → valid.contains c = false := by
      intro c h1
      have := hc c h1
      simpa using this
    obtain ⟨l', heq, hcons, hra, hwf'⟩ := accept_no hwf h'
    exact ⟨0, l', heq, hcons, hwf', by omega, by omega⟩

/-- Progress of the single-line comment state: entered on a non-end-of-line
rune, it consumes at least one real rune and returns to dispatch. -/
theorem lexSingleLineCommentF_out {l : Lexer} (hwf : l.WFL)
    (hinv : isEndOfLine (l.peekVal 0) = false) :
    ∃ its l', lexSingleLineCommentF l = (its, .cont .lexWhitespace l') ∧
      l'.WFL ∧ l'.realAvail < l.realAvail := by
  obtain ⟨n, l₁, heq, hcons, hra, hwf1, hall, hstop⟩ := acceptUntil_ok isEndOfLine l hwf
  have hn1 : 1 ≤ n := by
    rcases Nat.eq_zero_or_pos n with h0 | h1
    · subst h0
      rcases hstop with hs | hs
      · rw [hs] at hinv
        exact absurd hinv (by simp)
      · rw [hs] at hinv
        exact absurd hinv (by decide)
    · exact h1
  refine ⟨[((l₁.emit ItemSingleLineComment).1)], (l₁.emit ItemSingleLineComment).2,
    ?_, wfl_emit l₁ ItemSingleLineComment, ?_⟩
  · rw [lexSingleLineCommentF, heq]
  · rw [realAvail_emit]
    omega

/-- Progress of the operator state: entered on an operator rune, it consumes
at least one real rune and returns to dispatch. -/
theorem lexOperatorF_out {l : Lexer} (hwf : l.WFL)
    (hinv : isOperator (l.peekVal 0) = true) :
    ∃ its l', lexOperatorF l = (its, .cont .lexWhitespace l') ∧
      l'.WFL ∧ l'.realAvail < l.realAvail := by
  obtain ⟨n, l₁, heq, hcons, hra, hwf1, hall, hstop⟩ := acceptWhile_ok isOperator rfl l hwf
  have hn1 : 1 ≤ n := by
    rcases Nat.eq_zero_or_pos n with h0 | h1
    · subst h0
      rw [hstop] at hinv
      exact absurd hinv (by simp)
    · exact h1
  refine ⟨[((l₁.emit ItemOperator).1)], (l₁.emit ItemOperator).2,
    ?_, wfl_emit l₁ ItemOperator, ?_⟩
  · rw [lexOperatorF, heq]
  · rw [realAvail_emit]
    omega

/-- Lemma: the facts of acceptUntil_ok transported to any given successful
result by determinism. -/
theorem acceptUntil_wfl_le (fn : Rune → Bool) {l : Lexer} {n : Nat} {l' : Lexer}
    (hwf : l.WFL) (h : acceptUntil fn l = .ok (n, l')) :
    l'.WFL ∧ l'.realAvail + n = l.realAvail ∧ Consumed l l' n := by
  obtain ⟨n₀, l₀, heq, hcons, hra, hwf0, hall, hstop⟩ := acceptUntil_ok fn l hwf
  have he := h.symm.trans heq
  simp only [Except.ok.injEq, Prod.mk.injEq] at he
  obtain ⟨h1, h2⟩ := he
  subst h1
  subst h2
  exact ⟨hwf0, hra, hcons⟩

/-- Exit analysis of one lexString iteration: it halts on an error or
transitions back to dispatch on a well-formed state without gaining input. -/
theorem stringStep_inl_out {quote : Rune} {l : Lexer} {r : List Item × StepOut}
    (h : stringStep quote l = .inl r) :
    r.2 = .halt ∨ ∃ k, r.2 = .cont .lexWhitespace k ∧ k.WFL ∧
      k.realAvail ≤ l.realAvail := by
  rw [stringStep] at h
  rcases hn : l.next with ⟨rn, l₁⟩
  rw [hn] at h
  cases rn with
  | none =>
      simp only [Sum.inl.injEq] at h
      subst h
      exact Or.inl rfl
  | some c =>
      have hlt1 : l₁.realAvail < l.realAvail := by
        have := realAvail_next_lt (l := l) (c := c) (by rw [hn])
        rwa [hn] at this
      simp only at h
      by_cases hbs : (c == '\\') = true
      · rw [if_pos hbs] at h
        rcases hp : l₁.peek with ⟨pr, l₂⟩
        rw [hp] at h
        have hra2 : l₂.realAvail = l₁.realAvail := by
          have := peek_realAvail l₁
          rwa [hp] at this
        cases pr with
        | none =>
            simp only [Sum.inl.injEq] at h
            subst h
            exact Or.inl rfl
        | some d =>
            simp only at h
            have hra3 : ((l₂.next).2).realAvail ≤ l₂.realAvail := realAvail_next_le l₂
            by_cases hq : ((some c : Rune) == quote) = true
            · rw [if_pos hq] at h
              rcases hp2 : (l₂.next).2.peek with ⟨q2, k₂⟩
              rw [hp2] at h
              have hra4 : k₂.realAvail = ((l₂.next).2).realAvail := by
                have := peek_realAvail ((l₂.next).2)
                rwa [hp2] at this
              by_cases hq2 : (q2 == quote) = true
              · rw [if_pos hq2] at h
                simp at h
              · rw [if_neg hq2] at h
                simp only [Sum.inl.injEq] at h
                subst h
                refine Or.inr ⟨(k₂.emit ItemString).2, rfl, wfl_emit k₂ ItemString, ?_⟩
                rw [realAvail_emit]
                omega
            · rw [if_neg hq] at h
              simp at h
      · rw [if_neg hbs] at h
        simp only at h
        by_cases hq : ((some c : Rune) == quote) = true
        · rw [if_pos hq] at h
          rcases hp2 : l₁.peek with ⟨q2, k₂⟩
          rw [hp2] at h
          have hra4 : k₂.realAvail = l₁.realAvail := by
            have := peek_realAvail l₁
            rwa [hp2] at this
          by_cases hq2 : (q2 == quote) = true
          · rw [if_pos hq2] at h
            simp at h
          · rw [if_neg hq2] at h
            simp only [Sum.inl.injEq] at h
            subst h
            refine Or.inr ⟨(k₂.emit ItemString).2, rfl, wfl_emit k₂ ItemString, ?_⟩
            rw [realAvail_emit]
            omega
        · rw [if_neg hq] at h
          simp at h

/-- Exit analysis of the lexString loop: it halts or transitions back to
dispatch on a well-formed state without gaining input. -/
theorem stringLoop_ok (quote : Rune) :
    ∀ l : Lexer, (stringLoop quote l).2 = .halt ∨
      ∃ k, (stringLoop quote l).2 = .cont .lexWhitespace k ∧ k.WFL ∧
        k.realAvail ≤ l.realAvail := by
  suffices hyp : ∀ R : Nat, ∀ l : Lexer, l.realAvail = R →
      (stringLoop quote l).2 = .halt ∨
      ∃ k, (stringLoop quote l).2 = .cont .lexWhitespace k ∧ k.WFL ∧
        k.realAvail ≤ l.realAvail by
    intro l
    exact hyp l.realAvail l rfl
  intro R
  induction R using Nat.strong_induction_on with
  | _ R ih =>
      intro x hR
      rcases hs : stringStep quote x with r | l'
      · rw [stringLoop_inl hs]
        exact stringStep_inl_out hs
      · rw [stringLoop_inr hs]
        have hlt := stringStep_inr_lt hs
        rcases ih l'.realAvail (by omega) l' rfl with hh | ⟨k, hc, hw, hle⟩
        · exact Or.inl hh
        · exact Or.inr ⟨k, hc, hw, by omega⟩

/-- Progress of the string state: entered on the real opening quote, it
halts or returns to dispatch having consumed at least one real rune. -/
theorem lexStringF_out {l : Lexer} {c : Char} (hv : l.peekVal 0 = some c) :
    (lexStringF l).2 = .halt ∨
      ∃ k, (lexStringF l).2 = .cont .lexWhitespace k ∧ k.WFL ∧
        k.realAvail < l.realAvail := by
  rw [lexStringF]
  rcases hn : l.next with ⟨quote, l₁⟩
  simp only
  have hlt : l₁.realAvail < l.realAvail := by
    have h1 := realAvail_next_lt (l := l) (c := c) (by rw [next_fst, hv])
    rwa [hn] at h1
  rcases stringLoop_ok quote l₁ with hh | ⟨k, hc, hw, hle⟩
  · exact Or.inl hh
  · exact Or.inr ⟨k, hc, hw, by omega⟩

/-- Lemma: a continuing lexMultiLineComment iteration preserves
well-formedness. -/
theorem mlcStep_inr_wfl {l l' : Lexer} (hwf : l.WFL) (h : mlcStep l = .inr l') :
    l'.WFL := by
  rw [mlcStep] at h
  rcases ha : acceptUntil (fun r => r == some '*') l with p | nl₁
  · rw [ha] at h
    simp at h
  · rcases nl₁ with ⟨n, l₁⟩
    rw [ha] at h
    simp only at h
    obtain ⟨hwf1, _, _⟩ := acceptUntil_wfl_le _ hwf ha
    rcases hp2 : l₁.peekNext 2 with ⟨two, l₂⟩
    rw [hp2] at h
    have hwf2 : l₂.WFL := by
      have := wfl_peekNext 2 hwf1
      rwa [hp2] at this
    by_cases htwo : (two == [some '*', some '/']) = true
    · rw [if_pos htwo] at h
      simp at h
    · rw [if_neg htwo] at h
      rcases hpk : l₂.peek with ⟨pr, l₃⟩
      rw [hpk] at h
      cases pr with
      | none => simp at h
      | some d =>
          simp only [Sum.inr.injEq] at h
          subst h
          have hwf3 : l₃.WFL := by
            have := wfl_peek hwf2
            rwa [hpk] at this
          exact wfl_next hwf3

/-- Exit analysis of one lexMultiLineComment iteration: it halts on the EOF
error or transitions back to dispatch without gaining input. -/
theorem mlcStep_inl_out {l : Lexer} {r : List Item × StepOut} (hwf : l.WFL)
    (h : mlcStep l = .inl r) :
    r.2 = .halt ∨ ∃ k, r.2 = .cont .lexWhitespace k ∧ k.WFL ∧
      k.realAvail ≤ l.realAvail := by
  rw [mlcStep] at h
  rcases ha : acceptUntil (fun r => r == some '*') l with p | nl₁
  · obtain ⟨n₀, l₀, heq, _, _, _, _, _⟩ := acceptUntil_ok (fun r => r == some '*') l hwf
    rw [heq] at ha
    simp at ha
  · rcases nl₁ with ⟨n, l₁⟩
    rw [ha] at h
    simp only at h
    have hle1 : l₁.realAvail ≤ l.realAvail := acceptUntil_realAvail_le _ l n l₁ ha
    rcases hp2 : l₁.peekNext 2 with ⟨two, l₂⟩
    rw [hp2] at h
    have hra2 : l₂.realAvail = l₁.realAvail := by
      have := peekNext_realAvail l₁ 2
      rwa [hp2] at this
    by_cases htwo : (two == [some '*', some '/']) = true
    · rw [if_pos htwo] at h
      simp only [Sum.inl.injEq] at h
      subst h
      refine Or.inr ⟨_, rfl, wfl_emit _ ItemMultiLineComment, ?_⟩
      rw [realAvail_emit]
      have h3 := realAvail_next_le l₂
      have h4 := realAvail_next_le ((l₂.next).2)
      omega
    · rw [if_neg htwo] at h
      rcases hpk : l₂.peek with ⟨pr, l₃⟩
      rw [hpk] at h
      cases pr with
      | none =>
          simp only [Sum.inl.injEq] at h
          subst h
          exact Or.inl rfl
      | some d => simp at h

/-- Exit analysis of the lexMultiLineComment loop: it halts or transitions
back to dispatch on a well-formed state without gaining input. -/
theorem mlcLoop_ok :
    ∀ l : Lexer, l.WFL → (mlcLoop l).2 = .halt ∨
      ∃ k, (mlcLoop l).2 = .cont .lexWhitespace k ∧ k.WFL ∧
        k.realAvail ≤ l.realAvail := by
  suffices hyp : ∀ R : Nat, ∀ l : Lexer, l.realAvail = R → l.WFL →
      (mlcLoop l).2 = .halt ∨
      ∃ k, (mlcLoop l).2 = .cont .lexWhitespace k ∧ k.WFL ∧
        k.realAvail ≤ l.realAvail by
    intro l hwf
    exact hyp l.realAvail l rfl hwf
  intro R
  induction R using Nat.strong_induction_on with
  | _ R ih =>
      intro x hR hwf
      rcases hs : mlcStep x with r | l'
      · rw [mlcLoop_inl hs]
        exact mlcStep_inl_out hwf hs
      · rw [mlcLoop_inr hs]
        have hlt := mlcStep_inr_lt hs
        have hwf' := mlcStep_inr_wfl hwf hs
        rcases ih l'.realAvail (by omega) l' rfl hwf' with hh | ⟨k, hc, hw, hle⟩
        · exact Or.inl hh
        · exact Or.inr ⟨k, hc, hw, by omega⟩

/-- Progress of the multi-line comment state: entered on the real opening
slash, it halts or returns to dispatch having consumed a real rune. -/
theorem lexMultiLineCommentF_out {l : Lexer} {c : Char} (hwf : l.WFL)
    (hv : l.peekVal 0 = some c) :
    (lexMultiLineCommentF l).2 = .halt ∨
      ∃ k, (lexMultiLineCommentF l).2 = .cont .lexWhitespace k ∧ k.WFL ∧
        k.realAvail < l.realAvail := by
  simp only [lexMultiLineCommentF]
  have hwf2 : (((l.next).2).next).2.WFL := wfl_next (wfl_next hwf)
  have hlt : (l.next).2.realAvail < l.realAvail :=
    realAvail_next_lt (by rw [next_fst, hv])
  have hle : (((l.next).2).next).2.realAvail ≤ (l.next).2.realAvail :=
    realAvail_next_le _
  rcases mlcLoop_ok _ hwf2 with hh | ⟨k, hc, hw, hle2⟩
  · exact Or.inl hh
  · exact Or.inr ⟨k, hc, hw, by omega⟩

/-- Lemma: the only way the backtick span loop exits the state function is
the unterminated-string halt. -/
theorem backtickStep_inl_halt {l : Lexer} {r : List Item × StepOut}
    (h : backtickStep l = .inl r) : r.2 = .halt := by
  rw [backtickStep] at h
  rcases hn : l.next with ⟨rn, l₁⟩
  rw [hn] at h
  cases rn with
  | none =>
      simp only [Sum.inl.injEq] at h
      subst h
      rfl
  | some c =>
      simp only at h
      by_cases hbt : (c == '`') = true
      · rw [if_pos hbt] at h
        rcases hp : l₁.peek with ⟨pk, l₂⟩
        rw [hp] at h
        by_cases hq : (pk == some '`') = true
        · rw [if_pos hq] at h
          simp at h
        · rw [if_neg hq] at h
          simp at h
      · rw [if_neg hbt] at h
        simp at h

/-- Lemma: a backtick span that exits the state function halts. -/
theorem backtickLoop_inl_halt :
    ∀ l : Lexer, ∀ r : List Item × StepOut,
      backtickLoop l = .inl r → r.2 = .halt := by
  suffices hyp : ∀ R : Nat, ∀ l : Lexer, l.realAvail = R → ∀ r,
      backtickLoop l = .inl r → r.2 = .halt by
    intro l r h
    exact hyp l.realAvail l rfl r h
  intro R
  induction R using Nat.strong_induction_on with
  | _ R ih =>
      intro x hR r h
      rcases hs : backtickStep x with r' | bl
      · rw [backtickLoop_inl hs] at h
        simp only [Sum.inl.injEq] at h
        subst h
        exact backtickStep_inl_halt hs
      · rcases bl with ⟨b, l'⟩
        cases b with
        | false =>
            rw [backtickLoop_done hs] at h
            simp at h
        | true =>
            rw [backtickLoop_cont hs] at h
            exact ih l'.realAvail (by have := backtickStep_true_lt hs; omega) l' rfl r h

/-- Exit analysis of the identifier tail: it transitions back to dispatch on
a well-formed state without gaining input. -/
theorem identTail_inl_out {acc : List Item} {l : Lexer} {r : List Item × StepOut}
    (hwf : l.WFL) (h : identTail acc l = .inl r) :
    ∃ k, r.2 = .cont .lexWhitespace k ∧ k.WFL ∧ k.realAvail ≤ l.realAvail := by
  rw [identTail] at h
  rcases ha : acceptWhile isWhitespace l with p | nl₁
  · obtain ⟨n₀, l₀, heq, _, _, _, _, _⟩ := acceptWhile_ok isWhitespace rfl l hwf
    rw [heq] at ha
    simp at ha
  · rcases nl₁ with ⟨n, l₁⟩
    rw [ha] at h
    simp only at h
    obtain ⟨hwf1, hra1, _, _⟩ := acceptWhile_wfl_le isWhitespace rfl hwf ha
    by_cases hp : l₁.pos > 0
    · rw [if_pos hp] at h
      simp only at h
      rcases hpk : ((l₁.emit ItemWhitespace).2).peek with ⟨pk, l₃⟩
      rw [hpk] at h
      by_cases hdot : (pk == some '.') = true
      · rw [if_pos hdot] at h
        simp at h
      · rw [if_neg hdot] at h
        simp only [Sum.inl.injEq] at h
        subst h
        refine ⟨l₃, rfl, ?_, ?_⟩
        · have := wfl_peek (wfl_emit l₁ ItemWhitespace)
          rwa [hpk] at this
        · have h1 := peek_realAvail ((l₁.emit ItemWhitespace).2)
          rw [hpk] at h1
          have h2 := realAvail_emit l₁ ItemWhitespace
          simp only at h1
          omega
    · rw [if_neg hp] at h
      simp only at h
      rcases hpk : l₁.peek with ⟨pk, l₃⟩
      rw [hpk] at h
      by_cases hdot : (pk == some '.') = true
      · rw [if_pos hdot] at h
        simp at h
      · rw [if_neg hdot] at h
        simp only [Sum.inl.injEq] at h
        subst h
        refine ⟨l₃, rfl, ?_, ?_⟩
        · have := wfl_peek hwf1
          rwa [hpk] at this
        · have h1 := peek_realAvail l₁
          rw [hpk] at h1
          simp only at h1
          omega

/-- Lemma: a looping identifier tail lands on a well-formed state (the Dot
emission reset the consumption index). -/
theorem identTail_inr_wfl {acc its : List Item} {l l' : Lexer}
    (h : identTail acc l = .inr (its, l')) : l'.WFL := by
  rw [identTail] at h
  rcases ha : acceptWhile isWhitespace l with p | nl₁
  · rw [ha] at h
    simp at h
  · rcases nl₁ with ⟨n, l₁⟩
    rw [ha] at h
    simp only at h
    by_cases hp : l₁.pos > 0
    · rw [if_pos hp] at h
      simp only at h
      rcases hpk : ((l₁.emit ItemWhitespace).2).peek with ⟨pk, l₃⟩
      rw [hpk] at h
      by_cases hdot : (pk == some '.') = true
      · rw [if_pos hdot] at h
        simp only [Sum.inr.injEq, Prod.mk.injEq] at h
        have h2 := h.2
        subst h2
        exact wfl_emit _ ItemDot
      · rw [if_neg hdot] at h
        simp at h
    · rw [if_neg hp] at h
      simp only at h
      rcases hpk : l₁.peek with ⟨pk, l₃⟩
      rw [hpk] at h
      by_cases hdot : (pk == some '.') = true
      · rw [if_pos hdot] at h
        simp only [Sum.inr.injEq, Prod.mk.injEq] at h
        have h2 := h.2
        subst h2
        exact wfl_emit _ ItemDot
      · rw [if_neg hdot] at h
        simp at h

/-- Exit analysis of one lexIdentifierOrKeyword iteration: it halts or
transitions back to dispatch without gaining input, strictly consuming when
entered on a real rune. -/
theorem identStep_inl_out {l : Lexer} {r : List Item × StepOut} (hwf : l.WFL)
    (h : identStep l = .inl r) :
    r.2 = .halt ∨ ∃ k, r.2 = .cont .lexWhitespace k ∧ k.WFL ∧
      k.realAvail ≤ l.realAvail ∧
      (∀ c, l.peekVal 0 = some c → k.realAvail < l.realAvail) := by
  rw [identStep] at h
  rcases hn : l.next with ⟨s, l₁⟩
  rw [hn] at h
  have hle1 : l₁.realAvail ≤ l.realAvail := by
    have := realAvail_next_le l
    rwa [hn] at this
  have hwf1 : l₁.WFL := by
    have := wfl_next hwf
    rwa [hn] at this
  have hstrict : ∀ c, l.peekVal 0 = some c → l₁.realAvail < l.realAvail := by
    intro c hv
    have h2 := realAvail_next_lt (l := l) (c := c) (by rw [next_fst, hv])
    rwa [hn] at h2
  simp only at h
  by_cases hbt : (s == (some '`' : Rune)) = true
  · rw [if_pos hbt] at h
    have hs' : s = some '`' := by simpa using hbt
    have hlt1 : l₁.realAvail < l.realAvail := by
      have h2 := realAvail_next_lt (l := l) (c := '`') (by rw [hn]; exact hs')
      rwa [hn] at h2
    rcases hbl : backtickLoop l₁ with r' | l₂
    · rw [hbl] at h
      simp only [Sum.inl.injEq] at h
      subst h
      exact Or.inl (backtickLoop_inl_halt _ _ hbl)
    · rw [hbl] at h
      simp only at h
      have hle2 : l₂.realAvail ≤ l₁.realAvail := backtickLoop_le l₁ l₂ hbl
      obtain ⟨k, hk, hw, hle3⟩ := identTail_inl_out (wfl_emit l₂ ItemIdentifier) h
      have he : ((l₂.emit ItemIdentifier).2).realAvail = l₂.realAvail :=
        realAvail_emit l₂ ItemIdentifier
      exact Or.inr ⟨k, hk, hw, by omega, fun c hv => by omega⟩
  · rw [if_neg hbt] at h
    by_cases han : isAlphaNumeric s = true
    · rw [if_pos han] at h
      have hlt1 : l₁.realAvail < l.realAvail := by
        cases hs2 : s with
        | none =>
            rw [hs2] at han
            exact absurd han (by decide)
        | some c₀ =>
            have h2 := realAvail_next_lt (l := l) (c := c₀) (by rw [hn]; exact hs2)
            rwa [hn] at h2
      rcases ha : acceptWhile isAlphaNumeric l₁ with p | nl₂
      · obtain ⟨n₀, l₀, heq, _, _, _, _, _⟩ := acceptWhile_ok isAlphaNumeric rfl l₁ hwf1
        rw [heq] at ha
        simp at ha
      · rcases nl₂ with ⟨n, l₂⟩
        rw [ha] at h
        simp only at h
        obtain ⟨hwf2, hra2, _, _⟩ := acceptWhile_wfl_le isAlphaNumeric rfl hwf1 ha
        obtain ⟨k, hk, hw, hle3⟩ := identTail_inl_out (wfl_emit l₂ ItemIdentifier) h
        have he : ((l₂.emit ItemIdentifier).2).realAvail = l₂.realAvail :=
          realAvail_emit l₂ ItemIdentifier
        exact Or.inr ⟨k, hk, hw, by omega, fun c hv => by omega⟩
    · rw [if_neg han] at h
      obtain ⟨k, hk, hw, hle3⟩ := identTail_inl_out hwf1 h
      exact Or.inr ⟨k, hk, hw, by omega, fun c hv => by have := hstrict c hv; omega⟩

/-- Lemma: a looping lexIdentifierOrKeyword iteration lands on a well-formed
state. -/
theorem identStep_inr_wfl {its : List Item} {l l' : Lexer}
    (h : identStep l = .inr (its, l')) : l'.WFL := by
  rw [identStep] at h
  rcases hn : l.next with ⟨s, l₁⟩
  rw [hn] at h
  simp only at h
  by_cases hbt : (s == (some '`' : Rune)) = true
  · rw [if_pos hbt] at h
    rcases hbl : backtickLoop l₁ with r' | l₂
    · rw [hbl] at h
      simp at h
    · rw [hbl] at h
      simp only at h
      exact identTail_inr_wfl h
  · rw [if_neg hbt] at h
    by_cases han : isAlphaNumeric s = true
    · rw [if_pos han] at h
      rcases ha : acceptWhile isAlphaNumeric l₁ with p | nl₂
      · rw [ha] at h
        simp at h
      · rcases nl₂ with ⟨n, l₂⟩
        rw [ha] at h
        simp only at h
        exact identTail_inr_wfl h
    · rw [if_neg han] at h
      exact identTail_inr_wfl h

/-- Exit analysis of the lexIdentifierOrKeyword loop: it halts or returns to
dispatch without gaining input, strictly consuming when entered on a real
rune. -/
theorem identLoop_ok :
    ∀ l : Lexer, l.WFL → (identLoop l).2 = .halt ∨
      ∃ k, (identLoop l).2 = .cont .lexWhitespace k ∧ k.WFL ∧
        k.realAvail ≤ l.realAvail ∧
        (∀ c, l.peekVal 0 = some c → k.realAvail < l.realAvail) := by
  suffices hyp : ∀ R : Nat, ∀ l : Lexer, l.realAvail = R → l.WFL →
      (identLoop l).2 = .halt ∨
      ∃ k, (identLoop l).2 = .cont .lexWhitespace k ∧ k.WFL ∧
        k.realAvail ≤ l.realAvail ∧
        (∀ c, l.peekVal 0 = some c → k.realAvail < l.realAvail) by
    intro l hwf
    exact hyp l.realAvail l rfl hwf
  intro R
  induction R using Nat.strong_induction_on with
  | _ R ih =>
      intro x hR hwf
      rcases hs : identStep x with r | il
      · rw [identLoop_inl hs]
        exact identStep_inl_out hwf hs
      · rcases il with ⟨its0, l'⟩
        rw [identLoop_inr hs]
        have hlt := identStep_inr_lt hs
        have hwf' := identStep_inr_wfl hs
        rcases ih l'.realAvail (by omega) l' rfl hwf' with hh | ⟨k, hc, hw, hle, _⟩
        · exact Or.inl hh
        · exact Or.inr ⟨k, hc, hw, by omega, fun c hv => by omega⟩

/-- Progress of the number state: entered on an ASCII digit, it either emits
the Number token and returns to dispatch having consumed at least one real
rune, or rewinds everything exactly and hands the same lookahead to the
identifier state. -/
theorem lexNumberF_out {l : Lexer} (hwf : l.WFL)
    (hinv : isAsciiDigit (l.peekVal 0) = true) :
    ∃ its tag' l', lexNumberF l = (its, .cont tag' l') ∧ l'.WFL ∧
      ((tag' = .lexWhitespace ∧ l'.realAvail < l.realAvail) ∨
       (tag' = .lexIdentifierOrKeyword ∧ l'.realAvail ≤ l.realAvail ∧
         l'.peekVal 0 = l.peekVal 0)) := by
  have hd : isDigitRune (l.peekVal 0) = true := isAsciiDigit_isDigitRune hinv
  obtain ⟨n₁, l₁, h1, hc1, hra1, hwf1, hall1, hstop1⟩ :=
    acceptWhile_ok isDigitRune rfl l hwf
  have hn₁ : 1 ≤ n₁ := by
    rcases Nat.eq_zero_or_pos n₁ with h0 | hp
    · subst h0
      simp [hstop1] at hd
    · exact hp
  obtain ⟨a, l₂, h2, hc2, hwf2, hra2, ha1⟩ := accept_ok ['.'] hwf1
  have hstage3 : ∃ count₂ l₃,
      (if a > 0 then
         match acceptWhile isDigitRune l₂ with
         | .error p => .error p
         | .ok (n₂, l₃) => .ok (n₁ + 1 + n₂, l₃)
       else .ok (n₁, l₂) : Except GoPanic (Nat × Lexer)) = .ok (count₂, l₃) ∧
      Consumed l l₃ count₂ ∧ l₃.WFL ∧ l₃.realAvail + count₂ = l.realAvail ∧
      1 ≤ count₂ := by
    have ha01 : a = 0 ∨ a = 1 := by omega
    rcases ha01 with h0 | hA
    · subst h0
      refine ⟨n₁, l₂, by rw [if_neg (by omega)], ?_, hwf2, by omega, by omega⟩
      have := consumed_trans hc1 hc2
      simpa using this
    · subst hA
      obtain ⟨n₂, l₃', h3', hc3', hra3', hwf3', _, _⟩ :=
        acceptWhile_ok isDigitRune rfl l₂ hwf2
      refine ⟨n₁ + 1 + n₂, l₃', ?_, ?_, hwf3', by omega, by omega⟩
      · rw [if_pos (by omega)]
        simp only [h3']
      · have t1 := consumed_trans hc1 hc2
        have t2 := consumed_trans t1 hc3'
        exact t2
  obtain ⟨count₂, l₃, h3, hc3, hwf3, hra3, hcnt3⟩ := hstage3
  obtain ⟨b, l₄, h4, hc4, hwf4, hra4, hb1⟩ := accept_ok ['e', 'E'] hwf3
  have hstage5 : ∃ count l₆,
      (if b > 0 then
         match l₄.accept ['+', '-'] with
         | .error p => .error p
         | .ok (sn, l₅) =>
             match acceptWhile isDigitRune l₅ with
             | .error p => .error p
             | .ok (n₃, l₆) => .ok (count₂ + 1 + sn + n₃, l₆)
       else .ok (count₂, l₄) : Except GoPanic (Nat × Lexer)) = .ok (count, l₆) ∧
      Consumed l l₆ count ∧ l₆.WFL ∧ l₆.realAvail + count = l.realAvail ∧
      1 ≤ count := by
    have hb01 : b = 0 ∨ b = 1 := by omega
    rcases hb01 with h0 | hB
    · subst h0
      refine ⟨count₂, l₄, by rw [if_neg (by omega)], ?_, hwf4, by omega, by omega⟩
      have := consumed_trans hc3 hc4
      simpa using this
    · subst hB
      obtain ⟨sn, l₅, h5a, hc5a, hwf5a, hra5a, hsn1⟩ := accept_ok ['+', '-'] hwf4
      obtain ⟨n₃, l₆', h5b, hc5b, hra5b, hwf5b, _, _⟩ :=
        acceptWhile_ok isDigitRune rfl l₅ hwf5a
      refine ⟨count₂ + 1 + sn + n₃, l₆', ?_, ?_, hwf5b, by omega, by omega⟩
      · rw [if_pos (by omega)]
        simp only [h5a, h5b]
      · have t1 := consumed_trans hc3 hc4
        have t2 := consumed_trans t1 hc5a
        have t3 := consumed_trans t2 hc5b
        exact t3
  obtain ⟨count, l₆, h5, hc5, hwf5, hra5, hcnt5⟩ := hstage5
  rcases hpk : l₆.peek with ⟨pk, l₇⟩
  have hc7 : Consumed l l₇ count := by
    have hp0 := consumed_peek hwf5
    rw [hpk] at hp0
    have t := consumed_trans hc5 hp0
    simpa using t
  have hwf7 : l₇.WFL := by
    have := wfl_peek hwf5
    rwa [hpk] at this
  have hra7 : l₇.realAvail = l₆.realAvail := by
    have := peek_realAvail l₆
    rwa [hpk] at this
  by_cases h7 : isAlphaNumeric pk = true
  · obtain ⟨hpos7, hst7, ⟨j, hstr7⟩, hv7, _⟩ := hc7
    have hb8 : l₇.backupWith count = .ok { l₇ with pos := l₇.pos - count } :=
      backupWith_ok (by omega)
    have hraEq : ({ l₇ with pos := l₇.pos - count } : Lexer).realAvail = l.realAvail := by
      simp only [Lexer.realAvail]
      have e : l₇.pos - count = l.pos := by omega
      rw [e, hstr7, countP_drop_append_replicate_none]
    have hvv : ({ l₇ with pos := l₇.pos - count } : Lexer).peekVal 0 = l.peekVal 0 := by
      simp only [Lexer.peekVal]
      rw [hstr7, getD_append_replicate_none]
      congr 1
      omega
    have hwf8 : ({ l₇ with pos := l₇.pos - count } : Lexer).WFL := by
      rw [Lexer.WFL]
      simp only [hstr7, List.length_append]
      rw [Lexer.WFL] at hwf
      omega
    refine ⟨[], .lexIdentifierOrKeyword, { l₇ with pos := l₇.pos - count },
      ?_, hwf8, Or.inr ⟨rfl, le_of_eq hraEq, hvv⟩⟩
    rw [lexNumberF]
    simp only [h1, h2, h3, h4, h5, hpk, h7, if_true, hb8]
  · refine ⟨[(l₇.emit ItemNumber).1], .lexWhitespace, (l₇.emit ItemNumber).2,
      ?_, wfl_emit l₇ ItemNumber, Or.inl ⟨rfl, ?_⟩⟩
    · rw [lexNumberF]
      simp only [h1, h2, h3, h4, h5, hpk]
      rw [if_neg h7]
    · rw [realAvail_emit]
      omega

/-- Progress of the dispatch switch: it halts (End-of-Input or the unknown-
character error), or transitions with the entry invariant of the target
state established and the termination measure decreased. -/
theorem dispatchSwitch_out (wsIts : List Item) {l₂ : Lexer} (hwf : l₂.WFL) :
    (dispatchSwitch wsIts l₂).2 = .halt ∨
    ∃ tag' l', (dispatchSwitch wsIts l₂).2 = .cont tag' l' ∧ l'.WFL ∧
      TagInv tag' l' ∧ 3 * l'.realAvail + tagRank tag' < 3 * l₂.realAvail + 2 := by
  rw [dispatchSwitch]
  rcases hpk : l₂.peek with ⟨nxt, l₃⟩
  simp only
  rcases hp2 : l₃.peekNext 2 with ⟨nextTwo, l₄⟩
  simp only
  have hnxt : nxt = l₂.peekVal 0 := by
    have := peek_fst l₂
    rw [hpk] at this
    simpa using this
  have h3v : ∀ k, l₃.peekVal k = l₂.peekVal k := by
    intro k
    have := peek_peekVal l₂ k
    rwa [hpk] at this
  have h4v : ∀ k, l₄.peekVal k = l₂.peekVal k := by
    intro k
    have h1 := peekNext_peekVal l₃ 2 k
    rw [hp2] at h1
    exact h1.trans (h3v k)
  have hra3 : l₃.realAvail = l₂.realAvail := by
    have := peek_realAvail l₂
    rwa [hpk] at this
  have hra4 : l₄.realAvail = l₂.realAvail := by
    have := peekNext_realAvail l₃ 2
    rw [hp2] at this
    exact this.trans hra3
  have hwf3 : l₃.WFL := by
    have := wfl_peek hwf
    rwa [hpk] at this
  have hwf4 : l₄.WFL := by
    have := wfl_peekNext 2 hwf3
    rwa [hp2] at this
  have htwo : nextTwo = [l₂.peekVal 0, l₂.peekVal 1] := by
    have := peekNext_fst_two l₃
    rw [hp2] at this
    exact this.trans (by rw [h3v 0, h3v 1])
  by_cases h1 : (nxt == (none : Rune)) = true
  · rw [if_pos h1]
    exact Or.inl rfl
  · rw [if_neg h1]
    by_cases h2 : (nextTwo == [some '-', some '-']) = true
    · rw [if_pos h2]
      refine Or.inr ⟨.lexSingleLineComment, l₄, rfl, hwf4, ?_, ?_⟩
      · show isEndOfLine (l₄.peekVal 0) = false
        have he : nextTwo = [some '-', some '-'] := by simpa using h2
        rw [htwo] at he
        simp only [List.cons.injEq, and_true] at he
        rw [h4v 0, he.1]
        decide
      · simp only [tagRank]
        omega
    · rw [if_neg h2]
      by_cases h3 : (nextTwo == [some '/', some '*']) = true
      · rw [if_pos h3]
        refine Or.inr ⟨.lexMultiLineComment, l₄, rfl, hwf4, ?_, ?_⟩
        · show ∃ c, l₄.peekVal 0 = some c
          have he : nextTwo = [some '/', some '*'] := by simpa using h3
          rw [htwo] at he
          simp only [List.cons.injEq, and_true] at he
          exact ⟨'/', by rw [h4v 0, he.1]⟩
        · simp only [tagRank]
          omega
      · rw [if_neg h3]
        by_cases h4 : (nxt == (some '(' : Rune)) = true
        · rw [if_pos h4]
          have hc : nxt = some '(' := by simpa using h4
          have hlt : ((l₄.next).2).realAvail < l₄.realAvail :=
            realAvail_next_lt (by rw [next_fst, h4v 0, ← hnxt, hc])
          have he2 : ((((l₄.next).2).emit ItemLeftParen).2).realAvail =
              ((l₄.next).2).realAvail := realAvail_emit _ _
          refine Or.inr ⟨.lexWhitespace, (((l₄.next).2).emit ItemLeftParen).2,
            rfl, wfl_emit _ _, trivial, ?_⟩
          simp only [tagRank]
          omega
        · rw [if_neg h4]
          by_cases h5 : (nxt == (some ')' : Rune)) = true
          · rw [if_pos h5]
            have hc : nxt = some ')' := by simpa using h5
            have hlt : ((l₄.next).2).realAvail < l₄.realAvail :=
              realAvail_next_lt (by rw [next_fst, h4v 0, ← hnxt, hc])
            have he2 : ((((l₄.next).2).emit ItemRightParen).2).realAvail =
                ((l₄.next).2).realAvail := realAvail_emit _ _
            refine Or.inr ⟨.lexWhitespace, (((l₄.next).2).emit ItemRightParen).2,
              rfl, wfl_emit _ _, trivial, ?_⟩
            simp only [tagRank]
            omega
          · rw [if_neg h5]
            by_cases h6 : (nxt == (some ',' : Rune)) = true
            · rw [if_pos h6]
              have hc : nxt = some ',' := by simpa using h6
              have hlt : ((l₄.next).2).realAvail < l₄.realAvail :=
                realAvail_next_lt (by rw [next_fst, h4v 0, ← hnxt, hc])
              have he2 : ((((l₄.next).2).emit ItemComma).2).realAvail =
                  ((l₄.next).2).realAvail := realAvail_emit _ _
              refine Or.inr ⟨.lexWhitespace, (((l₄.next).2).emit ItemComma).2,
                rfl, wfl_emit _ _, trivial, ?_⟩
              simp only [tagRank]
              omega
            · rw [if_neg h6]
              by_cases h7 : (nxt == (some ';' : Rune)) = true
              · rw [if_pos h7]
                have hc : nxt = some ';' := by simpa using h7
                have hlt : ((l₄.next).2).realAvail < l₄.realAvail :=
                  realAvail_next_lt (by rw [next_fst, h4v 0, ← hnxt, hc])
                have he2 : ((((l₄.next).2).emit ItemStetementEnd).2).realAvail =
                    ((l₄.next).2).realAvail := realAvail_emit _ _
                refine Or.inr ⟨.lexWhitespace, (((l₄.next).2).emit ItemStetementEnd).2,
                  rfl, wfl_emit _ _, trivial, ?_⟩
                simp only [tagRank]
                omega
              · rw [if_neg h7]
                by_cases h8 : isOperator nxt = true
                · rw [if_pos h8]
                  refine Or.inr ⟨.lexOperator, l₄, rfl, hwf4, ?_, ?_⟩
                  · show isOperator (l₄.peekVal 0) = true
                    rw [h4v 0, ← hnxt]
                    exact h8
                  · simp only [tagRank]
                    omega
                · rw [if_neg h8]
                  by_cases h9 : (nxt == (some '"' : Rune) || nxt == (some '\'' : Rune)) = true
                  · rw [if_pos h9]
                    refine Or.inr ⟨.lexString, l₄, rfl, hwf4, ?_, ?_⟩
                    · show ∃ c, l₄.peekVal 0 = some c
                      simp only [Bool.or_eq_true, beq_iff_eq] at h9
                      rcases h9 with hc | hc
                      · exact ⟨'"', by rw [h4v 0, ← hnxt, hc]⟩
                      · exact ⟨'\'', by rw [h4v 0, ← hnxt, hc]⟩
                    · simp only [tagRank]
                      omega
                  · rw [if_neg h9]
                    by_cases h10 : isAsciiDigit nxt = true
                    · rw [if_pos h10]
                      refine Or.inr ⟨.lexNumber, l₄, rfl, hwf4, ?_, ?_⟩
                      · show isAsciiDigit (l₄.peekVal 0) = true
                        rw [h4v 0, ← hnxt]
                        exact h10
                      · simp only [tagRank]
                        omega
                    · rw [if_neg h10]
                      by_cases h11 : (isAlphaNumeric nxt || nxt == (some '`' : Rune)) = true
                      · rw [if_pos h11]
                        refine Or.inr ⟨.lexIdentifierOrKeyword, l₄, rfl, hwf4, ?_, ?_⟩
                        · show ∃ c, l₄.peekVal 0 = some c
                          cases hc : nxt with
                          | none =>
                              rw [hc] at h11
                              exact absurd h11 (by decide)
                          | some c₀ =>
                              exact ⟨c₀, by rw [h4v 0, ← hnxt, hc]⟩
                        · simp only [tagRank]
                          omega
                      · rw [if_neg h11]
                        exact Or.inl rfl

/-- Progress of the dispatch state function. -/
theorem lexWhitespaceF_out {l : Lexer} (hwf : l.WFL) :
    (lexWhitespaceF l).2 = .halt ∨
    ∃ tag' l', (lexWhitespaceF l).2 = .cont tag' l' ∧ l'.WFL ∧ TagInv tag' l' ∧
      stepMeasure tag' l' < stepMeasure .lexWhitespace l := by
  obtain ⟨n, l₁, heq, hcons, hra, hwf1, _, _⟩ := acceptWhile_ok isWhitespace rfl l hwf
  rw [lexWhitespaceF]
  simp only [heq]
  by_cases hp : l₁.pos > 0
  · rw [if_pos hp]
    have hwe : ((l₁.emit ItemWhitespace).2).WFL := wfl_emit l₁ ItemWhitespace
    have hre : ((l₁.emit ItemWhitespace).2).realAvail = l₁.realAvail :=
      realAvail_emit l₁ ItemWhitespace
    rcases dispatchSwitch_out [(l₁.emit ItemWhitespace).1] hwe with
      hh | ⟨tag', l', hc, hw, hi, hm⟩
    · exact Or.inl hh
    · refine Or.inr ⟨tag', l', hc, hw, hi, ?_⟩
      simp only [stepMeasure]
      have hrk : tagRank StateTag.lexWhitespace = 2 := rfl
      rw [hrk]
      omega
  · rw [if_neg hp]
    rcases dispatchSwitch_out ([] : List Item) hwf1 with
      hh | ⟨tag', l', hc, hw, hi, hm⟩
    · exact Or.inl hh
    · refine Or.inr ⟨tag', l', hc, hw, hi, ?_⟩
      simp only [stepMeasure]
      have hrk : tagRank StateTag.lexWhitespace = 2 := rfl
      rw [hrk]
      omega

/-- Progress of one state-function application: from a well-formed state
satisfying its entry invariant, the machine halts or transitions to a
well-formed state satisfying the target's entry invariant with a strictly
smaller measure. -/
theorem step_progress (tag : StateTag) (l : Lexer) (hwf : l.WFL)
    (hinv : TagInv tag l) :
    (step tag l).2 = .halt ∨
    ∃ tag' l', (step tag l).2 = .cont tag' l' ∧ l'.WFL ∧ TagInv tag' l' ∧
      stepMeasure tag' l' < stepMeasure tag l := by
  cases tag with
  | lexWhitespace => exact lexWhitespaceF_out hwf
  | lexSingleLineComment =>
      have hi : isEndOfLine (l.peekVal 0) = false := hinv
      obtain ⟨its, l', heq, hw, hlt⟩ := lexSingleLineCommentF_out hwf hi
      refine Or.inr ⟨.lexWhitespace, l', ?_, hw, trivial, ?_⟩
      · show (lexSingleLineCommentF l).2 = _
        rw [heq]
      · simp only [stepMeasure]
        have r1 : tagRank StateTag.lexWhitespace = 2 := rfl
        have r2 : tagRank StateTag.lexSingleLineComment = 0 := rfl
        rw [r1, r2]
        omega
  | lexOperator =>
      have hi : isOperator (l.peekVal 0) = true := hinv
      obtain ⟨its, l', heq, hw, hlt⟩ := lexOperatorF_out hwf hi
      refine Or.inr ⟨.lexWhitespace, l', ?_, hw, trivial, ?_⟩
      · show (lexOperatorF l).2 = _
        rw [heq]
      · simp only [stepMeasure]
        have r1 : tagRank StateTag.lexWhitespace = 2 := rfl
        have r2 : tagRank StateTag.lexOperator = 0 := rfl
        rw [r1, r2]
        omega
  | lexMultiLineComment =>
      have hi : ∃ c, l.peekVal 0 = some c := hinv
      obtain ⟨c, hv⟩ := hi
      rcases lexMultiLineCommentF_out hwf hv with hh | ⟨k, hc, hw, hlt⟩
      · exact Or.inl hh
      · refine Or.inr ⟨.lexWhitespace, k, hc, hw, trivial, ?_⟩
        simp only [stepMeasure]
        have r1 : tagRank StateTag.lexWhitespace = 2 := rfl
        have r2 : tagRank StateTag.lexMultiLineComment = 0 := rfl
        rw [r1, r2]
        omega
  | lexString =>
      have hi : ∃ c, l.peekVal 0 = some c := hinv
      obtain ⟨c, hv⟩ := hi
      rcases lexStringF_out hv with hh | ⟨k, hc, hw, hlt⟩
      · exact Or.inl hh
      · refine Or.inr ⟨.lexWhitespace, k, hc, hw, trivial, ?_⟩
        simp only [stepMeasure]
        have r1 : tagRank StateTag.lexWhitespace = 2 := rfl
        have r2 : tagRank StateTag.lexString = 0 := rfl
        rw [r1, r2]
        omega
  | lexNumber =>
      have hi : isAsciiDigit (l.peekVal 0) = true := hinv
      obtain ⟨its, tag', l', heq, hw, hcase⟩ := lexNumberF_out hwf hi
      refine Or.inr ⟨tag', l', ?_, hw, ?_, ?_⟩
      · show (lexNumberF l).2 = _
        rw [heq]
      · rcases hcase with ⟨ht, _⟩ | ⟨ht, _, hvv⟩
        · subst ht
          trivial
        · subst ht
          show ∃ c, l'.peekVal 0 = some c
          cases hv0 : l.peekVal 0 with
          | none =>
              rw [hv0] at hi
              exact absurd hi (by decide)
          | some d => exact ⟨d, by rw [hvv, hv0]⟩
      · rcases hcase with ⟨ht, hlt⟩ | ⟨ht, hle, _⟩
        · subst ht
          simp only [stepMeasure]
          have r1 : tagRank StateTag.lexWhitespace = 2 := rfl
          have r2 : tagRank StateTag.lexNumber = 1 := rfl
          rw [r1, r2]
          omega
        · subst ht
          simp only [stepMeasure]
          have r1 : tagRank StateTag.lexIdentifierOrKeyword = 0 := rfl
          have r2 : tagRank StateTag.lexNumber = 1 := rfl
          rw [r1, r2]
          omega
  | lexIdentifierOrKeyword =>
      have hi : ∃ c, l.peekVal 0 = some c := hinv
      obtain ⟨c, hv⟩ := hi
      rcases identLoop_ok l hwf with hh | ⟨k, hc, hw, hle, hstrict⟩
      · exact Or.inl hh
      · refine Or.inr ⟨.lexWhitespace, k, hc, hw, trivial, ?_⟩
        have hlt := hstrict c hv
        simp only [stepMeasure]
        have r1 : tagRank StateTag.lexWhitespace = 2 := rfl
        have r2 : tagRank StateTag.lexIdentifierOrKeyword = 0 := rfl
        rw [r1, r2]
        omega

/-- Adequacy of the fuel: from a well-formed state satisfying its entry
invariant, one more driver step than the measure always completes the run. -/
theorem runFuel_completes :
    ∀ m : Nat, ∀ tag : StateTag, ∀ l : Lexer, l.WFL → TagInv tag l →
      stepMeasure tag l ≤ m → (runFuel (m + 1) tag l).2 = .completed := by
  intro m
  induction m using Nat.strong_induction_on with
  | _ m ih =>
      intro tag l hwf hinv hm
      rw [runFuel]
      rcases hs : step tag l with ⟨items, out⟩
      rcases step_progress tag l hwf hinv with hh | ⟨tag', l', hc, hw, hi, hlt⟩
      · rw [hs] at hh
        simp only at hh
        subst hh
        simp only [hs]
      · rw [hs] at hc
        simp only at hc
        subst hc
        simp only [hs]
        cases m with
        | zero => exact absurd hm (by omega)
        | succ m' =>
            have h2 := ih m' (by omega) tag' l' hw hi (by omega)
            rcases hrun : runFuel (m' + 1) tag' l' with ⟨more, rr⟩
            rw [hrun] at h2
            simp only at h2
            simp only [hrun]
            exact h2

/-- Lemma: a fresh scanner is well-formed. -/
theorem initLexer_wfl (input : List Char) : (initLexer input).WFL := by
  rw [Lexer.WFL]
  exact Nat.zero_le _

/-- Lemma: a fresh scanner has the whole input available. -/
theorem initLexer_realAvail (input : List Char) :
    (initLexer input).realAvail = input.length := by
  simp [initLexer, Lexer.realAvail, List.countP_map]

/-- Every scan runs the state machine to the nil state: the channel is
closed after finitely many state-function applications on every input. -/
theorem scanRun_completes (input : List Char) : (scanRun input).2 = .completed := by
  rw [scanRun, scanFuel]
  have h3 : 3 * input.length + 3 = (3 * input.length + 2) + 1 := by omega
  rw [h3]
  apply runFuel_completes
  · exact initLexer_wfl input
  · trivial
  · simp only [stepMeasure]
    have hrk : tagRank StateTag.lexWhitespace = 2 := rfl
    rw [hrk, initLexer_realAvail]

/-- Claim C1 (refuted by the code on input "a."): the scan of "a." emits,
before the terminal item, the texts "a", "." and the replacement character —
their concatenation is not a prefix of the input, because the identifier
state consumed the EOF sentinel after the trailing dot and emitted it inside
a Whitespace token. -/
theorem claim_C1_reconstruction_fails :
    scanTokens ['a', '.'] =
      [⟨ItemIdentifier, 0, "a"⟩, ⟨ItemDot, 1, "."⟩,
       ⟨ItemWhitespace, 2, String.mk [replacementChar]⟩, ⟨ItemEOF, 1, ""⟩] ∧
    (String.join (((scanTokens ['a', '.']).dropLast).map Item.val)).toList ≠
      List.take
        (String.join (((scanTokens ['a', '.']).dropLast).map Item.val)).toList.length
        ['a', '.'] := by
  decide

/-- Claim C2 (refuted by the code on input "a."): the emitted positions are
0, 1, 2, 1 — not non-decreasing — and the last step violates the byte-length
accounting because utf8.RuneLen of the consumed EOF sentinel is -1, moving
inputCurrentStart backwards. -/
theorem claim_C2_position_accounting_fails :
    (scanTokens ['a', '.']).map Item.pos = [0, 1, 2, 1] ∧
    ¬ List.Pairwise (fun x y => x ≤ y) ((scanTokens ['a', '.']).map Item.pos) ∧
    ((scanTokens ['a', '.']).getD 3 ⟨ItemError, 0, ""⟩).pos ≠
      ((scanTokens ['a', '.']).getD 2 ⟨ItemError, 0, ""⟩).pos +
        byteLen (((scanTokens ['a', '.']).getD 2 ⟨ItemError, 0, ""⟩).val.toList.map some) := by
  decide

/-- Claim C3 (confirmed): for every input the scan emits a sequence of
non-terminal items followed by exactly one terminal item (End-of-Input or
Error), nothing after it, and the run loop reaches the nil state that closes
the Items channel. -/
theorem claim_C3_terminal_protocol (input : List Char) :
    ∃ pre t, scanTokens input = pre ++ [t] ∧
      (∀ it ∈ pre, isTerminal it = false) ∧ isTerminal t = true ∧
      (scanRun input).2 = .completed := by
  have hc := scanRun_completes input
  obtain ⟨pre, t, he, hpre, ht⟩ :=
    runFuel_protocol (scanFuel input) .lexWhitespace (initLexer input) hc
  exact ⟨pre, t, he, hpre, ht, hc⟩

/-- Claim C4 (confirmed): the unterminated input consisting of a single
quote followed by "abc" yields exactly one token, an Error whose message is
"unterminated quoted string", and the run then completes; its position is
inputCurrentStart, the start of the offending string. -/
theorem claim_C4_unterminated_string :
    scanTokens ['\'', 'a', 'b', 'c'] =
      [⟨ItemError, 0, "unterminated quoted string"⟩] ∧
    (scanRun ['\'', 'a', 'b', 'c']).2 = .completed := by
  decide

/-- Claim C6 (confirmed): the single-quoted input with a doubled inner quote
scans as one String token carrying both delimiters and the doubled quote,
and the backtick-quoted input with a doubled backtick scans as one
Identifier token likewise. -/
theorem claim_C6_quote_escaping :
    scanTokens ['\'', 'i', 't', '\'', '\'', 's', '\''] =
      [⟨ItemString, 0, "'it''s'"⟩, ⟨ItemEOF, 7, ""⟩] ∧
    scanTokens ['`', 'a', '`', '`', 'b', '`'] =
      [⟨ItemIdentifier, 0, "`a``b`"⟩, ⟨ItemEOF, 6, ""⟩] := by
  decide

/-- Claim C8 (confirmed): backing up by more runes than the buffer position
is the Go panic with its diagnostic message, reported out of band as a
GoPanic and never as an Error item of the token stream; backup is
backupWith 1. -/
theorem claim_C8_backup_contract (n : Nat) (l : Lexer) (h : l.pos < n) :
    l.backupWith n = .error ⟨"lexer: trying to backup with " ++ Nat.repr n ++
      " when the buffer position is " ++ Nat.repr l.pos⟩ ∧
    l.backup = l.backupWith 1 :=
  ⟨backupWith_panic h, rfl⟩

/-- Witness for claim C8 at the fresh scanner over "a" and a backup of 1. -/
theorem claim_C8_backup_contract_witness :
    (initLexer ['a']).pos < 1 ∧
    (initLexer ['a']).backupWith 1 =
      .error ⟨"lexer: trying to backup with " ++ Nat.repr 1 ++
        " when the buffer position is " ++ Nat.repr (initLexer ['a']).pos⟩ :=
  ⟨by decide, (claim_C8_backup_contract 1 (initLexer ['a']) (by decide)).1⟩

/-- Claim C9 (confirmed): on input "a.+" the scanner emits a Whitespace
token whose text is "+", which contains no whitespace character — the
identifier state consumed the '+' after the Dot and emitted it inside the
trailing-whitespace emission. -/
theorem claim_C9_nonws_whitespace_token :
    scanTokens ['a', '.', '+'] =
      [⟨ItemIdentifier, 0, "a"⟩, ⟨ItemDot, 1, "."⟩,
       ⟨ItemWhitespace, 2, "+"⟩, ⟨ItemEOF, 3, ""⟩] ∧
    (⟨ItemWhitespace, 2, "+"⟩ : Item) ∈ scanTokens ['a', '.', '+'] ∧
    (∀ ch ∈ ("+" : String).toList, isWhitespace (some ch) = false) := by
  decide

/-- Claim C10 (confirmed): the empty input yields exactly one token, the
End-of-Input token with empty text at position 0; and every End-of-Input
item any scan ever emits has empty text. -/
theorem claim_C10_eof_empty :
    scanTokens [] = [⟨ItemEOF, 0, ""⟩] ∧
    ∀ input : List Char, ∀ it ∈ scanTokens input,
      it.type = ItemEOF → it.val = "" := by
  refine ⟨by decide, ?_⟩
  intro input it hit he
  exact runFuel_eof_val (scanFuel input) .lexWhitespace (initLexer input) it hit he

/-- Witness for claim C10 at input "a" and its End-of-Input item. -/
theorem claim_C10_eof_empty_witness :
    (⟨ItemEOF, 1, ""⟩ : Item) ∈ scanTokens ['a'] ∧
    (⟨ItemEOF, 1, ""⟩ : Item).val = "" :=
  ⟨by decide, claim_C10_eof_empty.2 ['a'] ⟨ItemEOF, 1, ""⟩ (by decide) (by decide)⟩

/-- Counterexample to claim C5 as stated: the numeric-looking prefix "1."
of input "1.x" is followed by the identifier character 'x', yet the scan is
Identifier "1", Dot, Identifier "x" — not a single Identifier token spanning
the whole input. -/
theorem claim_C5_counterexample :
    scanTokens ['1', '.', 'x'] =
      [⟨ItemIdentifier, 0, "1"⟩, ⟨ItemDot, 1, "."⟩,
       ⟨ItemIdentifier, 2, "x"⟩, ⟨ItemEOF, 3, ""⟩] ∧
    ((scanTokens ['1', '.', 'x']).getD 0 ⟨ItemError, 0, ""⟩).val ≠ "1.x" := by
  decide

/-- Counterexample to claim C7 as stated: on the input "." the dispatch
switch has no '.' case, so it falls to the default branch and emits the
unknown-character Error (with the EOF sentinel printed as the replacement
character in the two-rune lookahead) instead of a Dot token. -/
theorem claim_C7_counterexample :
    scanTokens ['.'] =
      [⟨ItemError, 0, "don't know what to do with '" ++
        String.mk ['.', replacementChar] ++ "'"⟩] ∧
    ∀ it ∈ scanTokens ['.'], it.type ≠ ItemDot := by
  decide

/-- Lemma: an ASCII digit differs from any character that is not one. -/
theorem asciiDigit_ne_char {d c : Char} (hd : isAsciiDigit (some d) = true)
    (hc : isAsciiDigit (some c) = false) : d ≠ c := by
  intro he
  subst he
  rw [hd] at hc
  exact absurd hc (by decide)

/-- Lemma: an ASCII digit is not an operator character. -/
theorem isOperator_eq_false_of_digit {d : Char} (hd : isAsciiDigit (some d) = true) :
    isOperator (some d) = false := by
  cases hop : isOperator (some d) with
  | false => rfl
  | true =>
      simp only [isOperator, Bool.or_eq_true, beq_iff_eq, or_assoc] at hop
      rcases hop with rfl | rfl | rfl | rfl | rfl | rfl | rfl | rfl | rfl | rfl | rfl | rfl <;>
        exact absurd hd (by decide)

/-- Lemma: an ASCII digit is not a whitespace character. -/
theorem isWhitespace_eq_false_of_digit {d : Char} (hd : isAsciiDigit (some d) = true) :
    isWhitespace (some d) = false := by
  cases hop : isWhitespace (some d) with
  | false => rfl
  | true =>
      simp only [isWhitespace, Bool.or_eq_true, beq_iff_eq, Option.some.injEq,
        or_assoc] at hop
      rcases hop with rfl | rfl | rfl | rfl <;> exact absurd hd (by decide)

/-- Lemma: an ASCII digit is alphanumeric. -/
theorem isAlphaNumeric_of_digit {d : Char} (hd : isAsciiDigit (some d) = true) :
    isAlphaNumeric (some d) = true := by
  have h1 := isAsciiDigit_isDigitRune hd
  simp only [isDigitRune] at h1
  simp [isAlphaNumeric, h1]

/-- Lemma: the validator passed by lexNumber agrees with the dispatch digit
test on every rune. -/
theorem isDigitRune_eq_isAsciiDigit (r : Rune) : isDigitRune r = isAsciiDigit r := by
  cases r with
  | none => rfl
  | some d =>
      simp only [isDigitRune, isAsciiDigit, Char.isDigit]
      rfl

/-- Lemma: an in-range lookup of a some-mapped list. -/
theorem getD_map_some_lt {u : List Char} {i : Nat} (h : i < u.length) :
    (u.map some).getD i none = some (u.get ⟨i, h⟩) := by
  rw [List.getD_eq_getElem?_getD, List.getElem?_map, List.getElem?_eq_getElem h]
  rfl

/-- Lemma: an out-of-range lookup of a some-mapped list. -/
theorem getD_map_some_ge {u : List Char} {i : Nat} (h : u.length ≤ i) :
    (u.map some).getD i none = none := by
  rw [List.getD_eq_getElem?_getD, List.getElem?_map, List.getElem?_eq_none h]
  rfl

/-- Lemma: the lookahead of a fresh scanner is the input itself. -/
theorem initLexer_peekVal (input : List Char) (k : Nat) :
    (initLexer input).peekVal k = (input.map some).getD k none := by
  simp [initLexer, Lexer.peekVal]

/-- Lemma: converting a sentinel-free rune list back to a string is the
identity on the underlying characters. -/
theorem runesToString_map_some (l : List Char) :
    runesToString (l.map some) = String.mk l := by
  rw [runesToString, List.map_map]
  have h : ((fun r : Rune => r.getD replacementChar) ∘ some) = fun c : Char => c := by
    funext c
    rfl
  rw [h, List.map_id']

/-- Lemma: a whitespace run is one byte per rune. -/
theorem byteLen_ws {ws : List Char} (hws : ∀ w ∈ ws, isWhitespace (some w) = true) :
    byteLen (ws.map some) = (ws.length : Int) := by
  induction ws with
  | nil => rfl
  | cons a t ih =>
      have ha := hws a (by simp)
      have h1 : runeLen (some a) = 1 := by
        simp only [isWhitespace, Bool.or_eq_true, beq_iff_eq, Option.some.injEq,
          or_assoc] at ha
        rcases ha with rfl | rfl | rfl | rfl <;> decide
      have h2 := ih (fun w hw => hws w (by simp [hw]))
      simp only [List.map_cons, byteLen, List.sum_cons] at h2 ⊢
      rw [h1, h2]
      simp
      omega

/-- Lemma: acceptWhile consumes exactly a given maximal satisfying prefix. -/
theorem acceptWhile_count_eq (fn : Rune → Bool) (hfn : fn none = false)
    {l : Lexer} (hwf : l.WFL) {m : Nat}
    (hall : ∀ i, i < m → fn (l.peekVal i) = true)
    (hstop : fn (l.peekVal m) = false) :
    ∃ l', acceptWhile fn l = .ok (m, l') ∧ Consumed l l' m ∧ l'.WFL ∧
      l'.realAvail + m = l.realAvail := by
  obtain ⟨n, l', heq, hcons, hra, hwf', hall', hstop'⟩ := acceptWhile_ok fn hfn l hwf
  have hnm : n = m := by
    rcases Nat.lt_trichotomy n m with h | h | h
    · have := hall n h
      rw [this] at hstop'
      exact absurd hstop' (by decide)
    · exact h
    · have := hall' m h
      rw [this] at hstop
      exact absurd hstop (by decide)
  subst hnm
  exact ⟨l', heq, hcons, hwf', hra⟩

/-- The dispatch switch on a '.' lookahead: no case of the switch matches,
so the default branch emits the unknown-character error and halts. -/
theorem dispatchSwitch_dot {wsIts : List Item} {l₂ : Lexer} (hwf : l₂.WFL)
    (hv : l₂.peekVal 0 = some '.') :
    dispatchSwitch wsIts l₂ = (wsIts ++ [⟨ItemError, l₂.start,
      "don't know what to do with '" ++
        runesToString [some '.', l₂.peekVal 1] ++ "'"⟩], .halt) := by
  rw [dispatchSwitch]
  rcases hpk : l₂.peek with ⟨nxt, l₃⟩
  simp only
  rcases hp2 : l₃.peekNext 2 with ⟨nextTwo, l₄⟩
  simp only
  have hnxt : nxt = l₂.peekVal 0 := by
    have := peek_fst l₂
    rw [hpk] at this
    simpa using this
  have hnd : nxt = some '.' := by rw [hnxt, hv]
  have h3v : ∀ k, l₃.peekVal k = l₂.peekVal k := by
    intro k
    have := peek_peekVal l₂ k
    rwa [hpk] at this
  have htwo : nextTwo = [some '.', l₂.peekVal 1] := by
    have := peekNext_fst_two l₃
    rw [hp2] at this
    rw [h3v 0, h3v 1, hv] at this
    simpa using this
  have hst3 : l₃.start = l₂.start := by
    have := peek_start l₂
    rw [hpk] at this
    simpa using this
  have hst4 : l₄.start = l₂.start := by
    have := peekNext_start l₃ 2
    rw [hp2] at this
    simp only at this
    rw [this, hst3]
  have c1 : (nxt == (none : Rune)) = false := by rw [hnd]; rfl
  have c2 : (nextTwo == [some '-', some '-']) = false := by rw [htwo]; rfl
  have c3 : (nextTwo == [some '/', some '*']) = false := by rw [htwo]; rfl
  have c4 : (nxt == (some '(' : Rune)) = false := by rw [hnd]; rfl
  have c5 : (nxt == (some ')' : Rune)) = false := by rw [hnd]; rfl
  have c6 : (nxt == (some ',' : Rune)) = false := by rw [hnd]; rfl
  have c7 : (nxt == (some ';' : Rune)) = false := by rw [hnd]; rfl
  have c8 : isOperator nxt = false := by rw [hnd]; rfl
  have c9 : (nxt == (some '"' : Rune) || nxt == (some '\'' : Rune)) = false := by
    rw [hnd]; rfl
  have c10 : isAsciiDigit nxt = false := by rw [hnd]; rfl
  have c11 : (isAlphaNumeric nxt || nxt == (some '`' : Rune)) = false := by
    rw [hnd]; rfl
  rw [if_neg (by simp [c1]), if_neg (by simp [c2]), if_neg (by simp [c3]),
    if_neg (by simp [c4]), if_neg (by simp [c5]), if_neg (by simp [c6]),
    if_neg (by simp [c7]), if_neg (by simp [c8]), if_neg (by simp [c9]),
    if_neg (by simp [c10]), if_neg (by simp [c11]), htwo, hst4]

/-- The dispatch switch on an ASCII-digit lookahead: it transitions to the
number state having consumed nothing. -/
theorem dispatchSwitch_digit {wsIts : List Item} {l₂ : Lexer} (hwf : l₂.WFL)
    {d : Char} (hv : l₂.peekVal 0 = some d) (hd : isAsciiDigit (some d) = true) :
    ∃ l₄, dispatchSwitch wsIts l₂ = (wsIts, .cont .lexNumber l₄) ∧
      Consumed l₂ l₄ 0 ∧ l₄.WFL := by
  rw [dispatchSwitch]
  rcases hpk : l₂.peek with ⟨nxt, l₃⟩
  simp only
  rcases hp2 : l₃.peekNext 2 with ⟨nextTwo, l₄⟩
  simp only
  have hnxt : nxt = l₂.peekVal 0 := by
    have := peek_fst l₂
    rw [hpk] at this
    simpa using this
  have hnd : nxt = some d := by rw [hnxt, hv]
  have h3v : ∀ k, l₃.peekVal k = l₂.peekVal k := by
    intro k
    have := peek_peekVal l₂ k
    rwa [hpk] at this
  have htwo : nextTwo = [l₂.peekVal 0, l₂.peekVal 1] := by
    have := peekNext_fst_two l₃
    rw [hp2] at this
    rw [h3v 0, h3v 1] at this
    simpa using this
  have hwf3 : l₃.WFL := by
    have := wfl_peek hwf
    rwa [hpk] at this
  have hwf4 : l₄.WFL := by
    have := wfl_peekNext 2 hwf3
    rwa [hp2] at this
  have hcA : Consumed l₂ l₃ 0 := by
    have := consumed_peek hwf
    rwa [hpk] at this
  have hcB : Consumed l₃ l₄ 0 := by
    have := consumed_peekNext l₃ 2 hwf3
    rwa [hp2] at this
  have hc04 : Consumed l₂ l₄ 0 := by
    have := consumed_trans hcA hcB
    simpa using this
  have c1 : (nxt == (none : Rune)) = false := by rw [hnd]; rfl
  have c2 : (nextTwo == [some '-', some '-']) = false := by
    rw [Bool.eq_false_iff]
    intro hb
    have hbe : nextTwo = [some '-', some '-'] := by simpa using hb
    rw [htwo] at hbe
    simp only [List.cons.injEq, and_true] at hbe
    rw [hv] at hbe
    simp only [Option.some.injEq] at hbe
    exact absurd hbe.1 (asciiDigit_ne_char hd (by decide))
  have c3 : (nextTwo == [some '/', some '*']) = false := by
    rw [Bool.eq_false_iff]
    intro hb
    have hbe : nextTwo = [some '/', some '*'] := by simpa using hb
    rw [htwo] at hbe
    simp only [List.cons.injEq, and_true] at hbe
    rw [hv] at hbe
    simp only [Option.some.injEq] at hbe
    exact absurd hbe.1 (asciiDigit_ne_char hd (by decide))
  have c4 : (nxt == (some '(' : Rune)) = false := by
    rw [Bool.eq_false_iff]
    intro hb
    have hbe : nxt = some '(' := by simpa using hb
    rw [hnd] at hbe
    simp only [Option.some.injEq] at hbe
    exact absurd hbe (asciiDigit_ne_char hd (by decide))
  have c5 : (nxt == (some ')' : Rune)) = false := by
    rw [Bool.eq_false_iff]
    intro hb
    have hbe : nxt = some ')' := by simpa using hb
    rw [hnd] at hbe
    simp only [Option.some.injEq] at hbe
    exact absurd hbe (asciiDigit_ne_char hd (by decide))
  have c6 : (nxt == (some ',' : Rune)) = false := by
    rw [Bool.eq_false_iff]
    intro hb
    have hbe : nxt = some ',' := by simpa using hb
    rw [hnd] at hbe
    simp only [Option.some.injEq] at hbe
    exact absurd hbe (asciiDigit_ne_char hd (by decide))
  have c7 : (nxt == (some ';' : Rune)) = false := by
    rw [Bool.eq_false_iff]
    intro hb
    have hbe : nxt = some ';' := by simpa using hb
    rw [hnd] at hbe
    simp only [Option.some.injEq] at hbe
    exact absurd hbe (asciiDigit_ne_char hd (by decide))
  have c8 : isOperator nxt = false := by
    rw [hnd]
    exact isOperator_eq_false_of_digit hd
  have c9 : (nxt == (some '"' : Rune) || nxt == (some '\'' : Rune)) = false := by
    rw [Bool.eq_false_iff]
    intro hb
    simp only [Bool.or_eq_true, beq_iff_eq] at hb
    rw [hnd] at hb
    simp only [Option.some.injEq] at hb
    rcases hb with hbe | hbe
    · exact absurd hbe (asciiDigit_ne_char hd (by decide))
    · exact absurd hbe (asciiDigit_ne_char hd (by decide))
  have c10 : isAsciiDigit nxt = true := by
    rw [hnd]
    exact hd
  rw [if_neg (by simp [c1]), if_neg (by simp [c2]), if_neg (by simp [c3]),
    if_neg (by simp [c4]), if_neg (by simp [c5]), if_neg (by simp [c6]),
    if_neg (by simp [c7]), if_neg (by simp [c8]), if_neg (by simp [c9]),
    if_pos c10]
  exact ⟨l₄, rfl, hc04, hwf4⟩

/-- Helper: getD over an append, index inside the first part. -/
theorem getD_append_lt {α : Type} (l₁ l₂ : List α) (d : α) {i : Nat}
    (h : i < l₁.length) : (l₁ ++ l₂).getD i d = l₁.getD i d := by
  rw [List.getD_eq_getElem?_getD, List.getD_eq_getElem?_getD, List.getElem?_append,
    if_pos h]

/-- Helper: getD over an append, index past the first part. -/
theorem getD_append_ge {α : Type} (l₁ l₂ : List α) (d : α) {i : Nat}
    (h : l₁.length ≤ i) : (l₁ ++ l₂).getD i d = l₂.getD (i - l₁.length) d := by
  rw [List.getD_eq_getElem?_getD, List.getD_eq_getElem?_getD,
    List.getElem?_append_right h]

/-- Amended claim C7: when the first unconsumed character after the leading
whitespace run is '.', the dispatch does not recognize it: the scan emits
the whitespace token (when the run is non-empty) and then the
unknown-character Error naming the two-rune lookahead, and halts. -/
theorem claim_C7_amended (ws rest : List Char)
    (hws : ∀ w ∈ ws, isWhitespace (some w) = true) :
    scanTokens (ws ++ '.' :: rest) =
      (if ws.length = 0 then [] else [⟨ItemWhitespace, 0, String.mk ws⟩]) ++
      [⟨ItemError, (ws.length : Int),
        "don't know what to do with '" ++
          runesToString [some '.', (rest.map some).getD 0 none] ++ "'"⟩] := by
  set u : List Char := ws ++ '.' :: rest with hu
  set A : Lexer := initLexer u with hA
  have hwfA : A.WFL := initLexer_wfl u
  have hmap : u.map some = ws.map some ++ (some '.' :: rest.map some) := by
    rw [hu, List.map_append, List.map_cons]
  have hviV : ∀ i, (hi : i < ws.length) → A.peekVal i = some (ws.get ⟨i, hi⟩) := by
    intro i hi
    rw [hA, initLexer_peekVal, hmap,
      getD_append_lt _ _ _ (by rw [List.length_map]; omega)]
    exact getD_map_some_lt hi
  have hvdot : A.peekVal ws.length = some '.' := by
    rw [hA, initLexer_peekVal, hmap, getD_append_ge _ _ _ (by simp)]
    simp
  have hv1 : A.peekVal (ws.length + 1) = (rest.map some).getD 0 none := by
    rw [hA, initLexer_peekVal, hmap, getD_append_ge _ _ _ (by simp)]
    simp
  have hviW : ∀ i, i < ws.length → isWhitespace (A.peekVal i) = true := by
    intro i hi
    rw [hviV i hi]
    exact hws _ (ws.get_mem _ _)
  obtain ⟨l₁, heqW, hconsW, hwf1, _⟩ :=
    acceptWhile_count_eq isWhitespace rfl hwfA hviW (by rw [hvdot]; rfl)
  obtain ⟨hpos1, hst1, hstr1, hvk1, htk1⟩ := hconsW
  have hpos1' : l₁.pos = ws.length := by
    rw [hpos1, hA]
    simp [initLexer]
  have hst1' : l₁.start = 0 := by
    rw [hst1, hA]
    simp [initLexer]
  have hv0 : l₁.peekVal 0 = some '.' := by
    rw [hvk1 0]
    simpa using hvdot
  have hp1 : l₁.peekVal 1 = (rest.map some).getD 0 none := by
    rw [hvk1 1, Nat.add_comm]
    exact hv1
  have hTAKE : l₁.stream.take l₁.pos = ws.map some := by
    rw [htk1]
    have hA0 : A.stream.take A.pos = [] := by
      rw [hA]
      rfl
    rw [hA0, List.nil_append]
    apply List.ext_getElem
    · simp
    · intro i h1 h2
      simp only [List.getElem_map, List.getElem_range]
      have hi : i < ws.length := by
        simpa using h2
      rw [hviV i hi]
      simp
  have hstep : lexWhitespaceF A = ((if ws.length = 0 then [] else
      [⟨ItemWhitespace, 0, String.mk ws⟩]) ++
      [⟨ItemError, (ws.length : Int), "don't know what to do with '" ++
        runesToString [some '.', (rest.map some).getD 0 none] ++ "'"⟩], .halt) := by
    rw [lexWhitespaceF]
    simp only [heqW]
    by_cases h0 : ws.length = 0
    · rw [if_neg (by omega)]
      rw [dispatchSwitch_dot hwf1 hv0, if_pos h0]
      rw [hst1', hp1, h0]
      rfl
    · rw [if_pos (by omega)]
      have htok : (l₁.emit ItemWhitespace).1 = ⟨ItemWhitespace, 0, String.mk ws⟩ := by
        rw [emit_fst, hst1']
        rw [hTAKE, runesToString_map_some]
      have hl₂ : ((l₁.emit ItemWhitespace).2) = l₁.ignore := emit_snd l₁ ItemWhitespace
      have hst2 : (l₁.ignore).start = (ws.length : Int) := by
        rw [ignore_start, hst1', hTAKE, byteLen_ws hws]
        simp
      have hv2 : (l₁.ignore).peekVal 0 = some '.' := by
        rw [ignore_peekVal]
        exact hv0
      have hv21 : (l₁.ignore).peekVal 1 = (rest.map some).getD 0 none := by
        rw [ignore_peekVal]
        exact hp1
      rw [htok, hl₂, dispatchSwitch_dot (wfl_ignore l₁) hv2, hst2, hv21, if_neg h0]
  rw [scanTokens, scanRun]
  rw [← hA]
  have hF : scanFuel u = (3 * u.length + 2) + 1 := rfl
  rw [hF, runFuel]
  have hs2 : step StateTag.lexWhitespace A = ((if ws.length = 0 then [] else
      [⟨ItemWhitespace, 0, String.mk ws⟩]) ++
      [⟨ItemError, (ws.length : Int), "don't know what to do with '" ++
        runesToString [some '.', (rest.map some).getD 0 none] ++ "'"⟩], .halt) := hstep
  simp only [hs2]

/-- Specification of takeWhile against indexed lookups of the some-mapped
list, as the scanner's lookahead reads it. -/
theorem takeWhile_spec (p : Rune → Bool) (u : List Char) :
    (u.takeWhile (fun c => p (some c))).length ≤ u.length ∧
    (∀ i, i < (u.takeWhile (fun c => p (some c))).length →
      p ((u.map some).getD i none) = true) ∧
    (p none = false →
      p ((u.map some).getD (u.takeWhile (fun c => p (some c))).length none) = false) ∧
    u.take (u.takeWhile (fun c => p (some c))).length =
      u.takeWhile (fun c => p (some c)) := by
  induction u with
  | nil =>
      refine ⟨by simp, by simp, ?_, by simp⟩
      intro hp
      simpa using hp
  | cons a t ih =>
      obtain ⟨ih1, ih2, ih3, ih4⟩ := ih
      by_cases hpa : p (some a) = true
      · simp only [List.takeWhile_cons, hpa, if_true, List.length_cons]
        refine ⟨by simpa using ih1, ?_, ?_, ?_⟩
        · intro i hi
          cases i with
          | zero => simpa using hpa
          | succ i' =>
              have := ih2 i' (by omega)
              simpa using this
        · intro hpn
          have := ih3 hpn
          simpa using this
        · rw [List.take_succ_cons, ih4]
      · simp only [Bool.not_eq_true] at hpa
        simp only [List.takeWhile_cons, hpa, Bool.false_eq_true, if_false,
          List.length_nil]
        refine ⟨by simp, by simp, ?_, by simp⟩
        intro hpn
        simpa using hpa

/-- Lemma: the identifier tail always returns the carried items as a prefix
of its item list. -/
theorem identTail_prefix (acc : List Item) (l : Lexer) :
    (∃ suf out, identTail acc l = .inl (acc ++ suf, out)) ∨
    (∃ suf l', identTail acc l = .inr (acc ++ suf, l')) := by
  rw [identTail]
  rcases ha : acceptWhile isWhitespace l with p | nl₁
  · exact Or.inl ⟨[], .fault p, by simp⟩
  · rcases nl₁ with ⟨n, l₁⟩
    simp only
    by_cases hp : l₁.pos > 0
    · rw [if_pos hp]
      simp only
      rcases hpk : ((l₁.emit ItemWhitespace).2).peek with ⟨pk, l₃⟩
      by_cases hdot : (pk == some '.') = true
      · rw [if_pos hdot]
        exact Or.inr ⟨_, _, by rw [List.append_assoc]⟩
      · rw [if_neg hdot]
        exact Or.inl ⟨_, _, rfl⟩
    · rw [if_neg hp]
      simp only
      rcases hpk : l₁.peek with ⟨pk, l₃⟩
      by_cases hdot : (pk == some '.') = true
      · rw [if_pos hdot]
        exact Or.inr ⟨_, _, by rw [List.append_assoc]⟩
      · rw [if_neg hdot]
        exact Or.inl ⟨_, _, rfl⟩

/-- Helper: the first n lookahead values of a stream that carries the input
are the first n input characters. -/
theorem range_map_lookahead {u : List Char} {f : Nat → Rune}
    (hf : ∀ k, f k = (u.map some).getD k none) {n : Nat} (hn : n ≤ u.length) :
    (List.range n).map f = (u.take n).map some := by
  apply List.ext_getElem
  · simp
    omega
  · intro i h1 h2
    simp only [List.getElem_map, List.getElem_range, hf]
    have hiu : i < u.length := by
      simp at h1
      omega
    rw [List.getD_eq_getElem?_getD, List.getElem?_map, List.getElem?_eq_getElem hiu]
    simp only [Option.map_some', Option.getD_some]
    congr 1
    rw [List.getElem_take]

/-- The first iteration of lexIdentifierOrKeyword on a fresh span whose head
is a digit: it reads the maximal alphanumeric run as the first emitted item,
an Identifier at start offset 0. -/
theorem identLoop_clean (u : List Char) (j : Nat) (d₀ : Char) (u' : List Char)
    (hu : u = d₀ :: u') (hd : isAsciiDigit (some d₀) = true) :
    ∃ tl out, identLoop ⟨u.map some ++ List.replicate j none, 0, 0⟩ =
      (⟨ItemIdentifier, 0,
        String.mk (u.takeWhile (fun c => isAlphaNumeric (some c)))⟩ :: tl, out) := by
  set L : Lexer := ⟨u.map some ++ List.replicate j none, 0, 0⟩ with hL
  have hwfL : L.WFL := Nat.zero_le _
  have hpv : ∀ k, L.peekVal k = (u.map some).getD k none := by
    intro k
    rw [hL]
    simp only [Lexer.peekVal]
    rw [Nat.zero_add]
    exact getD_append_replicate_none _ _ _
  obtain ⟨hs1, hs2, hs3, hs4⟩ := takeWhile_spec isAlphaNumeric u
  set t : Nat := (u.takeWhile (fun c => isAlphaNumeric (some c))).length with ht
  have ht1 : 1 ≤ t := by
    by_contra h0
    have h00 : t = 0 := by omega
    have h2 := hs3 rfl
    rw [h00] at h2
    rw [hu] at h2
    simp only [List.map_cons, List.getD_cons_zero] at h2
    rw [isAlphaNumeric_of_digit hd] at h2
    exact absurd h2 (by decide)
  rcases hn : L.next with ⟨s, l₉⟩
  have hsv : s = some d₀ := by
    have h1 := next_fst L
    rw [hn] at h1
    simp only at h1
    rw [h1, hpv 0, hu]
    simp
  have hc9 : Consumed L l₉ 1 := by
    have := consumed_next L
    rwa [hn] at this
  have hwf9 : l₉.WFL := consumed_wfl hc9 hwfL
  have hk9 : ∀ k, l₉.peekVal k = L.peekVal (k + 1) := hc9.2.2.2.1
  have hall9 : ∀ i, i < t - 1 → isAlphaNumeric (l₉.peekVal i) = true := by
    intro i hi
    rw [hk9 i, hpv]
    exact hs2 (i + 1) (by omega)
  have hstop9 : isAlphaNumeric (l₉.peekVal (t - 1)) = false := by
    rw [hk9, hpv]
    have e : t - 1 + 1 = t := by omega
    rw [e]
    exact hs3 rfl
  obtain ⟨l₁₀, heqA, hconsA, hwf10, _⟩ :=
    acceptWhile_count_eq isAlphaNumeric rfl hwf9 hall9 hstop9
  have hcL10 : Consumed L l₁₀ t := by
    have h := consumed_trans hc9 hconsA
    have e : 1 + (t - 1) = t := by omega
    rwa [e] at h
  obtain ⟨hp10, hst10, hstr10, hk10, htk10⟩ := hcL10
  have hp10' : l₁₀.pos = t := by
    rw [hp10, hL]
    simp
  have hst10' : l₁₀.start = 0 := by
    rw [hst10, hL]
  have htake : l₁₀.stream.take l₁₀.pos =
      (u.takeWhile (fun c => isAlphaNumeric (some c))).map some := by
    rw [htk10]
    have h1 : L.stream.take L.pos = [] := by
      rw [hL]
      rfl
    rw [h1, List.nil_append, range_map_lookahead hpv (by omega)]
    rw [hs4]
  have htok : (l₁₀.emit ItemIdentifier).1 =
      ⟨ItemIdentifier, 0,
        String.mk (u.takeWhile (fun c => isAlphaNumeric (some c)))⟩ := by
    rw [emit_fst, hst10', htake, runesToString_map_some]
  have hISeq : identStep L = identTail [(l₁₀.emit ItemIdentifier).1]
      (l₁₀.emit ItemIdentifier).2 := by
    rw [identStep, hn]
    simp only
    have cbq : (s == (some '`' : Rune)) = false := by
      rw [Bool.eq_false_iff]
      intro hb
      have hbe : s = some '`' := by simpa using hb
      rw [hsv] at hbe
      simp only [Option.some.injEq] at hbe
      exact absurd hbe (asciiDigit_ne_char hd (by decide))
    rw [if_neg (by simp [cbq]), if_pos (by rw [hsv]; exact isAlphaNumeric_of_digit hd)]
    simp only [heqA]
  rcases identTail_prefix [(l₁₀.emit ItemIdentifier).1] ((l₁₀.emit ItemIdentifier).2) with
    ⟨suf, out, hT⟩ | ⟨suf, l', hT⟩
  · have hIS : identStep L = .inl ([(l₁₀.emit ItemIdentifier).1] ++ suf, out) := by
      rw [hISeq, hT]
    rw [identLoop_inl hIS, htok]
    exact ⟨suf, out, rfl⟩
  · have hIS : identStep L = .inr ([(l₁₀.emit ItemIdentifier).1] ++ suf, l') := by
      rw [hISeq, hT]
    rw [identLoop_inr hIS, htok]
    exact ⟨suf ++ (identLoop l').1, (identLoop l').2, rfl⟩

/-- The number state on a pure digit run followed by a non-exponent
identifier character: every phase after the digits accepts nothing, the
backtrack rewinds exactly to the entry position, and the identifier state is
entered with the entry state's stream, position and start offset. -/
theorem lexNumberF_exact {l : Lexer} (hwf : l.WFL) {m : Nat} (hm : 1 ≤ m)
    (hdig : ∀ i, i < m → isDigitRune (l.peekVal i) = true)
    {c : Char} (hvc : l.peekVal m = some c)
    (hcd : isDigitRune (some c) = false)
    (hdot : (['.'].contains c) = false)
    (heE : (['e', 'E'].contains c) = false)
    (hal : isAlphaNumeric (some c) = true) :
    ∃ l₈, lexNumberF l = ([], .cont .lexIdentifierOrKeyword l₈) ∧
      l₈.pos = l.pos ∧ l₈.start = l.start ∧
      (∃ j, l₈.stream = l.stream ++ List.replicate j none) ∧ l₈.WFL := by
  have hstop1 : isDigitRune (l.peekVal m) = false := by
    rw [hvc]
    exact hcd
  obtain ⟨l₁, h1, hc1, hwf1, _⟩ := acceptWhile_count_eq isDigitRune rfl hwf hdig hstop1
  have hv1 : l₁.peekVal 0 = some c := by
    rw [hc1.2.2.2.1 0]
    simpa using hvc
  have hno2 : ∀ c', l₁.peekVal 0 = some c' → (['.'].contains c') = false := by
    intro c' h'
    rw [hv1] at h'
    simp only [Option.some.injEq] at h'
    rw [← h']
    exact hdot
  obtain ⟨l₂, h2, hc2, hra2, hwf2⟩ := accept_no hwf1 hno2
  have h3eq : (if 0 > 0 then
      match acceptWhile isDigitRune l₂ with
      | .error p => .error p
      | .ok (n₂, l₃) => .ok (m + 1 + n₂, l₃)
    else .ok (m, l₂) : Except GoPanic (Nat × Lexer)) = .ok (m, l₂) := by
    rw [if_neg (by omega)]
  have hv2 : l₂.peekVal 0 = some c := by
    rw [hc2.2.2.2.1 0]
    simpa using hv1
  have hno4 : ∀ c', l₂.peekVal 0 = some c' → (['e', 'E'].contains c') = false := by
    intro c' h'
    rw [hv2] at h'
    simp only [Option.some.injEq] at h'
    rw [← h']
    exact heE
  obtain ⟨l₄, h4, hc4, hra4, hwf4⟩ := accept_no hwf2 hno4
  have h5eq : (if 0 > 0 then
      match l₄.accept ['+', '-'] with
      | .error p => .error p
      | .ok (sn, l₅) =>
          match acceptWhile isDigitRune l₅ with
          | .error p => .error p
          | .ok (n₃, l₆) => .ok (m + 1 + sn + n₃, l₆)
    else .ok (m, l₄) : Except GoPanic (Nat × Lexer)) = .ok (m, l₄) := by
    rw [if_neg (by omega)]
  rcases hpk : l₄.peek with ⟨pk, l₇⟩
  have hv4 : l₄.peekVal 0 = some c := by
    rw [hc4.2.2.2.1 0]
    simpa using hv2
  have hpkv : pk = some c := by
    have h' := peek_fst l₄
    rw [hpk] at h'
    simp only at h'
    rw [h', hv4]
  have h7 : isAlphaNumeric pk = true := by
    rw [hpkv]
    exact hal
  have hc7 : Consumed l l₇ m := by
    have hcp : Consumed l₄ l₇ 0 := by
      have := consumed_peek hwf4
      rwa [hpk] at this
    have t1 := consumed_trans hc1 hc2
    have t2 := consumed_trans t1 hc4
    have t3 := consumed_trans t2 hcp
    simpa using t3
  obtain ⟨hpos7, hst7, ⟨j, hstr7⟩, hv7, _⟩ := hc7
  have hb8 : l₇.backupWith m = .ok { l₇ with pos := l₇.pos - m } :=
    backupWith_ok (by omega)
  refine ⟨{ l₇ with pos := l₇.pos - m }, ?_, by simp only; omega, by simp only [hst7],
    ⟨j, by simp only [hstr7]⟩, ?_⟩
  · rw [lexNumberF]
    simp only [h1, h2, h3eq, h4, h5eq, hpk, h7, if_true, hb8]
  · rw [Lexer.WFL]
    simp only [hstr7, List.length_append]
    rw [Lexer.WFL] at hwf
    omega

/-- Amended claim C5: a nonempty pure-digit run immediately followed by an
identifier character that is not an exponent marker is rewound exactly by
the number state and emitted by the identifier state as a single Identifier
token spanning the maximal alphanumeric run, the first token of the scan.
(A numeric-looking prefix containing '.' is instead split at the dot by the
identifier state — see the counterexample.) -/
theorem claim_C5_amended (ds : List Char) (c : Char) (rest : List Char)
    (hds : ds ≠ []) (hall : ∀ d ∈ ds, isAsciiDigit (some d) = true)
    (hc : isAlphaNumeric (some c) = true)
    (hcd : isAsciiDigit (some c) = false)
    (hce : c ≠ 'e') (hcE : c ≠ 'E') :
    ∃ tks, scanTokens (ds ++ c :: rest) =
      ⟨ItemIdentifier, 0, String.mk ((ds ++ c :: rest).takeWhile
        (fun x => isAlphaNumeric (some x)))⟩ :: tks := by
  obtain ⟨d₀, ds', hds0⟩ : ∃ d₀ ds', ds = d₀ :: ds' := by
    cases ds with
    | nil => exact absurd rfl hds
    | cons a t => exact ⟨a, t, rfl⟩
  set u : List Char := ds ++ c :: rest with hu
  set A : Lexer := initLexer u with hA
  have hwfA : A.WFL := initLexer_wfl u
  have hAv : ∀ k, A.peekVal k = (u.map some).getD k none := by
    intro k
    rw [hA]
    exact initLexer_peekVal u k
  have hAstream : A.stream = u.map some := by
    rw [hA]
    rfl
  have hu0 : u = d₀ :: (ds' ++ c :: rest) := by
    rw [hu, hds0]
    rfl
  have hd₀ : isAsciiDigit (some d₀) = true := hall d₀ (by rw [hds0]; simp)
  have hmap : u.map some = ds.map some ++ (some c :: rest.map some) := by
    rw [hu, List.map_append, List.map_cons]
  have hdigA : ∀ i, i < ds.length → isDigitRune (A.peekVal i) = true := by
    intro i hi
    rw [hAv i, hmap, getD_append_lt _ _ _ (by rw [List.length_map]; omega),
      getD_map_some_lt hi, isDigitRune_eq_isAsciiDigit]
    exact hall _ (ds.get_mem _ _)
  have hvcA : A.peekVal ds.length = some c := by
    rw [hAv, hmap, getD_append_ge _ _ _ (by simp)]
    simp
  have hA0 : A.peekVal 0 = some d₀ := by
    rw [hAv 0, hu0]
    simp
  have hstop0 : isWhitespace (A.peekVal 0) = false := by
    rw [hA0]
    exact isWhitespace_eq_false_of_digit hd₀
  obtain ⟨l₁, heqW, hconsW, hwf1, _⟩ :=
    acceptWhile_count_eq isWhitespace rfl hwfA (fun i hi => absurd hi (by omega)) hstop0
  have hpos1' : l₁.pos = 0 := by
    have := hconsW.1
    simpa [hA, initLexer] using this
  have hv10 : l₁.peekVal 0 = some d₀ := by
    have := hconsW.2.2.2.1 0
    rw [this]
    simpa using hA0
  obtain ⟨l₄, hDisp, hc24, hwf4⟩ := dispatchSwitch_digit hwf1 hv10 hd₀
  have hcA4 : Consumed A l₄ 0 := by
    have := consumed_trans hconsW hc24
    simpa using this
  have hstep1 : lexWhitespaceF A = ([], .cont .lexNumber l₄) := by
    rw [lexWhitespaceF]
    simp only [heqW]
    rw [if_neg (by omega)]
    exact hDisp
  have hk4 : ∀ k, l₄.peekVal k = A.peekVal k := by
    intro k
    have := hcA4.2.2.2.1 k
    simpa using this
  have hdig4 : ∀ i, i < ds.length → isDigitRune (l₄.peekVal i) = true := by
    intro i hi
    rw [hk4 i]
    exact hdigA i hi
  have hvc4 : l₄.peekVal ds.length = some c := by
    rw [hk4]
    exact hvcA
  have hm : 1 ≤ ds.length := by
    rw [hds0]
    simp
  have hdotC : (['.'].contains c) = false := by
    rw [Bool.eq_false_iff]
    intro hb
    have hcc : c = '.' := by simpa using hb
    subst hcc
    exact absurd hc (by decide)
  have heEC : (['e', 'E'].contains c) = false := by
    rw [Bool.eq_false_iff]
    intro hb
    have hcc : c = 'e' ∨ c = 'E' := by simpa using hb
    rcases hcc with hcc | hcc
    · exact absurd hcc hce
    · exact absurd hcc hcE
  have hcdD : isDigitRune (some c) = false := by
    rw [isDigitRune_eq_isAsciiDigit]
    exact hcd
  obtain ⟨l₈, hNum, hp8, hst8, ⟨j₂, hstr8⟩, hwf8⟩ :=
    lexNumberF_exact hwf4 hm hdig4 hvc4 hcdD hdotC heEC hc
  have hstep2 : lexNumberF l₄ = ([], .cont .lexIdentifierOrKeyword l₈) := hNum
  obtain ⟨j₁, hstr4⟩ := hcA4.2.2.1
  have hpos4' : l₄.pos = 0 := by
    have := hcA4.1
    simpa [hA, initLexer] using this
  have hst4' : l₄.start = 0 := by
    have := hcA4.2.1
    simpa [hA, initLexer] using this
  have hL8 : l₈ = ⟨u.map some ++ List.replicate (j₁ + j₂) none, 0, 0⟩ := by
    have he : l₈ = ⟨l₈.stream, l₈.pos, l₈.start⟩ := rfl
    rw [he, hstr8, hstr4, hAstream, hp8, hpos4', hst8, hst4']
    rw [List.append_assoc, ← List.replicate_add]
  obtain ⟨tl, out, hIdent⟩ :=
    identLoop_clean u (j₁ + j₂) d₀ (ds' ++ c :: rest) hu0 hd₀
  have hstep3 : lexIdentifierOrKeywordF l₈ =
      (⟨ItemIdentifier, 0, String.mk (u.takeWhile
        (fun c => isAlphaNumeric (some c)))⟩ :: tl, out) := by
    rw [lexIdentifierOrKeywordF, hL8]
    exact hIdent
  have hs1 : step StateTag.lexWhitespace A = ([], .cont .lexNumber l₄) := hstep1
  have hs2 : step StateTag.lexNumber l₄ = ([], .cont .lexIdentifierOrKeyword l₈) := hstep2
  have hs3 : step StateTag.lexIdentifierOrKeyword l₈ =
      (⟨ItemIdentifier, 0, String.mk (u.takeWhile
        (fun c => isAlphaNumeric (some c)))⟩ :: tl, out) := hstep3
  have e3 : ∃ tks, (runFuel ((3 * u.length) + 1) .lexIdentifierOrKeyword l₈).1 =
      ⟨ItemIdentifier, 0, String.mk (u.takeWhile
        (fun c => isAlphaNumeric (some c)))⟩ :: tks := by
    rw [runFuel]
    cases out with
    | halt =>
        simp only [hs3]
        exact ⟨tl, rfl⟩
    | fault p =>
        simp only [hs3]
        exact ⟨tl, rfl⟩
    | cont tag' l' =>
        simp only [hs3]
        rcases hr : runFuel (3 * u.length) tag' l' with ⟨more, rr⟩
        simp only [hr]
        exact ⟨tl ++ more, by simp⟩
  obtain ⟨tks, he3⟩ := e3
  refine ⟨tks, ?_⟩
  rw [scanTokens, scanRun, ← hA]
  have hF1 : scanFuel u = ((3 * u.length + 1) + 1) + 1 := rfl
  rw [hF1, runFuel]
  simp only [hs1]
  rcases hr1 : runFuel ((3 * u.length + 1) + 1) StateTag.lexNumber l₄ with ⟨m1, r1⟩
  have hr1c := hr1
  rw [runFuel] at hr1c
  simp only [hs2] at hr1c
  rcases hr2 : runFuel (3 * u.length + 1) StateTag.lexIdentifierOrKeyword l₈ with ⟨m2, r2⟩
  rw [hr2] at hr1c
  simp only [List.nil_append, Prod.mk.injEq] at hr1c
  rw [hr2] at he3
  simp only at he3
  simp only [hr1, List.nil_append]
  rw [← hr1c.1]
  exact he3

/-- Witness for amended claim C5 at the input "123abc". -/
theorem claim_C5_amended_witness :
    (['1', '2', '3'] : List Char) ≠ [] ∧
    ∃ tks, scanTokens (['1', '2', '3'] ++ 'a' :: ['b', 'c']) =
      ⟨ItemIdentifier, 0, String.mk ((['1', '2', '3'] ++ 'a' :: ['b', 'c']).takeWhile
        (fun x => isAlphaNumeric (some x)))⟩ :: tks :=
  ⟨by decide, claim_C5_amended ['1', '2', '3'] 'a' ['b', 'c'] (by decide) (by decide)
    (by decide) (by decide) (by decide) (by decide)⟩

/-- Witness for amended claim C7 at the input " .a". -/
theorem claim_C7_amended_witness :
    (∀ w ∈ ([' '] : List Char), isWhitespace (some w) = true) ∧
    scanTokens ([' '] ++ '.' :: ['a']) =
      (if ([' '] : List Char).length = 0 then [] else
        [⟨ItemWhitespace, 0, String.mk [' ']⟩]) ++
      [⟨ItemError, ((([' '] : List Char).length : Int)),
        "don't know what to do with '" ++
          runesToString [some '.', ((['a'].map some).getD 0 none)] ++ "'"⟩] :=
  ⟨by decide, claim_C7_amended [' '] ['a'] (by decide)⟩
